import Mathlib

/-!
Verification of the cycleDetect header-dependency analyzer (cdetect.py).

The development embeds the Python source shallowly:
* header names and file contents are lists of characters;
* the regular-expression operations (`commentRE`, `includeRE`, `filenameRE`)
  are modelled as executable scanners with the exact Python `re` semantics
  (leftmost match, alternation order, greedy and non-greedy repetition);
* the global node registry is an ordered association list;
* Tarjan's algorithm is a fuel-indexed state interpreter over the registry.
-/

abbrev Name := List Char

def s2n (s : String) : Name := s.data

/-! ### Comment stripping: commentRE = (/\*(?:.|[\r\n])*?\*/)|(//.*[\r\n]) -/

/-- Non-greedy scan for the first `*/` after a `/*`; returns the remainder
after the closing delimiter, or `none` when the block comment is unclosed. -/
def skipToClose : List Char → Option (List Char)
  | [] => none
  | [_] => none
  | c :: d :: rest => if c = '*' && d = '/' then some rest else skipToClose (d :: rest)

/-- The part of `//.*[\r\n]` after the two slashes: with a greedy `.*` that
cannot cross a newline, the match consumes through the first `'\n'` when one
exists, otherwise through the last `'\r'`, and fails when neither occurs. -/
def afterLineComment : List Char → Option (List Char)
  | [] => none
  | c :: rest =>
    if c = '\n' then some rest
    else
      match afterLineComment rest with
      | some r => some r
      | none => if c = '\r' then some rest else none

/-- Model of `re.sub(commentRE, "", input)`: scan left to right, at each
position try the block-comment branch first, then the line-comment branch;
on a match remove it and continue after it, otherwise keep one character. -/
def stripComments : List Char → List Char
  | [] => []
  | '/' :: '*' :: rest =>
    match h : skipToClose rest with
    | some r => stripComments r
    | none => '/' :: stripComments ('*' :: rest)
  | '/' :: '/' :: rest =>
    match h : afterLineComment rest with
    | some r => stripComments r
    | none => '/' :: stripComments ('/' :: rest)
  | c :: rest => c :: stripComments rest
termination_by s => s.length
decreasing_by
  · have H : ∀ s r, skipToClose s = some r → r.length < s.length := by
      intro s
      induction s with
      | nil => intro r hr; simp [skipToClose] at hr
      | cons c0 cs0 ih =>
        intro r hr
        cases cs0 with
        | nil => simp [skipToClose] at hr
        | cons d ds =>
          simp only [skipToClose] at hr
          split at hr
          · simp at hr; subst hr; simp; omega
          · have := ih r hr
            simp at this ⊢
            omega
    have := H rest r h
    simp; omega
  · simp
  · have H : ∀ s r, afterLineComment s = some r → r.length < s.length := by
      intro s
      induction s with
      | nil => intro r hr; simp [afterLineComment] at hr
      | cons c0 cs0 ih =>
        intro r hr
        simp only [afterLineComment] at hr
        by_cases hc : c0 = '\n'
        · simp [hc] at hr; subst hr; simp
        · simp [hc] at hr
          cases hrec : afterLineComment cs0 with
          | some r0 =>
            rw [hrec] at hr; simp at hr; subst hr
            have := ih r0 hrec
            simp; omega
          | none =>
            rw [hrec] at hr
            by_cases hcr : c0 = '\r'
            · simp [hcr] at hr; subst hr; simp
            · simp [hcr] at hr
    have := H rest r h
    simp; omega
  · simp
  · simp

/-- Whether the input contains an occurrence of the two-character close
delimiter `*/` (used to state when a block comment body is delimiter-free). -/
def hasClose : List Char → Bool
  | [] => false
  | [_] => false
  | c :: d :: rest => (c = '*' && d = '/') || hasClose (d :: rest)

/-! ### Include scanning: includeRE = #include \".*\" -/

def includeLit : List Char := ['#', 'i', 'n', 'c', 'l', 'u', 'd', 'e', ' ', '"']

/-- Match a literal at the head of the input, returning the remainder. -/
def dropLit : List Char → List Char → Option (List Char)
  | [], s => some s
  | _ :: _, [] => none
  | l :: ls, c :: cs => if c = l then dropLit ls cs else none

/-- Index of the last `'"'` inside the longest newline-free prefix: the
greedy `.*` (which cannot match `'\n'`) extends to the last closing quote. -/
def lastQuote : List Char → Option Nat
  | [] => none
  | c :: cs =>
    if c = '\n' then none
    else
      match lastQuote cs with
      | some p => some (p + 1)
      | none => if c = '"' then some 0 else none

/-- Model of `re.findall(includeRE, text)`: non-overlapping leftmost matches
of `#include "` followed by a greedy `.*` and a closing quote. -/
def findIncludes : List Char → List (List Char)
  | [] => []
  | c :: cs =>
    match h1 : dropLit includeLit (c :: cs) with
    | some rest =>
      match h2 : lastQuote rest with
      | some p => (includeLit ++ rest.take (p + 1)) :: findIncludes (rest.drop (p + 1))
      | none => findIncludes cs
    | none => findIncludes cs
termination_by s => s.length
decreasing_by
  · have HD : ∀ l s r, dropLit l s = some r → r.length + l.length = s.length := by
      intro l
      induction l with
      | nil => intro s r hr; simp [dropLit] at hr; subst hr; simp
      | cons x xs ih =>
        intro s r hr
        cases s with
        | nil => simp [dropLit] at hr
        | cons c0 cs0 =>
          simp only [dropLit] at hr
          by_cases hc : c0 = x
          · simp [hc] at hr
            have := ih cs0 r hr
            simp; omega
          · simp [hc] at hr
    have HQ : ∀ s p, lastQuote s = some p → p < s.length := by
      intro s
      induction s with
      | nil => intro p hp; simp [lastQuote] at hp
      | cons c0 cs0 ih =>
        intro p hp
        simp only [lastQuote] at hp
        by_cases hc : c0 = '\n'
        · simp [hc] at hp
        · simp [hc] at hp
          cases hrec : lastQuote cs0 with
          | some q =>
            rw [hrec] at hp; simp at hp
            have := ih q hrec
            simp; omega
          | none =>
            rw [hrec] at hp
            by_cases hq : c0 = '"'
            · simp [hq] at hp; simp; omega
            · simp [hq] at hp
    have hd := HD _ _ _ h1
    have hp := HQ _ _ h2
    simp [includeLit] at hd
    simp
    omega
  · simp
  · simp

/-! ### Filename extraction: filenameRE = [a-zA-z]*\.(hpp|h) -/

/-- The character class `[a-zA-z]`: the ASCII range from `'a'` to `'z'`
union the range from `'A'` to `'z'`, i.e. every character whose code lies
between `'A'` and `'z'` (this includes the six punctuation characters that
sit between `'Z'` and `'a'`, such as `'_'`). -/
def isCls (c : Char) : Bool := 'A' ≤ c && c ≤ 'z'

/-- Match `\.(hpp|h)` at the head of the input (alternation tries `hpp`
first), returning the matched characters. -/
def tryDotExt : List Char → Option (List Char)
  | '.' :: 'h' :: 'p' :: 'p' :: _ => some ['.', 'h', 'p', 'p']
  | '.' :: 'h' :: _ => some ['.', 'h']
  | _ => none

/-- Match `[a-zA-z]*\.(hpp|h)` anchored at the head, with a greedy star and
backtracking: consume as many class characters as possible, then retreat
until the dot-extension tail matches. -/
def matchHere : List Char → Option (List Char)
  | [] => none
  | c :: rest =>
    if isCls c then
      match matchHere rest with
      | some m => some (c :: m)
      | none => tryDotExt (c :: rest)
    else tryDotExt (c :: rest)

/-- Model of `re.search(filenameRE, s)`: leftmost match of the filename
pattern, or `none` (in which case the Python code raises AttributeError). -/
def search : List Char → Option (List Char)
  | [] => none
  | c :: rest =>
    match matchHere (c :: rest) with
    | some m => some m
    | none => search rest

/-- The Edge Extractor of the specification (the composition used at
`constructGraph` line 129): all include directives of the comment-stripped
source text. -/
def extractIncludes (text : List Char) : List (List Char) :=
  findIncludes (stripComments text)

/-! ### Graph construction (class Node, constructGraph) -/

/-- The global registry `Node.nodes`, in insertion order.  Each entry pairs a
node's `name` with its `links` (the names of the nodes it points to).  Links
may be stored as names because the registry never holds two nodes with the
same name (proved below), so a name determines the linked node object. -/
abbrev Reg := List (Name × List Name)

/-- Model of `Node.inNodes`: whether a node with this name is registered. -/
def inNodes (reg : Reg) (n : Name) : Bool := reg.any fun e => e.1 = n

/-- Append `tgt` to the links of the first registry entry named `self`
(this models `self.links.append(...)` on the registered node object). -/
def appendLink : Reg → Name → Name → Reg
  | [], _, _ => []
  | e :: rest, self, tgt =>
    if e.1 = self then (e.1, e.2 ++ [tgt]) :: rest else e :: appendLink rest self tgt

/-- Model of `Node.addLink`: link to the existing node when the target name
is registered, otherwise register a fresh node (with no links) at the end of
`Node.nodes` and link to it. -/
def addLink (reg : Reg) (self tgt : Name) : Reg :=
  if inNodes reg tgt then appendLink reg self tgt
  else appendLink (reg ++ [(tgt, [])]) self tgt

/-- Model of `isValidFile`: the name ends in `.h` or `.hpp`. -/
def isValidFile (file : Name) : Bool :=
  List.isSuffixOf ['.', 'h'] file || List.isSuffixOf ['.', 'h', 'p', 'p'] file

/-- The per-directive body of `constructGraph`'s inner loop:
`node.addLink(re.search(filenameRE, inc).group())`.  A directive with no
filename match makes `.group()` raise AttributeError, modelled as `none`. -/
def processIncs (self : Name) : Reg → List (List Char) → Option Reg
  | reg, [] => some reg
  | reg, inc :: rest =>
    match search inc with
    | some m => processIncs self (addLink reg self m) rest
    | none => none

/-- One iteration of `constructGraph`'s outer loop: register the scanned file
if new, then process every `#include` found in its comment-stripped text. -/
def scanFile (reg : Reg) (fname : Name) (content : List Char) : Option Reg :=
  let reg1 := if inNodes reg fname then reg else reg ++ [(fname, [])]
  processIncs fname reg1 (extractIncludes content)

def buildLoop : Reg → List (Name × List Char) → Option Reg
  | reg, [] => some reg
  | reg, (fname, content) :: t =>
    match scanFile reg fname content with
    | some reg2 => buildLoop reg2 t
    | none => none

/-- Model of `constructGraph`: the directory is abstracted as the ordered
listing of (file name, file text) pairs; only names passing `isValidFile`
are scanned.  `none` models the uncaught AttributeError on a matched
directive with no filename pattern. -/
def constructGraph (files : List (Name × List Char)) : Option Reg :=
  buildLoop [] (files.filter fun f => isValidFile f.1)

/-- The links of the node named `n` (empty when unregistered). -/
def linksOf (reg : Reg) (n : Name) : List Name :=
  match reg.find? (fun e => e.1 = n) with
  | some e => e.2
  | none => []

/-! ### Tarjan's algorithm (tarjan, main) -/

/-- The mutable program state during `main`'s analysis phase: per-node
`index` and `lowlink` (the `-1` sentinel marks an unvisited index),
`Node.indexCount`, `Node.nodeStack` (head is the top of the stack), the
reported cycles in output order, and the `cyclesDetected` flag. -/
structure TState where
  idx : Name → Int
  low : Name → Int
  cnt : Int
  stack : List Name
  out : List (List Name)
  cyc : Bool

/-- State at interpreter start: all indices `-1`, all lowlinks `0`,
`indexCount = 0`, empty stack, nothing reported. -/
def initTS : TState :=
  { idx := fun _ => -1, low := fun _ => 0, cnt := 0, stack := [], out := [], cyc := false }

def updF (f : Name → Int) (x : Name) (v : Int) : Name → Int :=
  fun y => if y = x then v else f y

/-- Model of the pop loop `cycle.append(pop()); while cycle[-1] != n: ...`:
pop down to and including `n`, returning the popped list (top first) and the
remaining stack; `none` models the IndexError of popping an empty stack when
`n` is not on it (unreachable in actual runs). -/
def popUntil : List Name → Name → Option (List Name × List Name)
  | [], _ => none
  | t :: rest, n =>
    if t = n then some ([t], rest)
    else
      match popUntil rest n with
      | some (c, r) => some (t :: c, r)
      | none => none

/-- The entry code of `tarjan(n)`: assign the next index as both `index` and
`lowlink`, advance the counter and push `n`. -/
def visit (st : TState) (n : Name) : TState :=
  { st with idx := updF st.idx n st.cnt, low := updF st.low n st.cnt,
            cnt := st.cnt + 1, stack := n :: st.stack }

/-- The `for child in n.links` loop of `tarjan`, parameterized by the
recursive call `rec`: recurse into unvisited children and absorb their
lowlinks, absorb the index of children on the stack, skip the rest. -/
def childLoop (rec : TState → Name → Option TState) (n : Name) :
    TState → List Name → Option TState
  | st, [] => some st
  | st, c :: cs =>
    if st.idx c = -1 then
      match rec st c with
      | some st2 =>
        childLoop rec n { st2 with low := updF st2.low n (min (st2.low n) (st2.low c)) } cs
      | none => none
    else if c ∈ st.stack then
      childLoop rec n { st with low := updF st.low n (min (st.low n) (st.idx c)) } cs
    else childLoop rec n st cs

/-- The exit code of `tarjan(n)`: when `lowlink == index`, pop the completed
component and report it as a cycle exactly when it has more than one node. -/
def popPhase (st : TState) (n : Name) : Option TState :=
  if st.low n = st.idx n then
    match popUntil st.stack n with
    | some (cyc0, rest) =>
      if 1 < cyc0.length then
        some { st with stack := rest, out := st.out ++ [cyc0], cyc := true }
      else some { st with stack := rest }
    | none => none
  else some st

/-- Model of `tarjan(n)`, indexed by fuel bounding the recursion depth
(`none` on fuel exhaustion; enough fuel is proved to exist below). -/
def tarjanF (adj : Name → List Name) : Nat → TState → Name → Option TState
  | 0, _, _ => none
  | fuel + 1, st, n =>
    match childLoop (tarjanF adj fuel) n (visit st n) (adj n) with
    | some st2 => popPhase st2 n
    | none => none

/-- The `for node in Node.nodes: tarjan(node)` loop of `main`: note that it
calls `tarjan` on every node unconditionally. -/
def mainLoop (adj : Name → List Name) (fuel : Nat) : TState → List Name → Option TState
  | st, [] => some st
  | st, n :: rest =>
    match tarjanF adj fuel st n with
    | some st2 => mainLoop adj fuel st2 rest
    | none => none

/-- The analysis phase of `main` on a graph given by node list and adjacency. -/
def runTarjan (nodes : List Name) (adj : Name → List Name) : Option TState :=
  mainLoop adj (nodes.length + 1) initTS nodes

/-- The node names in registry order (`Node.nodes`). -/
def nodesOf (reg : Reg) : List Name := reg.map Prod.fst

/-- End-to-end pipeline of `main` after argument validation: build the graph
from the directory listing, run Tarjan over every node, and return the
reported cycles together with the `cyclesDetected` flag. -/
def runProgram (files : List (Name × List Char)) : Option (List (List Name) × Bool) :=
  match constructGraph files with
  | some reg =>
    match runTarjan (nodesOf reg) (linksOf reg) with
    | some st => some (st.out, st.cyc)
    | none => none
  | none => none

/-- Whether the final summary line "No cyclic dependencies detected." is
printed: exactly when `cyclesDetected` is still false. -/
def summaryPrinted (st : TState) : Bool := !st.cyc

/-- The chain printed for a reported cycle: the popped names in order,
closed by repeating the first popped name. -/
def printedChain (g : List Name) : List Name := g ++ g.take 1

/-- The reported cycles of an analysis result (empty when the run failed). -/
def outOf : Option TState → List (List Name)
  | some st => st.out
  | none => []

/-- The observable result of the analysis phase: the reported cycles and the
`cyclesDetected` flag. -/
def tarjanOut (nodes : List Name) (adj : Name → List Name) :
    Option (List (List Name) × Bool) :=
  (runTarjan nodes adj).map fun st => (st.out, st.cyc)

/-- Modelled from the spec: the main loop as the specification describes it,
visiting a node as a DFS root only if it has not been visited yet ("Visit
every node in the graph exactly once as a DFS root if not already visited
(index unset)").  Used only to compare against `mainLoop`, which the source
code writes without the visited check. -/
def mainLoopChecked (adj : Name → List Name) (fuel : Nat) :
    TState → List Name → Option TState
  | st, [] => some st
  | st, n :: rest =>
    if st.idx n = -1 then
      match tarjanF adj fuel st n with
      | some st2 => mainLoopChecked adj fuel st2 rest
      | none => none
    else mainLoopChecked adj fuel st rest

/-! ### Graph-theoretic vocabulary for the correctness statements -/

/-- The edge relation of an adjacency function. -/
def Edge (adj : Name → List Name) (a b : Name) : Prop := b ∈ adj a

/-- Reachability (zero or more edges). -/
def Reaches (adj : Name → List Name) : Name → Name → Prop :=
  Relation.ReflTransGen (Edge adj)

/-- Reachability by at least one edge. -/
def ReachesPlus (adj : Name → List Name) : Name → Name → Prop :=
  Relation.TransGen (Edge adj)

/-- A directed graph is acyclic when no node lies on a directed cycle
(a self-loop being the cycle of length one). -/
def Acyclic (adj : Name → List Name) : Prop := ∀ n, ¬ ReachesPlus adj n n

/-- Every target of an adjacency list is itself a node: true of all graphs
the program constructs, since `addLink` registers each link target. -/
def ClosedAdj (nodes : List Name) (adj : Name → List Name) : Prop :=
  ∀ n, n ∈ nodes → ∀ c, c ∈ adj n → c ∈ nodes

/-! ### Concrete instances used in counterexamples and witnesses -/

/-- Directory with one header that includes itself. -/
def selfLoopDir : List (Name × List Char) := [(s2n "a.hpp", s2n "#include \"a.hpp\"")]

/-- Directory with one header holding a quoted include with no filename
pattern inside. -/
def badIncDir : List (Name × List Char) := [(s2n "a.h", s2n "#include \"foo.txt\"")]

/-- Directory whose single header is one `//` comment, not newline-terminated. -/
def lastLineDir : List (Name × List Char) := [(s2n "b.h", s2n "// #include \"a.h\"")]

/-- Two-node acyclic registry: `a.h` includes `b.h`. -/
def regAB : Reg := [(s2n "a.h", [s2n "b.h"]), (s2n "b.h", [])]

/-- Two-node cyclic registry: `a.hpp` and `b.hpp` include each other. -/
def regCyc2 : Reg := [(s2n "a.hpp", [s2n "b.hpp"]), (s2n "b.hpp", [s2n "a.hpp"])]


/-! ### Invariants and per-call postconditions for the Tarjan interpreter -/

/-- Number of nodes of the graph not yet visited (index still `-1`). -/
def unvisCount (nodes : List Name) (st : TState) : Nat :=
  (nodes.filter fun m => st.idx m = -1).length

/-- State well-formedness maintained by the algorithm: stack entries are
visited, indices are `-1` or a past counter value, assigned indices are
pairwise distinct, and the stack is strictly sorted by index (top first). -/
structure SInv (st : TState) : Prop where
  stackVis : ∀ m ∈ st.stack, st.idx m ≠ -1
  idxLt : ∀ m, st.idx m < st.cnt
  cntPos : 0 ≤ st.cnt
  idxGe : ∀ m, -1 ≤ st.idx m
  inj : ∀ u v, st.idx u ≠ -1 → st.idx u = st.idx v → u = v
  sorted : st.stack.Pairwise fun a b => st.idx b < st.idx a

/-- Postcondition of one complete `tarjan(n)` call on an unvisited `n`,
relating the entry state `st` to the exit state `st'`. -/
structure TPost (adj : Name → List Name) (st st' : TState) (n : Name) : Prop where
  inv : SInv st'
  cnt_lt : st.cnt < st'.cnt
  idx_n : st'.idx n = st.cnt
  frozen_idx : ∀ m, st.idx m ≠ -1 → st'.idx m = st.idx m
  frozen_low : ∀ m, st.idx m ≠ -1 → st'.low m = st.low m
  vis_mono : ∀ m, st'.idx m = -1 → st.idx m = -1
  fresh_ge : ∀ m, st.idx m = -1 → st'.idx m ≠ -1 → st.cnt ≤ st'.idx m
  stack_shape : ∃ T, st'.stack = T ++ st.stack ∧
    ∀ m ∈ T, st.idx m = -1 ∧ st.cnt ≤ st'.idx m ∧ st'.low m < st'.idx m
  low_le : st'.low n ≤ st'.idx n
  pop_eq : st'.low n = st'.idx n → st'.stack = st.stack
  mem_lt : st'.low n < st'.idx n → n ∈ st'.stack
  low_ge : ∀ b : Int, b ≤ st.cnt → (∀ m ∈ st.stack, b ≤ st.idx m) → b ≤ st'.low n
  low_tree : ∀ m, st.idx m = -1 → st'.idx m ≠ -1 → st'.low n ≤ st'.low m
  low_edge : ∀ u, (u = n ∨ (st.idx u = -1 ∧ st'.idx u ≠ -1)) →
    ∀ z ∈ adj u, z ∈ st'.stack → st'.idx z < st.cnt → st'.low n ≤ st'.idx z
  out_shape : ∃ new, st'.out = st.out ++ new ∧
    ∀ g ∈ new, 2 ≤ g.length ∧ g.Nodup ∧ ∀ u ∈ g, st.idx u = -1 ∧ st'.idx u ≠ -1
  closed_new : ∀ m, st.idx m = -1 → st'.idx m ≠ -1 → ∀ c ∈ adj m, st'.idx c ≠ -1
  cyc_keep : st'.out = st.out → st'.cyc = st.cyc

/-- Postcondition of the child loop of `tarjan(n)` run from `st` over the
remaining children `cs` (with `n` already visited and on the stack). -/
structure CPost (adj : Name → List Name) (st st' : TState) (n : Name) (cs : List Name) :
    Prop where
  inv : SInv st'
  cnt_le : st.cnt ≤ st'.cnt
  frozen_idx : ∀ m, st.idx m ≠ -1 → st'.idx m = st.idx m
  frozen_low : ∀ m, st.idx m ≠ -1 → m ≠ n → st'.low m = st.low m
  vis_mono : ∀ m, st'.idx m = -1 → st.idx m = -1
  fresh_ge : ∀ m, st.idx m = -1 → st'.idx m ≠ -1 → st.cnt ≤ st'.idx m
  stack_shape : ∃ T, st'.stack = T ++ st.stack ∧
    ∀ m ∈ T, st.idx m = -1 ∧ st.cnt ≤ st'.idx m ∧ st'.low m < st'.idx m
  low_decr : st'.low n ≤ st.low n
  low_ge : ∀ b : Int, b ≤ st.cnt → (∀ m ∈ st.stack, b ≤ st.idx m) → b ≤ st.low n →
    b ≤ st'.low n
  low_tree : ∀ m, st.idx m = -1 → st'.idx m ≠ -1 → st'.low n ≤ st'.low m
  low_edge : ∀ z ∈ cs, z ∈ st'.stack → st'.idx z < st.cnt → st'.low n ≤ st'.idx z
  low_edge_fresh : ∀ u, st.idx u = -1 → st'.idx u ≠ -1 →
    ∀ z ∈ adj u, z ∈ st'.stack → st'.idx z < st.cnt → st'.low n ≤ st'.idx z
  children_vis : ∀ c ∈ cs, st'.idx c ≠ -1
  out_shape : ∃ new, st'.out = st.out ++ new ∧
    ∀ g ∈ new, 2 ≤ g.length ∧ g.Nodup ∧ ∀ u ∈ g, st.idx u = -1 ∧ st'.idx u ≠ -1
  closed_new : ∀ m, st.idx m = -1 → st'.idx m ≠ -1 → ∀ c2 ∈ adj m, st'.idx c2 ≠ -1
  cyc_keep : st'.out = st.out → st'.cyc = st.cyc


/-- The quiescent invariant of `main`'s loop: between top-level `tarjan`
calls the state is well-formed, the stack is empty, and every visited node
has all its children visited (completed calls close their subtrees). -/
def QInv (adj : Name → List Name) (st : TState) : Prop :=
  SInv st ∧ st.stack = [] ∧ ∀ m, st.idx m ≠ -1 → ∀ c ∈ adj m, st.idx c ≠ -1

/-! ### Vocabulary for the single-cycle analysis (claim C4)

`C` is the node list of the unique cycle.  A run is in phase `NoC` while no
member of `C` has been visited, and in phase `DoneC` once all members are
visited and off the stack (the component has been popped and reported). -/

/-- No member of the cycle list has been visited yet. -/
def NoC (C : List Name) (st : TState) : Prop := ∀ m ∈ C, st.idx m = -1

/-- All members of the cycle list are visited and none is on the stack. -/
def DoneC (C : List Name) (st : TState) : Prop :=
  ∀ m ∈ C, st.idx m ≠ -1 ∧ m ∉ st.stack

/-- Position of the first occurrence of `m` in the list. -/
def idxOfD : List Name → Name → Nat
  | [], _ => 0
  | x :: rest, m => if m = x then 0 else idxOfD rest m + 1

/-- The successor of `m` along the cycle list `C` (wrapping at the end). -/
def cycSucc (C : List Name) (m : Name) : Name :=
  C.getD ((idxOfD C m + 1) % C.length) []

/-- Postcondition of a `tarjan` call on a fresh node made while the
first-visited cycle member `r` is on the stack: no component is reported,
visited cycle members stay stacked, no other node joins the stack, every
newly visited cycle member has its cycle successor visited, and the
returned lowlink is at least `index(r)`. -/
structure MPost (C : List Name) (fsucc : Name → Name) (r : Name)
    (st st' : TState) (n : Name) : Prop where
  out_eq : st'.out = st.out
  cyc_eq : st'.cyc = st.cyc
  vis_mono : ∀ m, st'.idx m = -1 → st.idx m = -1
  cvis_stack : ∀ m ∈ C, st'.idx m ≠ -1 → m ∈ st'.stack
  nonc_stack : ∀ m, m ∉ C → m ∈ st'.stack → m ∈ st.stack
  succ_vis : ∀ m ∈ C, st.idx m = -1 → st'.idx m ≠ -1 → st'.idx (fsucc m) ≠ -1
  low_ge_r : st.idx r ≤ st'.low n
  notC : n ∉ C → st'.stack = st.stack ∧ st'.low n = st.cnt ∧
    ∀ m ∈ C, st.idx m = -1 → st'.idx m = -1

/-- Loop version of `MPost` for the child loop of such a call. -/
structure CMPost (C : List Name) (fsucc : Name → Name) (r : Name)
    (st st' : TState) (n : Name) : Prop where
  out_eq : st'.out = st.out
  cyc_eq : st'.cyc = st.cyc
  vis_mono : ∀ m, st'.idx m = -1 → st.idx m = -1
  cvis_stack : ∀ m ∈ C, st'.idx m ≠ -1 → m ∈ st'.stack
  nonc_stack : ∀ m, m ∉ C → m ∈ st'.stack → m ∈ st.stack
  succ_vis : ∀ m ∈ C, st.idx m = -1 → st'.idx m ≠ -1 → st'.idx (fsucc m) ≠ -1
  low_ge_r : st.idx r ≤ st'.low n
  notC : n ∉ C → st'.stack = st.stack ∧ st'.low n = st.low n ∧
    ∀ m ∈ C, st.idx m = -1 → st'.idx m = -1

/-! ## Helper lemmas: shape of filename extraction -/

theorem tryDotExt_shape (s m : List Char) (h : tryDotExt s = some m) :
    m = ['.', 'h'] ∨ m = ['.', 'h', 'p', 'p'] := by
  unfold tryDotExt at h
  split at h
  · right; exact (Option.some_inj.mp h).symm
  · left; exact (Option.some_inj.mp h).symm
  · exact absurd h (by simp)

theorem matchHere_shape :
    ∀ s m, matchHere s = some m →
      ∃ stem ext, m = stem ++ ext ∧ (∀ c ∈ stem, isCls c = true) ∧
        (ext = ['.', 'h'] ∨ ext = ['.', 'h', 'p', 'p']) := by
  intro s
  induction s with
  | nil => intro m h; simp [matchHere] at h
  | cons c rest ih =>
    intro m h
    simp only [matchHere] at h
    by_cases hc : isCls c = true
    · rw [if_pos hc] at h
      cases hrec : matchHere rest with
      | some m0 =>
        rw [hrec] at h
        simp at h
        obtain ⟨stem, ext, hm, hstem, hext⟩ := ih m0 hrec
        exact ⟨c :: stem, ext, by simp [← h, hm], by
          intro x hx
          rcases List.mem_cons.mp hx with h1 | h1
          · subst h1; exact hc
          · exact hstem x h1, hext⟩
      | none =>
        rw [hrec] at h
        rcases tryDotExt_shape _ _ h with h1 | h1 <;>
          exact ⟨[], m, by simp, by simp, by simp [h1]⟩
    · rw [if_neg hc] at h
      rcases tryDotExt_shape _ _ h with h1 | h1 <;>
        exact ⟨[], m, by simp, by simp, by simp [h1]⟩

theorem search_shape :
    ∀ s m, search s = some m →
      ∃ stem ext, m = stem ++ ext ∧ (∀ c ∈ stem, isCls c = true) ∧
        (ext = ['.', 'h'] ∨ ext = ['.', 'h', 'p', 'p']) := by
  intro s
  induction s with
  | nil => intro m h; simp [search] at h
  | cons c rest ih =>
    intro m h
    simp only [search] at h
    cases hm : matchHere (c :: rest) with
    | some m0 => rw [hm] at h; simp at h; subst h; exact matchHere_shape _ _ hm
    | none => rw [hm] at h; exact ih m h

/-! ## C7: characters admitted before the extension -/

/-- C7 counterexample: on the directive `#include "my_file.h"` the code
extracts the token `my_file.h`, whose stem `my_file` contains `'_'`, a
character that is neither a lowercase nor an uppercase letter.  The
extracted token therefore does not consist exclusively of letters followed
by the extension, contradicting the claim. -/
theorem c7_counterexample :
    search (s2n "#include \"my_file.h\"") = some (s2n "my_file" ++ s2n ".h") ∧
    '_' ∈ s2n "my_file" ∧
    ¬ (('a' ≤ '_' ∧ '_' ≤ 'z') ∨ ('A' ≤ '_' ∧ '_' ≤ 'Z')) :=
  ⟨by decide, by decide, by decide⟩

/-- C7 (amended): the filename token extracted from a matched directive
consists of characters of the ASCII range `'A'..'z'` — the class `[a-zA-z]`
of the source, which also admits the six punctuation characters between
`'Z'` and `'a'` such as `'_'` — followed by a `.h` or `.hpp` extension. -/
theorem c7_amended (s m : List Char) (h : search s = some m) :
    ∃ stem ext, m = stem ++ ext ∧ (∀ c ∈ stem, isCls c = true) ∧
      (ext = ['.', 'h'] ∨ ext = ['.', 'h', 'p', 'p']) :=
  search_shape s m h

/-- Witness for C7 (amended) at the directive `#include "my_file.h"`. -/
theorem c7_amended_witness :
    ∃ stem ext, s2n "my_file.h" = stem ++ ext ∧ (∀ c ∈ stem, isCls c = true) ∧
      (ext = ['.', 'h'] ∨ ext = ['.', 'h', 'p', 'p']) :=
  c7_amended (s2n "#include \"my_file.h\"") (s2n "my_file.h") (by decide)

/-! ## C2: a matched directive with no filename pattern -/

/-- C2 counterexample: a directory whose only header contains the matched
directive `#include "foo.txt"`; its quoted content has no filename-pattern
substring, so `re.search(...)` returns `None`, `.group()` raises
AttributeError, and graph construction aborts instead of skipping the
directive silently. -/
theorem c2_counterexample : constructGraph badIncDir = none := by
  simp [constructGraph, badIncDir, buildLoop, scanFile, extractIncludes, stripComments,
    findIncludes, dropLit, lastQuote, includeLit, processIncs, search, matchHere, tryDotExt,
    isCls, inNodes, isValidFile, s2n]

/-- C2 (amended): a matched `#include "..."` directive whose text contains no
substring matching the filename pattern does not contribute an edge silently:
it makes the include-processing loop fail with an AttributeError (modelled as
`none`), aborting graph construction. -/
theorem c2_amended (self : Name) (reg : Reg) (incs : List (List Char))
    (inc : List Char) (hmem : inc ∈ incs) (hbad : search inc = none) :
    processIncs self reg incs = none := by
  induction incs generalizing reg with
  | nil => simp at hmem
  | cons i rest ih =>
    rcases List.mem_cons.mp hmem with h1 | h1
    · subst h1
      simp [processIncs, hbad]
    · simp only [processIncs]
      cases hs : search i with
      | some m => exact ih _ h1
      | none => rfl

/-- Witness for C2 (amended) at the directive `#include "foo.txt"`. -/
theorem c2_amended_witness :
    processIncs (s2n "a.h") [] [s2n "#include \"foo.txt\""] = none :=
  c2_amended (s2n "a.h") [] [s2n "#include \"foo.txt\""] (s2n "#include \"foo.txt\"")
    (by decide) (by decide)

/-! ## Helper lemmas: comment stripping -/

theorem stripComments_cons_ne (c : Char) (xs : List Char) (h : c ≠ '/') :
    stripComments (c :: xs) = c :: stripComments xs := by
  conv_lhs => rw [stripComments.eq_def]
  split
  · simp_all
  · simp_all
  · simp_all
  · rename_i heq
    injection heq with h1 h2
    subst h1; subst h2
    rfl


theorem stripComments_block (rest r : List Char) (h : skipToClose rest = some r) :
    stripComments ('/' :: '*' :: rest) = stripComments r := by
  rw [stripComments.eq_def]
  simp only []
  split
  · rename_i r0 heq
    rw [h] at heq
    injection heq with heq
    rw [heq]
  · rename_i heq
    rw [h] at heq
    exact absurd heq (by simp)

theorem stripComments_line (rest r : List Char) (h : afterLineComment rest = some r) :
    stripComments ('/' :: '/' :: rest) = stripComments r := by
  rw [stripComments.eq_def]
  simp only []
  split
  · rename_i r0 heq
    rw [h] at heq
    injection heq with heq
    rw [heq]
  · rename_i heq
    rw [h] at heq
    exact absurd heq (by simp)

theorem skipToClose_append (mid rest : List Char) (h : hasClose mid = false) :
    skipToClose (mid ++ '*' :: '/' :: rest) = some rest := by
  induction mid with
  | nil => simp [skipToClose]
  | cons c cs ih =>
    cases cs with
    | nil =>
      simp only [List.cons_append, List.nil_append]
      rw [skipToClose.eq_def]
      simp only []
      rw [if_neg (by simp)]
      simp [skipToClose]
    | cons d ds =>
      simp only [hasClose, Bool.or_eq_false_iff] at h
      obtain ⟨h1, h2⟩ := h
      simp only [List.cons_append]
      rw [skipToClose.eq_def]
      simp only []
      rw [if_neg (by simpa using h1)]
      exact ih h2

theorem afterLineComment_append (mid rest : List Char) (h : '\n' ∉ mid) :
    afterLineComment (mid ++ '\n' :: rest) = some rest := by
  induction mid with
  | nil => simp [afterLineComment]
  | cons c cs ih =>
    have hc : c ≠ '\n' := fun hc => h (by simp [hc])
    have hcs : '\n' ∉ cs := fun hm => h (List.mem_cons_of_mem _ hm)
    rw [List.cons_append, afterLineComment.eq_def]
    simp only [if_neg hc]
    rw [ih hcs]

theorem stripComments_append_noslash (pre s : List Char) (h : ∀ c ∈ pre, c ≠ '/') :
    stripComments (pre ++ s) = pre ++ stripComments s := by
  induction pre with
  | nil => simp
  | cons c cs ih =>
    have hc : c ≠ '/' := h c (by simp)
    have hcs : ∀ x ∈ cs, x ≠ '/' := fun x hx => h x (List.mem_cons_of_mem _ hx)
    rw [List.cons_append, stripComments_cons_ne c _ hc, ih hcs, List.cons_append]

/-! ## C6: commented-out include directives -/

/-- C6 counterexample: in a file whose whole content is the single line
`// #include "a.h"` with no trailing newline, the line-comment pattern
`//.*[\r\n]` cannot match (it requires a terminating CR or LF), so the
comment is not removed, the directive is scanned, and the graph receives
the edge from `b.h` to `a.h` — contradicting the claim for a directive
after `//` on a final line with no trailing newline. -/
theorem c6_counterexample :
    stripComments (s2n "// #include \"a.h\"") = s2n "// #include \"a.h\"" ∧
    constructGraph lastLineDir = some [(s2n "b.h", [s2n "a.h"]), (s2n "a.h", [])] := by
  constructor
  · simp [stripComments, afterLineComment, s2n]
  · simp [constructGraph, lastLineDir, buildLoop, scanFile, extractIncludes, stripComments,
      afterLineComment, findIncludes, dropLit, lastQuote, includeLit, processIncs, search,
      matchHere, tryDotExt, isCls, inNodes, addLink, appendLink, isValidFile, s2n]

/-- C6 (amended): an include directive inside a closed block comment, or
after `//` on a line terminated by a newline, is removed before include
scanning and contributes nothing: the extracted includes equal those of the
text without the comment.  (A `//` comment on the final line with no
trailing newline is not removed: see the counterexample.) -/
theorem c6_amended (pre mid rest : List Char) (hpre : ∀ c ∈ pre, c ≠ '/') :
    (hasClose mid = false →
      extractIncludes (pre ++ '/' :: '*' :: (mid ++ '*' :: '/' :: rest)) =
        extractIncludes (pre ++ rest)) ∧
    ('\n' ∉ mid →
      extractIncludes (pre ++ '/' :: '/' :: (mid ++ '\n' :: rest)) =
        extractIncludes (pre ++ rest)) := by
  constructor
  · intro hm
    unfold extractIncludes
    rw [stripComments_append_noslash _ _ hpre, stripComments_append_noslash _ _ hpre]
    have : stripComments ('/' :: '*' :: (mid ++ '*' :: '/' :: rest)) = stripComments rest :=
      stripComments_block _ _ (skipToClose_append mid rest hm)
    rw [this]
  · intro hm
    unfold extractIncludes
    rw [stripComments_append_noslash _ _ hpre, stripComments_append_noslash _ _ hpre]
    have : stripComments ('/' :: '/' :: (mid ++ '\n' :: rest)) = stripComments rest :=
      stripComments_line _ _ (afterLineComment_append mid rest hm)
    rw [this]

/-- Witness for C6 (amended): a block comment and a newline-terminated line
comment, each containing an include directive, contribute nothing. -/
theorem c6_amended_witness :
    (extractIncludes (s2n "x " ++ '/' :: '*' ::
        (s2n " #include \"zzz.h\" " ++ '*' :: '/' :: s2n "#include \"b.h\"")) =
      extractIncludes (s2n "x " ++ s2n "#include \"b.h\"")) ∧
    (extractIncludes (s2n "x " ++ '/' :: '/' ::
        (s2n " #include \"zzz.h\" " ++ '\n' :: s2n "#include \"b.h\"")) =
      extractIncludes (s2n "x " ++ s2n "#include \"b.h\"")) :=
  ⟨(c6_amended (s2n "x ") (s2n " #include \"zzz.h\" ") (s2n "#include \"b.h\"")
      (by decide)).1 (by decide),
   (c6_amended (s2n "x ") (s2n " #include \"zzz.h\" ") (s2n "#include \"b.h\"")
      (by decide)).2 (by decide)⟩

/-! ## C1 counterexample and C5 counterexample -/

/-- C1 counterexample: the directory whose single header `a.hpp` includes
itself produces the self-loop edge in the graph, yet the program reports no
cycle at all (`out = []`, `cyclesDetected = false`, so the summary line
"No cyclic dependencies detected." is printed): the pop-phase filter
`len(cycle) > 1` rejects the single-node component regardless of its
self-loop. -/
theorem c1_counterexample :
    constructGraph selfLoopDir = some [(s2n "a.hpp", [s2n "a.hpp"])] ∧
    runProgram selfLoopDir = some ([], false) := by
  have h : constructGraph selfLoopDir = some [(s2n "a.hpp", [s2n "a.hpp"])] := by
    simp [constructGraph, selfLoopDir, buildLoop, scanFile, extractIncludes, stripComments,
      findIncludes, dropLit, lastQuote, includeLit, processIncs, search, matchHere, tryDotExt,
      isCls, inNodes, addLink, appendLink, isValidFile, s2n]
  refine ⟨h, ?_⟩
  unfold runProgram
  rw [h]
  decide

/-- C5 counterexample: on the acyclic graph `a.h → b.h`, the first top-level
`tarjan(a.h)` visits both nodes (counter ends at 2, `b.h` has index 1); the
claimed semantics (start a traversal only at unvisited nodes, modelled by
`mainLoopChecked`) would stop there, but the actual loop calls `tarjan(b.h)`
again even though `b.h` is already visited, reassigning its index to 2 and
raising the counter to 3. -/
theorem c5_counterexample :
    (runTarjan (nodesOf regAB) (linksOf regAB)).map
        (fun st => (st.cnt, st.idx (s2n "b.h"))) = some (3, 2) ∧
    (mainLoopChecked (linksOf regAB) 3 initTS (nodesOf regAB)).map
        (fun st => (st.cnt, st.idx (s2n "b.h"))) = some (2, 1) := by
  exact ⟨by decide, by decide⟩

/-! ## Helper lemmas: the node registry -/

theorem inNodes_iff (reg : Reg) (n : Name) : inNodes reg n = true ↔ n ∈ nodesOf reg := by
  simp [inNodes, nodesOf, List.any_eq_true]

theorem appendLink_names (reg : Reg) (self tgt : Name) :
    nodesOf (appendLink reg self tgt) = nodesOf reg := by
  induction reg with
  | nil => rfl
  | cons e rest ih =>
    simp only [appendLink]
    by_cases h : e.1 = self
    · rw [if_pos h]; simp [nodesOf]
    · rw [if_neg h]; simp [nodesOf] at ih ⊢; exact ih

theorem addLink_names (reg : Reg) (self tgt : Name) :
    nodesOf (addLink reg self tgt) =
      if inNodes reg tgt then nodesOf reg else nodesOf reg ++ [tgt] := by
  unfold addLink
  by_cases h : inNodes reg tgt
  · rw [if_pos h, if_pos h, appendLink_names]
  · rw [if_neg h, if_neg h, appendLink_names]
    simp [nodesOf]

theorem addLink_tgt_mem (reg : Reg) (self tgt : Name) :
    tgt ∈ nodesOf (addLink reg self tgt) := by
  rw [addLink_names]
  by_cases h : inNodes reg tgt
  · rw [if_pos h]; exact (inNodes_iff reg tgt).mp h
  · rw [if_neg h]; simp

theorem addLink_names_mono (reg : Reg) (self tgt : Name) :
    nodesOf reg ⊆ nodesOf (addLink reg self tgt) := by
  rw [addLink_names]
  by_cases h : inNodes reg tgt
  · rw [if_pos h]; exact fun x hx => hx
  · rw [if_neg h]; exact fun x hx => by simp [hx]

theorem addLink_nodup (reg : Reg) (self tgt : Name) (h : (nodesOf reg).Nodup) :
    (nodesOf (addLink reg self tgt)).Nodup := by
  rw [addLink_names]
  by_cases hin : inNodes reg tgt
  · rwa [if_pos hin]
  · rw [if_neg hin]
    have : tgt ∉ nodesOf reg := fun hmem => hin ((inNodes_iff reg tgt).mpr hmem)
    simp [List.nodup_append, h, this]

theorem processIncs_names_mono (self : Name) :
    ∀ incs reg reg', processIncs self reg incs = some reg' →
      nodesOf reg ⊆ nodesOf reg' := by
  intro incs
  induction incs with
  | nil => intro reg reg' h; simp [processIncs] at h; subst h; exact fun x hx => hx
  | cons inc rest ih =>
    intro reg reg' h
    simp only [processIncs] at h
    cases hs : search inc with
    | some m =>
      rw [hs] at h
      exact fun x hx => ih _ _ h (addLink_names_mono reg self m hx)
    | none => rw [hs] at h; exact absurd h (by simp)

theorem processIncs_nodup (self : Name) :
    ∀ incs reg reg', processIncs self reg incs = some reg' →
      (nodesOf reg).Nodup → (nodesOf reg').Nodup := by
  intro incs
  induction incs with
  | nil => intro reg reg' h hn; simp [processIncs] at h; subst h; exact hn
  | cons inc rest ih =>
    intro reg reg' h hn
    simp only [processIncs] at h
    cases hs : search inc with
    | some m => rw [hs] at h; exact ih _ _ h (addLink_nodup reg self m hn)
    | none => rw [hs] at h; exact absurd h (by simp)

theorem processIncs_targets (self : Name) :
    ∀ incs reg reg', processIncs self reg incs = some reg' →
      ∀ inc ∈ incs, ∀ m, search inc = some m → m ∈ nodesOf reg' := by
  intro incs
  induction incs with
  | nil => intro reg reg' h inc hmem; simp at hmem
  | cons i rest ih =>
    intro reg reg' h inc hmem m hm
    simp only [processIncs] at h
    cases hs : search i with
    | some m0 =>
      rw [hs] at h
      rcases List.mem_cons.mp hmem with h1 | h1
      · subst h1
        rw [hm] at hs
        injection hs with hs
        subst hs
        exact processIncs_names_mono self _ _ _ h (addLink_tgt_mem reg self m)
      · exact ih _ _ h inc h1 m hm
    | none => rw [hs] at h; exact absurd h (by simp)

theorem scanFile_names_mono (reg : Reg) (fname : Name) (content : List Char) (reg' : Reg)
    (h : scanFile reg fname content = some reg') : nodesOf reg ⊆ nodesOf reg' := by
  unfold scanFile at h
  by_cases hin : inNodes reg fname
  · rw [if_pos hin] at h; exact processIncs_names_mono _ _ _ _ h
  · rw [if_neg hin] at h
    intro x hx
    exact processIncs_names_mono _ _ _ _ h (by simp [nodesOf] at hx ⊢; exact Or.inl hx)

theorem scanFile_nodup (reg : Reg) (fname : Name) (content : List Char) (reg' : Reg)
    (h : scanFile reg fname content = some reg') (hn : (nodesOf reg).Nodup) :
    (nodesOf reg').Nodup := by
  unfold scanFile at h
  by_cases hin : inNodes reg fname
  · rw [if_pos hin] at h; exact processIncs_nodup _ _ _ _ h hn
  · rw [if_neg hin] at h
    refine processIncs_nodup _ _ _ _ h ?_
    have : fname ∉ nodesOf reg := fun hmem => hin ((inNodes_iff reg fname).mpr hmem)
    simp [nodesOf, List.nodup_append] at hn ⊢
    exact ⟨hn, by simpa [nodesOf] using this⟩

theorem buildLoop_names_mono :
    ∀ fs reg reg', buildLoop reg fs = some reg' → nodesOf reg ⊆ nodesOf reg' := by
  intro fs
  induction fs with
  | nil => intro reg reg' h; simp [buildLoop] at h; subst h; exact fun x hx => hx
  | cons f rest ih =>
    intro reg reg' h
    simp only [buildLoop] at h
    cases hs : scanFile reg f.1 f.2 with
    | some reg2 =>
      rw [hs] at h
      exact fun x hx => ih _ _ h (scanFile_names_mono _ _ _ _ hs hx)
    | none => rw [hs] at h; exact absurd h (by simp)

theorem buildLoop_nodup :
    ∀ fs reg reg', buildLoop reg fs = some reg' →
      (nodesOf reg).Nodup → (nodesOf reg').Nodup := by
  intro fs
  induction fs with
  | nil => intro reg reg' h hn; simp [buildLoop] at h; subst h; exact hn
  | cons f rest ih =>
    intro reg reg' h hn
    simp only [buildLoop] at h
    cases hs : scanFile reg f.1 f.2 with
    | some reg2 => rw [hs] at h; exact ih _ _ h (scanFile_nodup _ _ _ _ hs hn)
    | none => rw [hs] at h; exact absurd h (by simp)

theorem linksOf_eq_of_mem :
    ∀ (reg : Reg) (n : Name) (ls : List Name), (nodesOf reg).Nodup →
      (n, ls) ∈ reg → linksOf reg n = ls := by
  intro reg
  induction reg with
  | nil => intro n ls _ hmem; simp at hmem
  | cons e rest ih =>
    intro n ls hn hmem
    have hcons : nodesOf (e :: rest) = e.1 :: nodesOf rest := by simp [nodesOf]
    rw [hcons] at hn
    have hnot := (List.nodup_cons.mp hn).1
    have hrest := (List.nodup_cons.mp hn).2
    rcases List.mem_cons.mp hmem with h1 | h1
    · subst h1
      simp [linksOf, List.find?]
    · by_cases he : e.1 = n
      · exact absurd (by
          rw [he]
          exact List.mem_map.mpr ⟨(n, ls), h1, rfl⟩) hnot
      · have := ih n ls hrest h1
        simp only [linksOf] at this ⊢
        rw [List.find?_cons_of_neg]
        · exact this
        · simpa using he

theorem buildLoop_targets :
    ∀ fs reg reg', buildLoop reg fs = some reg' →
      ∀ f ∈ fs, ∀ inc ∈ extractIncludes f.2, ∀ m, search inc = some m →
        m ∈ nodesOf reg' := by
  intro fs
  induction fs with
  | nil => intro reg reg' h f hf; simp at hf
  | cons f0 rest ih =>
    intro reg reg' h f hf inc hinc m hm
    simp only [buildLoop] at h
    cases hs : scanFile reg f0.1 f0.2 with
    | some reg2 =>
      rw [hs] at h
      rcases List.mem_cons.mp hf with h1 | h1
      · subst h1
        unfold scanFile at hs
        have hmem2 : m ∈ nodesOf reg2 := processIncs_targets _ _ _ _ hs inc hinc m hm
        exact buildLoop_names_mono _ _ _ h hmem2
      · exact ih _ _ h f h1 inc hinc m hm
    | none => rw [hs] at h; exact absurd h (by simp)

theorem appendLink_links_sub (self tgt : Name) (S : List Name) :
    ∀ reg : Reg, (∀ e ∈ reg, e.2 ≠ [] → e.1 ∈ S) → self ∈ S →
      ∀ e ∈ appendLink reg self tgt, e.2 ≠ [] → e.1 ∈ S := by
  intro reg
  induction reg with
  | nil => intro _ _ e he; simp [appendLink] at he
  | cons e0 rest ih =>
    intro hinv hself e he hne
    simp only [appendLink] at he
    by_cases h0 : e0.1 = self
    · rw [if_pos h0] at he
      rcases List.mem_cons.mp he with h1 | h1
      · subst h1; simpa [h0]
      · exact hinv e (List.mem_cons_of_mem _ h1) hne
    · rw [if_neg h0] at he
      rcases List.mem_cons.mp he with h1 | h1
      · subst h1; exact hinv e (by simp) hne
      · exact ih (fun x hx => hinv x (List.mem_cons_of_mem _ hx)) hself e h1 hne

theorem addLink_links_sub (reg : Reg) (self tgt : Name) (S : List Name)
    (hinv : ∀ e ∈ reg, e.2 ≠ [] → e.1 ∈ S) (hself : self ∈ S) :
    ∀ e ∈ addLink reg self tgt, e.2 ≠ [] → e.1 ∈ S := by
  unfold addLink
  by_cases hin : inNodes reg tgt
  · rw [if_pos hin]; exact appendLink_links_sub self tgt S reg hinv hself
  · rw [if_neg hin]
    refine appendLink_links_sub self tgt S _ ?_ hself
    intro e he hne
    rcases List.mem_append.mp he with h1 | h1
    · exact hinv e h1 hne
    · simp at h1; subst h1; simp at hne

theorem processIncs_links_sub (self : Name) (S : List Name) (hself : self ∈ S) :
    ∀ incs reg reg', processIncs self reg incs = some reg' →
      (∀ e ∈ reg, e.2 ≠ [] → e.1 ∈ S) → ∀ e ∈ reg', e.2 ≠ [] → e.1 ∈ S := by
  intro incs
  induction incs with
  | nil => intro reg reg' h hinv; simp [processIncs] at h; subst h; exact hinv
  | cons inc rest ih =>
    intro reg reg' h hinv
    simp only [processIncs] at h
    cases hs : search inc with
    | some m =>
      rw [hs] at h
      exact ih _ _ h (addLink_links_sub reg self m S hinv hself)
    | none => rw [hs] at h; exact absurd h (by simp)

theorem scanFile_links_sub (reg : Reg) (fname : Name) (content : List Char) (reg' : Reg)
    (S : List Name) (h : scanFile reg fname content = some reg') (hself : fname ∈ S)
    (hinv : ∀ e ∈ reg, e.2 ≠ [] → e.1 ∈ S) : ∀ e ∈ reg', e.2 ≠ [] → e.1 ∈ S := by
  unfold scanFile at h
  by_cases hin : inNodes reg fname
  · rw [if_pos hin] at h; exact processIncs_links_sub fname S hself _ _ _ h hinv
  · rw [if_neg hin] at h
    refine processIncs_links_sub fname S hself _ _ _ h ?_
    intro e he hne
    rcases List.mem_append.mp he with h1 | h1
    · exact hinv e h1 hne
    · simp at h1; subst h1; simp at hne

theorem buildLoop_links_sub (S : List Name) :
    ∀ fs reg reg', buildLoop reg fs = some reg' → (∀ f ∈ fs, f.1 ∈ S) →
      (∀ e ∈ reg, e.2 ≠ [] → e.1 ∈ S) → ∀ e ∈ reg', e.2 ≠ [] → e.1 ∈ S := by
  intro fs
  induction fs with
  | nil => intro reg reg' h _ hinv; simp [buildLoop] at h; subst h; exact hinv
  | cons f0 rest ih =>
    intro reg reg' h hS hinv
    simp only [buildLoop] at h
    cases hs : scanFile reg f0.1 f0.2 with
    | some reg2 =>
      rw [hs] at h
      exact ih _ _ h (fun f hf => hS f (List.mem_cons_of_mem _ hf))
        (scanFile_links_sub _ _ _ _ S hs (hS f0 (by simp)) hinv)
    | none => rw [hs] at h; exact absurd h (by simp)

/-! ## C8 and C9 -/

/-- C8 (confirmed): every filename extracted from a scanned header becomes a
node of the graph, and any node whose name is not among the directory's
filenames has no outgoing links, since links are only ever appended to the
node currently being scanned. -/
theorem c8 (files : List (Name × List Char)) (reg : Reg)
    (h : constructGraph files = some reg) :
    (∀ f ∈ files.filter (fun f => isValidFile f.1), ∀ inc ∈ extractIncludes f.2,
      ∀ m, search inc = some m → m ∈ nodesOf reg) ∧
    (∀ e ∈ reg, e.1 ∉ files.map Prod.fst → e.2 = []) := by
  unfold constructGraph at h
  constructor
  · intro f hf inc hinc m hm
    exact buildLoop_targets _ _ _ h f hf inc hinc m hm
  · intro e he hnot
    by_contra hne
    have hS := buildLoop_links_sub ((files.filter fun f => isValidFile f.1).map Prod.fst)
      _ _ _ h (fun f hf => List.mem_map.mpr ⟨f, hf, rfl⟩) (by intro e0 he0; simp at he0)
      e he hne
    rcases List.mem_map.mp hS with ⟨f, hf, hfe⟩
    exact hnot (List.mem_map.mpr ⟨f, List.mem_of_mem_filter hf, hfe⟩)

/-- Witness for C8 at the directory `lastLineDir`: its headers mention
`a.h`, which is absent from the listing; the built registry contains the
node `a.h` with empty links. -/
theorem c8_witness :
    (∀ f ∈ lastLineDir.filter (fun f => isValidFile f.1), ∀ inc ∈ extractIncludes f.2,
      ∀ m, search inc = some m →
        m ∈ nodesOf [(s2n "b.h", [s2n "a.h"]), (s2n "a.h", [])]) ∧
    (∀ e ∈ ([(s2n "b.h", [s2n "a.h"]), (s2n "a.h", [])] : Reg),
      e.1 ∉ lastLineDir.map Prod.fst → e.2 = []) :=
  c8 lastLineDir [(s2n "b.h", [s2n "a.h"]), (s2n "a.h", [])] (by
    simp [constructGraph, lastLineDir, buildLoop, scanFile, extractIncludes, stripComments,
      afterLineComment, findIncludes, dropLit, lastQuote, includeLit, processIncs, search,
      matchHere, tryDotExt, isCls, inNodes, addLink, appendLink, isValidFile, s2n])

/-- C9 (confirmed): the registry built by `constructGraph` never holds two
nodes with the same name, and consequently any membership `(n, ls) ∈ reg`
determines the links of the node named `n`: every reference to a filename
resolves to the one registered node. -/
theorem c9 (files : List (Name × List Char)) (reg : Reg)
    (h : constructGraph files = some reg) :
    (nodesOf reg).Nodup ∧ ∀ n ls, (n, ls) ∈ reg → linksOf reg n = ls := by
  unfold constructGraph at h
  have hnodup : (nodesOf reg).Nodup := buildLoop_nodup _ _ _ h (by simp [nodesOf])
  exact ⟨hnodup, fun n ls hmem => linksOf_eq_of_mem reg n ls hnodup hmem⟩

/-- Witness for C9 at the directory `lastLineDir`. -/
theorem c9_witness :
    (nodesOf [(s2n "b.h", [s2n "a.h"]), (s2n "a.h", [])]).Nodup ∧
    ∀ n ls, (n, ls) ∈ ([(s2n "b.h", [s2n "a.h"]), (s2n "a.h", [])] : Reg) →
      linksOf [(s2n "b.h", [s2n "a.h"]), (s2n "a.h", [])] n = ls :=
  c9 lastLineDir [(s2n "b.h", [s2n "a.h"]), (s2n "a.h", [])] (by
    simp [constructGraph, lastLineDir, buildLoop, scanFile, extractIncludes, stripComments,
      afterLineComment, findIncludes, dropLit, lastQuote, includeLit, processIncs, search,
      matchHere, tryDotExt, isCls, inNodes, addLink, appendLink, isValidFile, s2n])

/-! ## Reported components have at least two nodes -/

theorem popPhase_len (st : TState) (n : Name) (st' : TState) (h : popPhase st n = some st')
    (H : ∀ g ∈ st.out, 2 ≤ g.length) : ∀ g ∈ st'.out, 2 ≤ g.length := by
  unfold popPhase at h
  split at h
  · cases hp : popUntil st.stack n with
    | some pr =>
      rw [hp] at h
      obtain ⟨cyc0, rest⟩ := pr
      simp only [] at h
      split at h
      · rename_i hlen
        injection h with h
        subst h
        intro g hg
        simp at hg
        rcases hg with hg | hg
        · exact H g hg
        · subst hg; omega
      · injection h with h
        subst h
        exact H
    | none => rw [hp] at h; exact absurd h (by simp)
  · injection h with h; subst h; exact H

theorem childLoop_len (rec : TState → Name → Option TState)
    (hrec : ∀ st c st2, rec st c = some st2 →
      (∀ g ∈ st.out, 2 ≤ g.length) → ∀ g ∈ st2.out, 2 ≤ g.length) (n : Name) :
    ∀ cs st st', childLoop rec n st cs = some st' →
      (∀ g ∈ st.out, 2 ≤ g.length) → ∀ g ∈ st'.out, 2 ≤ g.length := by
  intro cs
  induction cs with
  | nil => intro st st' h H; simp [childLoop] at h; subst h; exact H
  | cons c rest ih =>
    intro st st' h H
    simp only [childLoop] at h
    split at h
    · cases hr : rec st c with
      | some st2 =>
        rw [hr] at h
        exact ih _ _ h (fun g hg => hrec _ _ _ hr H g hg)
      | none => rw [hr] at h; exact absurd h (by simp)
    · split at h
      · exact ih _ _ h H
      · exact ih _ _ h H

theorem tarjanF_len (adj : Name → List Name) :
    ∀ fuel st n st', tarjanF adj fuel st n = some st' →
      (∀ g ∈ st.out, 2 ≤ g.length) → ∀ g ∈ st'.out, 2 ≤ g.length := by
  intro fuel
  induction fuel with
  | zero => intro st n st' h; simp [tarjanF] at h
  | succ fuel ih =>
    intro st n st' h H
    simp only [tarjanF] at h
    cases hc : childLoop (tarjanF adj fuel) n (visit st n) (adj n) with
    | some st2 =>
      rw [hc] at h
      have H2 : ∀ g ∈ st2.out, 2 ≤ g.length :=
        childLoop_len (tarjanF adj fuel) (fun a b c hd he => ih a b c hd he) n _ _ _ hc H
      exact popPhase_len _ _ _ h H2
    | none => rw [hc] at h; exact absurd h (by simp)

theorem mainLoop_len (adj : Name → List Name) (fuel : Nat) :
    ∀ nodes st st', mainLoop adj fuel st nodes = some st' →
      (∀ g ∈ st.out, 2 ≤ g.length) → ∀ g ∈ st'.out, 2 ≤ g.length := by
  intro nodes
  induction nodes with
  | nil => intro st st' h H; simp [mainLoop] at h; subst h; exact H
  | cons n rest ih =>
    intro st st' h H
    simp only [mainLoop] at h
    cases ht : tarjanF adj fuel st n with
    | some st2 => rw [ht] at h; exact ih _ _ h (tarjanF_len adj fuel _ _ _ ht H)
    | none => rw [ht] at h; exact absurd h (by simp)

/-- C1 (amended): every cycle the analysis reports has at least two nodes;
in particular a single-node strongly connected component is never reported,
even when that node carries a self-loop edge (the source tests only
`len(cycle) > 1`). -/
theorem c1_amended (nodes : List Name) (adj : Name → List Name) (g : List Name)
    (h : g ∈ outOf (runTarjan nodes adj)) : 2 ≤ g.length := by
  unfold outOf at h
  split at h
  · rename_i st hst
    exact mainLoop_len adj _ _ _ _ hst (by intro x hx; simp [initTS] at hx) g h
  · simp at h

/-- Witness for C1 (amended) on the two-node cycle `regCyc2`. -/
theorem c1_amended_witness : 2 ≤ [s2n "b.hpp", s2n "a.hpp"].length :=
  c1_amended (nodesOf regCyc2) (linksOf regCyc2) [s2n "b.hpp", s2n "a.hpp"] (by decide)

/-! ## Helper lemmas for the Tarjan interpreter -/

theorem updF_self (f : Name → Int) (x : Name) (v : Int) : updF f x v x = v := by
  simp [updF]

theorem updF_ne (f : Name → Int) (x : Name) (v : Int) (y : Name) (h : y ≠ x) :
    updF f x v y = f y := by
  simp [updF, h]

theorem popUntil_append (n : Name) :
    ∀ T S, n ∉ T → popUntil (T ++ n :: S) n = some (T ++ [n], S) := by
  intro T
  induction T with
  | nil => intro S _; simp [popUntil]
  | cons t rest ih =>
    intro S hn
    have ht : t ≠ n := fun h => hn (by simp [h])
    have hrest : n ∉ rest := fun h => hn (List.mem_cons_of_mem _ h)
    simp only [List.cons_append, popUntil]
    rw [if_neg ht]
    have h2 := ih S hrest
    simp only [List.append_eq] at h2 ⊢
    rw [h2]

theorem unvisCount_mono (nodes : List Name) (st st' : TState)
    (h : ∀ m, st'.idx m = -1 → st.idx m = -1) :
    unvisCount nodes st' ≤ unvisCount nodes st := by
  unfold unvisCount
  induction nodes with
  | nil => simp
  | cons x rest ih =>
    simp only [List.filter]
    by_cases hx' : st'.idx x = -1
    · have hx : st.idx x = -1 := h x hx'
      simp [hx', hx]
      omega
    · by_cases hx : st.idx x = -1
      · simp [hx', hx]; omega
      · simp [hx', hx]; exact ih

theorem unvisCount_lt (nodes : List Name) (st st' : TState) (n : Name)
    (hmem : n ∈ nodes) (hfresh : st.idx n = -1) (hvis : st'.idx n ≠ -1)
    (h : ∀ m, st'.idx m = -1 → st.idx m = -1) :
    unvisCount nodes st' < unvisCount nodes st := by
  unfold unvisCount
  induction nodes with
  | nil => simp at hmem
  | cons x rest ih =>
    simp only [List.filter]
    rcases List.mem_cons.mp hmem with h1 | h1
    · subst h1
      simp [hfresh, hvis]
      calc (rest.filter fun m => decide (st'.idx m = -1)).length
          ≤ (rest.filter fun m => decide (st.idx m = -1)).length := by
            have := unvisCount_mono rest st st' h
            simpa [unvisCount] using this
        _ < (rest.filter fun m => decide (st.idx m = -1)).length + 1 := by omega
    · by_cases hx' : st'.idx x = -1
      · have hx : st.idx x = -1 := h x hx'
        simp [hx', hx]
        exact ih h1
      · by_cases hx : st.idx x = -1
        · simp [hx', hx]
          have := unvisCount_mono rest st st' h
          simp [unvisCount] at this
          omega
        · simp [hx', hx]
          exact ih h1

theorem sinv_visit (st : TState) (n : Name) (hinv : SInv st) (hfresh : st.idx n = -1) :
    SInv (visit st n) := by
  obtain ⟨stackVis, idxLt, cntPos, idxGe, inj, sorted⟩ := hinv
  have hnotmem : n ∉ st.stack := fun hmem => stackVis n hmem hfresh
  constructor
  · intro m hm
    simp only [visit] at hm ⊢
    rcases List.mem_cons.mp hm with h1 | h1
    · subst h1; rw [updF_self]; omega
    · have hne : m ≠ n := fun h => hnotmem (h ▸ h1)
      rw [updF_ne _ _ _ _ hne]
      exact stackVis m h1
  · intro m
    simp only [visit]
    by_cases hm : m = n
    · subst hm; rw [updF_self]; omega
    · rw [updF_ne _ _ _ _ hm]
      have := idxLt m
      omega
  · simp only [visit]; omega
  · intro m
    simp only [visit]
    by_cases hm : m = n
    · subst hm; rw [updF_self]; omega
    · rw [updF_ne _ _ _ _ hm]; exact idxGe m
  · intro u v hu huv
    simp only [visit] at hu huv
    by_cases h1 : u = n
    · by_cases h2 : v = n
      · rw [h1, h2]
      · exfalso
        rw [h1, updF_self, updF_ne _ _ _ _ h2] at huv
        have := idxLt v
        omega
    · rw [updF_ne _ _ _ _ h1] at hu huv
      by_cases h2 : v = n
      · exfalso
        rw [h2, updF_self] at huv
        have := idxLt u
        omega
      · rw [updF_ne _ _ _ _ h2] at huv
        exact inj u v hu huv
  · simp only [visit]
    refine List.pairwise_cons.mpr ⟨?_, ?_⟩
    · intro m hm
      have hne : m ≠ n := fun h => hnotmem (h ▸ hm)
      rw [updF_self, updF_ne _ _ _ _ hne]
      exact idxLt m
    · refine List.Pairwise.imp_of_mem ?_ sorted
      intro a b ha hb hab
      have hna : a ≠ n := fun h => hnotmem (h ▸ ha)
      have hnb : b ≠ n := fun h => hnotmem (h ▸ hb)
      rw [updF_ne _ _ _ _ hna, updF_ne _ _ _ _ hnb]
      exact hab

theorem sorted_nodup (st : TState) (hinv : SInv st) : st.stack.Nodup :=
  List.Pairwise.imp (fun hab heq => absurd hab (by rw [heq]; omega)) hinv.sorted


theorem sinv_low (st : TState) (f : Name → Int) (h : SInv st) : SInv { st with low := f } :=
  { stackVis := h.stackVis, idxLt := h.idxLt, cntPos := h.cntPos,
    idxGe := h.idxGe, inj := h.inj, sorted := h.sorted }

/-- The child loop satisfies `CPost` whenever each recursive call satisfies
`TPost`: the heart of the per-call analysis of `tarjan`. -/
theorem childLoop_spec (adj : Name → List Name) (rec : TState → Name → Option TState)
    (hrec : ∀ st c st2, SInv st → st.idx c = -1 → rec st c = some st2 →
      TPost adj st st2 c) (n : Name) :
    ∀ cs st st', SInv st → st.idx n ≠ -1 →
      childLoop rec n st cs = some st' → CPost adj st st' n cs := by
  intro cs
  induction cs with
  | nil =>
    intro st st' hinv hn h
    simp only [childLoop] at h
    injection h with h
    subst h
    exact { inv := hinv, cnt_le := le_refl _, frozen_idx := fun m _ => rfl,
            frozen_low := fun m _ _ => rfl, vis_mono := fun m hm => hm,
            fresh_ge := fun m h1 h2 => absurd h1 h2,
            stack_shape := ⟨[], by simp, by simp⟩,
            low_decr := le_refl _, low_ge := fun b _ _ hb => hb,
            low_tree := fun m h1 h2 => absurd h1 h2,
            low_edge := fun z hz => absurd hz (by simp),
            low_edge_fresh := fun u h1 h2 => absurd h1 h2,
            children_vis := fun c hc => absurd hc (by simp),
            out_shape := ⟨[], by simp, by simp⟩,
            closed_new := fun m h1 h2 => absurd h1 h2,
            cyc_keep := fun _ => rfl }
  | cons c cs ih =>
    intro st st' hinv hn h
    simp only [childLoop] at h
    by_cases hc : st.idx c = -1
    · rw [if_pos hc] at h
      cases hr : rec st c with
      | none => rw [hr] at h; exact absurd h (by simp)
      | some st2 =>
        rw [hr] at h
        have P := hrec st c st2 hinv hc hr
        have hcnt0 : 0 ≤ st.cnt := hinv.cntPos
        have hfzn : st2.idx n = st.idx n := P.frozen_idx n hn
        have hlown2 : st2.low n = st.low n := P.frozen_low n hn
        have hinv2 : SInv { st2 with low := updF st2.low n (min (st2.low n) (st2.low c)) } :=
          sinv_low st2 _ P.inv
        have hn2 : ({ st2 with low := updF st2.low n (min (st2.low n) (st2.low c)) }
            : TState).idx n ≠ -1 := by
          show st2.idx n ≠ -1
          rw [hfzn]; exact hn
        have Q := ih _ st' hinv2 hn2 h
        have hmid_n : ({ st2 with low := updF st2.low n (min (st2.low n) (st2.low c)) }
            : TState).low n = min (st.low n) (st2.low c) := by
          show updF st2.low n (min (st2.low n) (st2.low c)) n = _
          rw [updF_self, hlown2]
        have hmid_ne : ∀ m, m ≠ n →
            ({ st2 with low := updF st2.low n (min (st2.low n) (st2.low c)) }
              : TState).low m = st2.low m := by
          intro m hm
          show updF st2.low n (min (st2.low n) (st2.low c)) m = _
          rw [updF_ne _ _ _ _ hm]
        obtain ⟨T1, hT1, hT1p⟩ := P.stack_shape
        obtain ⟨T2, hT2, hT2p⟩ := Q.stack_shape
        have hncne : ∀ m : Name, st.idx m = -1 → m ≠ n := by
          intro m hm heq
          rw [heq] at hm
          exact hn hm
        have hfrozen_idx : ∀ m, st.idx m ≠ -1 → st'.idx m = st.idx m := by
          intro m hm
          have h2 : st2.idx m = st.idx m := P.frozen_idx m hm
          have h3 := Q.frozen_idx m (by show st2.idx m ≠ -1; rw [h2]; exact hm)
          rw [h3]; exact h2
        have hvis_mono : ∀ m, st'.idx m = -1 → st.idx m = -1 := fun m hm =>
          P.vis_mono m (Q.vis_mono m hm)
        have hT1fresh : ∀ m ∈ T1, st'.idx m = st2.idx m ∧ st.idx m = -1 ∧
            st.cnt ≤ st2.idx m := by
          intro m hm
          obtain ⟨hf, hge, _⟩ := hT1p m hm
          refine ⟨Q.frozen_idx m (by show st2.idx m ≠ -1; omega), hf, hge⟩
        have hzst : ∀ z, z ∈ st'.stack → st'.idx z < st.cnt → z ∈ st.stack := by
          intro z hzs hzi
          rw [hT2] at hzs
          rcases List.mem_append.mp hzs with h1 | h1
          · obtain ⟨_, hge, _⟩ := hT2p z h1
            have hcLt : st.cnt < st2.cnt := P.cnt_lt
            show z ∈ st.stack
            exfalso
            have : ({ st2 with low := updF st2.low n (min (st2.low n) (st2.low c)) }
                : TState).cnt = st2.cnt := rfl
            omega
          · have h1' : z ∈ T1 ++ st.stack := by
              have : ({ st2 with low := updF st2.low n (min (st2.low n) (st2.low c)) }
                  : TState).stack = st2.stack := rfl
              rw [← this, hT1] at h1
              exact h1
            rcases List.mem_append.mp h1' with h2 | h2
            · obtain ⟨h3, h4, _⟩ := hT1fresh z h2
              exfalso
              omega
            · exact h2
        have hlow_decr : st'.low n ≤ st.low n := by
          have := Q.low_decr
          rw [hmid_n] at this
          exact le_trans this (min_le_left _ _)
        have hlow_c : st'.low n ≤ st2.low c := by
          have := Q.low_decr
          rw [hmid_n] at this
          exact le_trans this (min_le_right _ _)
        refine ⟨Q.inv, ?_, hfrozen_idx, ?_, hvis_mono, ?_, ?_, hlow_decr, ?_, ?_, ?_, ?_,
          ?_, ?_, ?_, ?_⟩
        · -- cnt_le
          have h1 : st.cnt < st2.cnt := P.cnt_lt
          have h2 := Q.cnt_le
          have h3 : ({ st2 with low := updF st2.low n (min (st2.low n) (st2.low c)) }
              : TState).cnt = st2.cnt := rfl
          omega
        · -- frozen_low
          intro m hm hmn
          have h2 : st2.low m = st.low m := P.frozen_low m hm
          have h3 := Q.frozen_low m (by show st2.idx m ≠ -1; rw [P.frozen_idx m hm]; exact hm) hmn
          rw [h3, hmid_ne m hmn]
          exact h2
        · -- fresh_ge
          intro m h1 h2
          by_cases hmid : st2.idx m = -1
          · have h3 := Q.fresh_ge m hmid h2
            have h4 : st.cnt < st2.cnt := P.cnt_lt
            have h5 : ({ st2 with low := updF st2.low n (min (st2.low n) (st2.low c)) }
                : TState).cnt = st2.cnt := rfl
            omega
          · have h3 := P.fresh_ge m h1 hmid
            have h4 : st'.idx m = st2.idx m := Q.frozen_idx m hmid
            omega
        · -- stack_shape
          refine ⟨T2 ++ T1, ?_, ?_⟩
          · rw [hT2]
            have : ({ st2 with low := updF st2.low n (min (st2.low n) (st2.low c)) }
                : TState).stack = st2.stack := rfl
            rw [this, hT1, List.append_assoc]
          · intro m hm
            rcases List.mem_append.mp hm with h1 | h1
            · obtain ⟨hf, hge, hlt⟩ := hT2p m h1
              have hfS : st.idx m = -1 := P.vis_mono m hf
              have : ({ st2 with low := updF st2.low n (min (st2.low n) (st2.low c)) }
                  : TState).cnt = st2.cnt := rfl
              have h4 : st.cnt < st2.cnt := P.cnt_lt
              exact ⟨hfS, by omega, hlt⟩
            · obtain ⟨hf, hge, hlt⟩ := hT1p m h1
              have hmn : m ≠ n := hncne m hf
              have hvis2 : st2.idx m ≠ -1 := by omega
              have hidx : st'.idx m = st2.idx m := Q.frozen_idx m hvis2
              have hlow : st'.low m = st2.low m := by
                rw [Q.frozen_low m hvis2 hmn, hmid_ne m hmn]
              exact ⟨hf, by omega, by omega⟩
        · -- low_ge
          intro b hb hstack hlow
          have hb2 : b ≤ ({ st2 with low := updF st2.low n (min (st2.low n) (st2.low c)) }
              : TState).cnt := by
            show b ≤ st2.cnt
            have := P.cnt_lt
            omega
          refine Q.low_ge b hb2 ?_ ?_
          · intro m hm
            have hm' : m ∈ T1 ++ st.stack := by
              have : ({ st2 with low := updF st2.low n (min (st2.low n) (st2.low c)) }
                  : TState).stack = st2.stack := rfl
              rw [this, hT1] at hm
              exact hm
            rcases List.mem_append.mp hm' with h1 | h1
            · obtain ⟨_, hge, _⟩ := hT1p m h1
              show b ≤ st2.idx m
              omega
            · show b ≤ st2.idx m
              rw [P.frozen_idx m (hinv.stackVis m h1)]
              exact hstack m h1
          · rw [hmid_n]
            exact le_min hlow (P.low_ge b hb hstack)
        · -- low_tree
          intro m h1 h2
          by_cases hmid : st2.idx m = -1
          · exact Q.low_tree m hmid h2
          · have hmn : m ≠ n := hncne m h1
            have h3 : st2.low c ≤ st2.low m := P.low_tree m h1 hmid
            have h4 : st'.low m = st2.low m := by
              rw [Q.frozen_low m hmid hmn, hmid_ne m hmn]
            rw [h4]
            exact le_trans hlow_c h3
        · -- low_edge
          intro z hz hzs hzi
          rcases List.mem_cons.mp hz with h1 | h1
          · exfalso
            subst h1
            have h2 : st'.idx z = st2.idx z := Q.frozen_idx z (by
              show st2.idx z ≠ -1
              rw [P.idx_n]
              omega)
            rw [P.idx_n] at h2
            omega
          · refine Q.low_edge z h1 hzs ?_
            show st'.idx z < ({ st2 with low := updF st2.low n (min (st2.low n) (st2.low c)) }
                : TState).cnt
            have h3 : ({ st2 with low := updF st2.low n (min (st2.low n) (st2.low c)) }
                : TState).cnt = st2.cnt := rfl
            have := P.cnt_lt
            omega
        · -- low_edge_fresh
          intro u h1 h2 z hz hzs hzi
          by_cases hmid : st2.idx u = -1
          · refine Q.low_edge_fresh u hmid h2 z hz hzs ?_
            have h3 : ({ st2 with low := updF st2.low n (min (st2.low n) (st2.low c)) }
                : TState).cnt = st2.cnt := rfl
            have := P.cnt_lt
            omega
          · have hzstack : z ∈ st.stack := hzst z hzs hzi
            have hzvis : st.idx z ≠ -1 := hinv.stackVis z hzstack
            have hzidx2 : st2.idx z = st.idx z := P.frozen_idx z hzvis
            have hzidx' : st'.idx z = st.idx z := hfrozen_idx z hzvis
            have h3 := P.low_edge u (Or.inr ⟨h1, hmid⟩) z hz
              (by rw [hT1]; exact List.mem_append_right _ hzstack) (by omega)
            rw [hzidx']
            rw [hzidx2] at h3
            exact le_trans hlow_c h3
        · -- children_vis
          intro c2 hc2
          rcases List.mem_cons.mp hc2 with h1 | h1
          · subst h1
            have h2 : st'.idx c2 = st2.idx c2 := Q.frozen_idx c2 (by
              show st2.idx c2 ≠ -1
              rw [P.idx_n]
              omega)
            rw [h2, P.idx_n]
            omega
          · exact Q.children_vis c2 h1
        · -- out_shape
          obtain ⟨n1, ho1, hp1⟩ := P.out_shape
          obtain ⟨n2, ho2, hp2⟩ := Q.out_shape
          refine ⟨n1 ++ n2, ?_, ?_⟩
          · rw [ho2]
            have : ({ st2 with low := updF st2.low n (min (st2.low n) (st2.low c)) }
                : TState).out = st2.out := rfl
            rw [this, ho1, List.append_assoc]
          · intro g hg
            rcases List.mem_append.mp hg with h1 | h1
            · obtain ⟨hl, hnd, hmem⟩ := hp1 g h1
              refine ⟨hl, hnd, ?_⟩
              intro u hu
              obtain ⟨hf, hv⟩ := hmem u hu
              exact ⟨hf, by rw [Q.frozen_idx u hv]; exact hv⟩
            · obtain ⟨hl, hnd, hmem⟩ := hp2 g h1
              refine ⟨hl, hnd, ?_⟩
              intro u hu
              obtain ⟨hf, hv⟩ := hmem u hu
              exact ⟨P.vis_mono u hf, hv⟩
        · -- closed_new
          intro m h1 h2 c2 hc2
          by_cases hmid : st2.idx m = -1
          · exact Q.closed_new m hmid h2 c2 hc2
          · have h3 := P.closed_new m h1 hmid c2 hc2
            rw [Q.frozen_idx c2 h3]
            exact h3
        · -- cyc_keep
          intro hout
          obtain ⟨n1, ho1, _⟩ := P.out_shape
          obtain ⟨n2, ho2, _⟩ := Q.out_shape
          have hmout : ({ st2 with low := updF st2.low n (min (st2.low n) (st2.low c)) }
              : TState).out = st2.out := rfl
          rw [ho2, hmout, ho1, List.append_assoc] at hout
          have hnil : n1 ++ n2 = [] := by
            have hlen := congrArg List.length hout
            simp at hlen
            rcases hlen with ⟨ha, hb⟩
            rw [ha, hb]
            rfl
          have hn1 : n1 = [] := by
            rcases List.append_eq_nil.mp hnil with ⟨ha, hb⟩
            exact ha
          have hn2 : n2 = [] := by
            rcases List.append_eq_nil.mp hnil with ⟨ha, hb⟩
            exact hb
          have e1 : st2.out = st.out := by rw [ho1, hn1, List.append_nil]
          have e2 : st'.out = st2.out := by rw [ho2, hn2, List.append_nil, hmout]
          have c1 := P.cyc_keep e1
          have c2 := Q.cyc_keep (by rw [hmout]; exact e2)
          have hmcyc : ({ st2 with low := updF st2.low n (min (st2.low n) (st2.low c)) }
              : TState).cyc = st2.cyc := rfl
          rw [c2, hmcyc, c1]
    · rw [if_neg hc] at h
      by_cases hcs : c ∈ st.stack
      · rw [if_pos hcs] at h
        have hinv2 : SInv { st with low := updF st.low n (min (st.low n) (st.idx c)) } :=
          sinv_low st _ hinv
        have Q := ih _ st' hinv2 (by show st.idx n ≠ -1; exact hn) h
        have hmid_n : ({ st with low := updF st.low n (min (st.low n) (st.idx c)) }
            : TState).low n = min (st.low n) (st.idx c) := by
          show updF st.low n (min (st.low n) (st.idx c)) n = _
          rw [updF_self]
        have hmid_ne : ∀ m, m ≠ n →
            ({ st with low := updF st.low n (min (st.low n) (st.idx c)) }
              : TState).low m = st.low m := by
          intro m hm
          show updF st.low n (min (st.low n) (st.idx c)) m = _
          rw [updF_ne _ _ _ _ hm]
        obtain ⟨T2, hT2, hT2p⟩ := Q.stack_shape
        have hlow_decr : st'.low n ≤ st.low n := by
          have := Q.low_decr
          rw [hmid_n] at this
          exact le_trans this (min_le_left _ _)
        have hlow_idxc : st'.low n ≤ st.idx c := by
          have := Q.low_decr
          rw [hmid_n] at this
          exact le_trans this (min_le_right _ _)
        refine ⟨Q.inv, Q.cnt_le, Q.frozen_idx, ?_, Q.vis_mono, Q.fresh_ge, ?_, hlow_decr,
          ?_, Q.low_tree, ?_, Q.low_edge_fresh, ?_, Q.out_shape, Q.closed_new, Q.cyc_keep⟩
        · intro m hm hmn
          rw [Q.frozen_low m hm hmn, hmid_ne m hmn]
        · exact ⟨T2, hT2, hT2p⟩
        · intro b hb hstack hlow
          refine Q.low_ge b hb hstack ?_
          rw [hmid_n]
          exact le_min hlow (hstack c hcs)
        · intro z hz hzs hzi
          rcases List.mem_cons.mp hz with h1 | h1
          · subst h1
            have : st'.idx z = st.idx z := Q.frozen_idx z (hinv.stackVis z hcs)
            rw [this]
            exact hlow_idxc
          · exact Q.low_edge z h1 hzs hzi
        · intro c2 hc2
          rcases List.mem_cons.mp hc2 with h1 | h1
          · subst h1
            rw [Q.frozen_idx c2 hc]
            exact hc
          · exact Q.children_vis c2 h1
      · rw [if_neg hcs] at h
        have Q := ih st st' hinv hn h
        obtain ⟨T2, hT2, hT2p⟩ := Q.stack_shape
        refine ⟨Q.inv, Q.cnt_le, Q.frozen_idx, Q.frozen_low, Q.vis_mono, Q.fresh_ge,
          Q.stack_shape, Q.low_decr, Q.low_ge, Q.low_tree, ?_, Q.low_edge_fresh, ?_,
          Q.out_shape, Q.closed_new, Q.cyc_keep⟩
        · intro z hz hzs hzi
          rcases List.mem_cons.mp hz with h1 | h1
          · exfalso
            subst h1
            have hzstack : z ∈ st.stack := by
              rw [hT2] at hzs
              rcases List.mem_append.mp hzs with h2 | h2
              · obtain ⟨_, hge, _⟩ := hT2p z h2
                omega
              · exact h2
            exact hcs hzstack
          · exact Q.low_edge z h1 hzs hzi
        · intro c2 hc2
          rcases List.mem_cons.mp hc2 with h1 | h1
          · subst h1
            rw [Q.frozen_idx c2 hc]
            exact hc
          · exact Q.children_vis c2 h1

/-- The per-call specification of `tarjan(n)` for an unvisited `n`. -/
theorem tarjanF_spec (adj : Name → List Name) :
    ∀ fuel st n st', SInv st → st.idx n = -1 →
      tarjanF adj fuel st n = some st' → TPost adj st st' n := by
  intro fuel
  induction fuel with
  | zero => intro st n st' _ _ h; simp [tarjanF] at h
  | succ fuel ih =>
    intro st n st' hinv hfresh h
    simp only [tarjanF] at h
    cases hcl : childLoop (tarjanF adj fuel) n (visit st n) (adj n) with
    | none => rw [hcl] at h; exact absurd h (by simp)
    | some st2 =>
      rw [hcl] at h
      change popPhase st2 n = some st' at h
      have hcnt0 : 0 ≤ st.cnt := hinv.cntPos
      have hinv1 : SInv (visit st n) := sinv_visit st n hinv hfresh
      have hn1 : (visit st n).idx n ≠ -1 := by
        show updF st.idx n st.cnt n ≠ -1
        rw [updF_self]; omega
      have C := childLoop_spec adj (tarjanF adj fuel)
        (fun a b c hx hy hz => ih a b c hx hy hz) n (adj n) (visit st n) st2 hinv1 hn1 hcl
      have hvidx_n : (visit st n).idx n = st.cnt := by
        show updF st.idx n st.cnt n = st.cnt
        rw [updF_self]
      have hvidx_ne : ∀ m, m ≠ n → (visit st n).idx m = st.idx m := by
        intro m hm
        show updF st.idx n st.cnt m = st.idx m
        rw [updF_ne _ _ _ _ hm]
      have hvlow_n : (visit st n).low n = st.cnt := by
        show updF st.low n st.cnt n = st.cnt
        rw [updF_self]
      have hvlow_ne : ∀ m, m ≠ n → (visit st n).low m = st.low m := by
        intro m hm
        show updF st.low n st.cnt m = st.low m
        rw [updF_ne _ _ _ _ hm]
      have hvcnt : (visit st n).cnt = st.cnt + 1 := rfl
      have hvstack : (visit st n).stack = n :: st.stack := rfl
      have hvout : (visit st n).out = st.out := rfl
      have hvcyc : (visit st n).cyc = st.cyc := rfl
      have hvisne : ∀ m : Name, st.idx m ≠ -1 → m ≠ n := by
        intro m hm heq
        rw [heq, hfresh] at hm
        exact hm rfl
      have hidxn2 : st2.idx n = st.cnt := by
        rw [C.frozen_idx n hn1, hvidx_n]
      have hfrozen_idx : ∀ m, st.idx m ≠ -1 → st2.idx m = st.idx m := by
        intro m hm
        have hmn := hvisne m hm
        rw [C.frozen_idx m (by rw [hvidx_ne m hmn]; exact hm), hvidx_ne m hmn]
      have hfrozen_low : ∀ m, st.idx m ≠ -1 → st2.low m = st.low m := by
        intro m hm
        have hmn := hvisne m hm
        rw [C.frozen_low m (by rw [hvidx_ne m hmn]; exact hm) hmn, hvlow_ne m hmn]
      have hvis_mono : ∀ m, st2.idx m = -1 → st.idx m = -1 := by
        intro m hm
        have h1 := C.vis_mono m hm
        by_cases hmn : m = n
        · rw [hmn, hvidx_n] at h1; omega
        · rw [hvidx_ne m hmn] at h1; exact h1
      have hfresh_ge : ∀ m, st.idx m = -1 → st2.idx m ≠ -1 → st.cnt ≤ st2.idx m := by
        intro m h1 h2
        by_cases hmn : m = n
        · rw [hmn, hidxn2]
        · have h3 := C.fresh_ge m (by rw [hvidx_ne m hmn]; exact h1) h2
          rw [hvcnt] at h3
          omega
      obtain ⟨T, hT, hTp⟩ := C.stack_shape
      rw [hvstack] at hT
      have hnT : n ∉ T := by
        intro hmem
        have := (hTp n hmem).1
        rw [hvidx_n] at this
        omega
      have hTfresh : ∀ m ∈ T, st.idx m = -1 ∧ st.cnt ≤ st2.idx m ∧ st2.low m < st2.idx m := by
        intro m hm
        obtain ⟨h1, h2, h3⟩ := hTp m hm
        have hmn : m ≠ n := fun heq => hnT (heq ▸ hm)
        rw [hvidx_ne m hmn] at h1
        rw [hvcnt] at h2
        exact ⟨h1, by omega, h3⟩
      have hlow2 : st2.low n ≤ st.cnt := by
        have := C.low_decr
        rw [hvlow_n] at this
        exact this
      have hcnt2 : st.cnt + 1 ≤ st2.cnt := by
        have := C.cnt_le
        rw [hvcnt] at this
        exact this
      have hstsub : ∀ z : Name, z ∈ st.stack → z ∈ st2.stack := by
        intro z hz
        rw [hT]
        exact List.mem_append_right _ (List.mem_cons_of_mem _ hz)
      have hlow_ge : ∀ b : Int, b ≤ st.cnt → (∀ m ∈ st.stack, b ≤ st.idx m) →
          b ≤ st2.low n := by
        intro b hb hstack
        refine C.low_ge b (by rw [hvcnt]; omega) ?_ (by rw [hvlow_n]; exact hb)
        intro m hm
        rw [hvstack] at hm
        rcases List.mem_cons.mp hm with h1 | h1
        · rw [h1, hvidx_n]; exact hb
        · have hmn := hvisne m (hinv.stackVis m h1)
          rw [hvidx_ne m hmn]
          exact hstack m h1
      have hlow_tree : ∀ m, st.idx m = -1 → st2.idx m ≠ -1 → st2.low n ≤ st2.low m := by
        intro m h1 h2
        by_cases hmn : m = n
        · rw [hmn]
        · exact C.low_tree m (by rw [hvidx_ne m hmn]; exact h1) h2
      have hlow_edge : ∀ u, (u = n ∨ (st.idx u = -1 ∧ st2.idx u ≠ -1)) →
          ∀ z ∈ adj u, z ∈ st2.stack → st2.idx z < st.cnt → st2.low n ≤ st2.idx z := by
        intro u hu z hz hzs hzi
        by_cases hun : u = n
        · subst hun
          exact C.low_edge z hz hzs (by rw [hvcnt]; omega)
        · rcases hu with h1 | ⟨h1, h2⟩
          · exact absurd h1 hun
          · exact C.low_edge_fresh u (by rw [hvidx_ne u hun]; exact h1) h2 z hz hzs
              (by rw [hvcnt]; omega)
      have hout2 : ∃ new, st2.out = st.out ++ new ∧
          ∀ g ∈ new, 2 ≤ g.length ∧ g.Nodup ∧ ∀ u ∈ g, st.idx u = -1 ∧ st2.idx u ≠ -1 := by
        obtain ⟨new, h1, h2⟩ := C.out_shape
        rw [hvout] at h1
        refine ⟨new, h1, ?_⟩
        intro g hg
        obtain ⟨ha, hb, hcm⟩ := h2 g hg
        refine ⟨ha, hb, ?_⟩
        intro u hu
        obtain ⟨hf, hv⟩ := hcm u hu
        by_cases hun : u = n
        · exact ⟨by rw [hun]; exact hfresh, hv⟩
        · rw [hvidx_ne u hun] at hf
          exact ⟨hf, hv⟩
      have hclosed : ∀ m, st.idx m = -1 → st2.idx m ≠ -1 → ∀ c ∈ adj m, st2.idx c ≠ -1 := by
        intro m h1 h2 c hcadj
        by_cases hmn : m = n
        · subst hmn
          exact C.children_vis c hcadj
        · exact C.closed_new m (by rw [hvidx_ne m hmn]; exact h1) h2 c hcadj
      have hcyc2 : st2.out = st.out → st2.cyc = st.cyc := by
        intro hout
        have := C.cyc_keep (by rw [hvout]; exact hout)
        rw [hvcyc] at this
        exact this
      -- analyze the pop phase
      unfold popPhase at h
      by_cases heq : st2.low n = st2.idx n
      · rw [if_pos heq] at h
        rw [hT, popUntil_append n T st.stack hnT] at h
        change (if 1 < (T ++ [n]).length then
            some { st2 with stack := st.stack, out := st2.out ++ [T ++ [n]], cyc := true }
          else some { st2 with stack := st.stack }) = some st' at h
        have hgnodup : (T ++ [n]).Nodup := by
          have hnd : st2.stack.Nodup := sorted_nodup st2 C.inv
          rw [hT] at hnd
          have hsub : List.Sublist (T ++ [n]) (T ++ n :: st.stack) := by
            refine List.Sublist.append (List.Sublist.refl T) ?_
            exact List.cons_sublist_cons.mpr (List.nil_sublist _)
          exact List.Nodup.sublist hsub hnd
        have hgmem : ∀ u ∈ T ++ [n], st.idx u = -1 ∧ st2.idx u ≠ -1 := by
          intro u hu
          rcases List.mem_append.mp hu with h1 | h1
          · obtain ⟨hf, hge, _⟩ := hTfresh u h1
            exact ⟨hf, by omega⟩
          · simp at h1
            subst h1
            exact ⟨hfresh, by rw [hidxn2]; omega⟩
        by_cases hlen : 1 < (T ++ [n]).length
        · rw [if_pos hlen] at h
          injection h with h
          subst h
          refine ⟨?_, by show st.cnt < st2.cnt; omega, hidxn2, hfrozen_idx, hfrozen_low,
            hvis_mono, hfresh_ge, ⟨[], by simp, by simp⟩, le_of_eq heq,
            fun _ => rfl, ?_, hlow_ge, hlow_tree, ?_, ?_, hclosed, ?_⟩
          · -- SInv after popping down to n
            refine ⟨?_, C.inv.idxLt, C.inv.cntPos, C.inv.idxGe, C.inv.inj, ?_⟩
            · intro m hm
              exact C.inv.stackVis m (hstsub m hm)
            · have hs := C.inv.sorted
              rw [hT] at hs
              have := (List.pairwise_append.mp hs).2.1
              exact (List.pairwise_cons.mp this).2
          · -- mem_lt is vacuous since low = idx
            intro hlt
            exact absurd (show st2.low n < st2.idx n from hlt) (by rw [heq]; omega)
          · -- low_edge: the final stack is a suffix of the pre-pop stack
            intro u hu z hz hzs hzi
            exact hlow_edge u hu z hz (hstsub z hzs) hzi
          · -- out_shape with the new report appended
            obtain ⟨new, h1, h2⟩ := hout2
            refine ⟨new ++ [T ++ [n]], by rw [h1, List.append_assoc], ?_⟩
            intro g hg
            rcases List.mem_append.mp hg with hga | hga
            · exact h2 g hga
            · simp at hga
              subst hga
              exact ⟨by omega, hgnodup, hgmem⟩
          · -- cyc_keep: the out list strictly grew, so the premise is refutable
            intro hout
            exfalso
            obtain ⟨new, h1, _⟩ := hout2
            have hlen2 := congrArg List.length hout
            simp [h1] at hlen2
        · rw [if_neg hlen] at h
          injection h with h
          subst h
          have hTnil : T = [] := by
            cases T with
            | nil => rfl
            | cons a b => simp at hlen
          refine ⟨?_, by show st.cnt < st2.cnt; omega, hidxn2, hfrozen_idx, hfrozen_low,
            hvis_mono, hfresh_ge, ⟨[], by simp, by simp⟩, le_of_eq heq,
            fun _ => rfl, ?_, hlow_ge, hlow_tree, ?_, ?_, hclosed, ?_⟩
          · refine ⟨?_, C.inv.idxLt, C.inv.cntPos, C.inv.idxGe, C.inv.inj, ?_⟩
            · intro m hm
              exact C.inv.stackVis m (hstsub m hm)
            · have hs := C.inv.sorted
              rw [hT] at hs
              have := (List.pairwise_append.mp hs).2.1
              exact (List.pairwise_cons.mp this).2
          · intro hlt
            exact absurd (show st2.low n < st2.idx n from hlt) (by rw [heq]; omega)
          · intro u hu z hz hzs hzi
            exact hlow_edge u hu z hz (hstsub z hzs) hzi
          · exact hout2
          · exact hcyc2
      · rw [if_neg heq] at h
        injection h with h
        subst h
        have hlt : st2.low n < st2.idx n := by
          rw [hidxn2]
          omega
        refine ⟨C.inv, by omega, hidxn2, hfrozen_idx, hfrozen_low, hvis_mono, hfresh_ge,
          ?_, by omega, ?_, ?_, hlow_ge, hlow_tree, hlow_edge, hout2, hclosed, hcyc2⟩
        · -- stack_shape with T ++ [n]
          refine ⟨T ++ [n], by rw [hT, List.append_assoc]; rfl, ?_⟩
          intro m hm
          rcases List.mem_append.mp hm with h1 | h1
          · exact hTfresh m h1
          · simp at h1
            subst h1
            rw [hidxn2]
            exact ⟨hfresh, le_refl _, by omega⟩
        · intro hpe
          rw [hidxn2] at hpe
          omega
        · intro _
          rw [hT]
          exact List.mem_append_right _ (by simp)

/-! ## Repeat top-level calls: trace of tarjan on an already-visited node -/

theorem updF_same (f : Name → Int) (x : Name) : updF f x (f x) = f := by
  funext y
  by_cases h : y = x
  · rw [h, updF_self]
  · rw [updF_ne _ _ _ _ h]

/-- A top-level `tarjan(n)` call on an already-visited node whose children
are all visited (as is the case after `n`'s first visit) reassigns `n`'s
index and lowlink to a fresh counter value, pushes and pops only `n`, and
reports nothing. -/
theorem tarjan_revisit (adj : Name → List Name) (fuel : Nat) (st : TState) (n : Name)
    (hvis : st.idx n ≠ -1) (hstack : st.stack = []) (hcnt : 0 ≤ st.cnt)
    (hch : ∀ c ∈ adj n, st.idx c ≠ -1) :
    tarjanF adj (fuel + 1) st n =
      some ({ st with
                idx := updF st.idx n st.cnt,
                low := updF st.low n st.cnt,
                cnt := st.cnt + 1,
                stack := st.stack }) := by
  simp only [tarjanF]
  have hv_idx_n : (visit st n).idx n = st.cnt := by
    show updF st.idx n st.cnt n = st.cnt
    rw [updF_self]
  have hv_low_n : (visit st n).low n = st.cnt := by
    show updF st.low n st.cnt n = st.cnt
    rw [updF_self]
  have hv_stack : (visit st n).stack = [n] := by
    show n :: st.stack = [n]
    rw [hstack]
  have hCL : ∀ cs, (∀ c ∈ cs, c ∈ adj n) →
      childLoop (tarjanF adj fuel) n (visit st n) cs = some (visit st n) := by
    intro cs
    induction cs with
    | nil => intro _; rfl
    | cons c rest ih =>
      intro hsub
      have hcv : (visit st n).idx c ≠ -1 := by
        by_cases hcn : c = n
        · rw [hcn, hv_idx_n]; omega
        · show updF st.idx n st.cnt c ≠ -1
          rw [updF_ne _ _ _ _ hcn]
          exact hch c (hsub c (by simp))
      simp only [childLoop]
      rw [if_neg (by exact hcv)]
      by_cases hcs : c ∈ (visit st n).stack
      · rw [if_pos hcs]
        have hcn : c = n := by
          rw [hv_stack] at hcs
          simpa using hcs
        have hmin : min ((visit st n).low n) ((visit st n).idx c) = (visit st n).low n := by
          rw [hcn, hv_low_n, hv_idx_n]
          exact min_self _
        rw [hmin]
        have hupd : updF (visit st n).low n ((visit st n).low n) = (visit st n).low :=
          updF_same _ _
        rw [hupd]
        exact ih (fun x hx => hsub x (by simp [hx]))
      · rw [if_neg hcs]
        exact ih (fun x hx => hsub x (by simp [hx]))
  rw [hCL (adj n) (fun c hc => hc)]
  show popPhase (visit st n) n = _
  have hcond : (visit st n).low n = (visit st n).idx n := by rw [hv_low_n, hv_idx_n]
  unfold popPhase
  rw [if_pos hcond, hv_stack]
  have hpop : popUntil [n] n = some ([n], []) := by simp [popUntil]
  rw [hpop]
  show (if 1 < ([n] : List Name).length then
      some { (visit st n) with
               stack := ([] : List Name),
               out := (visit st n).out ++ [[n]],
               cyc := true }
    else some { (visit st n) with stack := ([] : List Name) }) = _
  have hlen : ¬ (1 < ([n] : List Name).length) := by simp
  rw [if_neg hlen]
  have heqst : ({ visit st n with stack := ([] : List Name) } : TState) =
      { st with
          idx := updF st.idx n st.cnt,
          low := updF st.low n st.cnt,
          cnt := st.cnt + 1,
          stack := st.stack } := by
    show ({ st with
              idx := updF st.idx n st.cnt,
              low := updF st.low n st.cnt,
              cnt := st.cnt + 1,
              stack := ([] : List Name) } : TState) = _
    rw [hstack]
  rw [heqst]

/-! ## Totality: the fuel passed by main suffices -/

theorem tarjanF_total (adj : Name → List Name) (nodes : List Name)
    (hclosed : ClosedAdj nodes adj) :
    ∀ fuel st n, SInv st → st.idx n = -1 → n ∈ nodes →
      unvisCount nodes st < fuel → (tarjanF adj fuel st n).isSome = true := by
  intro fuel
  induction fuel with
  | zero => intro st n _ _ _ hcount; omega
  | succ fuel ih =>
    intro st n hinv hfresh hmem hcount
    have hinv1 : SInv (visit st n) := sinv_visit st n hinv hfresh
    have hcnt0 : 0 ≤ st.cnt := hinv.cntPos
    have hn1 : (visit st n).idx n ≠ -1 := by
      show updF st.idx n st.cnt n ≠ -1
      rw [updF_self]; omega
    have hvn : (visit st n).idx n = st.cnt := by
      show updF st.idx n st.cnt n = st.cnt
      rw [updF_self]
    have hcount1 : unvisCount nodes (visit st n) < fuel := by
      have hlt := unvisCount_lt nodes st (visit st n) n hmem hfresh (by rw [hvn]; omega)
        (by
          intro m hm
          by_cases hmn : m = n
          · rw [hmn, hvn] at hm; omega
          · show st.idx m = -1
            have : (visit st n).idx m = st.idx m := by
              show updF st.idx n st.cnt m = st.idx m
              rw [updF_ne _ _ _ _ hmn]
            rw [← this]; exact hm)
      omega
    have hCL : ∀ cs st1, SInv st1 → st1.idx n ≠ -1 → (∀ c ∈ cs, c ∈ nodes) →
        unvisCount nodes st1 < fuel →
        (childLoop (tarjanF adj fuel) n st1 cs).isSome = true := by
      intro cs
      induction cs with
      | nil => intro st1 _ _ _ _; rfl
      | cons c rest ihc =>
        intro st1 hinv1' hn1' hsub hcount'
        simp only [childLoop]
        by_cases hc : st1.idx c = -1
        · rw [if_pos hc]
          have hsome := ih st1 c hinv1' hc (hsub c (by simp)) hcount'
          cases hr : tarjanF adj fuel st1 c with
          | none => rw [hr] at hsome; simp at hsome
          | some st2 =>
            have P := tarjanF_spec adj fuel st1 c st2 hinv1' hc hr
            have hinv2 : SInv { st2 with
                low := updF st2.low n (min (st2.low n) (st2.low c)) } :=
              sinv_low st2 _ P.inv
            have hn2 : st2.idx n ≠ -1 := by
              rw [P.frozen_idx n hn1']; exact hn1'
            have hcount2 : unvisCount nodes st2 < fuel :=
              lt_of_le_of_lt (unvisCount_mono nodes st1 st2 P.vis_mono) hcount'
            exact ihc _ hinv2 hn2 (fun x hx => hsub x (by simp [hx])) hcount2
        · rw [if_neg hc]
          by_cases hcs : c ∈ st1.stack
          · rw [if_pos hcs]
            exact ihc _ (sinv_low st1 _ hinv1') hn1' (fun x hx => hsub x (by simp [hx]))
              hcount'
          · rw [if_neg hcs]
            exact ihc st1 hinv1' hn1' (fun x hx => hsub x (by simp [hx])) hcount'
    have hclv := hCL (adj n) (visit st n) hinv1 hn1
      (fun c hc => hclosed n hmem c hc) hcount1
    simp only [tarjanF]
    cases hcl : childLoop (tarjanF adj fuel) n (visit st n) (adj n) with
    | none => rw [hcl] at hclv; simp at hclv
    | some st2 =>
      have C := childLoop_spec adj (tarjanF adj fuel)
        (fun a b c hx hy hz => tarjanF_spec adj fuel a b c hx hy hz) n (adj n)
        (visit st n) st2 hinv1 hn1 hcl
      obtain ⟨T, hT, hTp⟩ := C.stack_shape
      have hvstack : (visit st n).stack = n :: st.stack := rfl
      rw [hvstack] at hT
      have hnT : n ∉ T := by
        intro hmem2
        have h1 := (hTp n hmem2).1
        rw [hvn] at h1
        omega
      show (popPhase st2 n).isSome = true
      unfold popPhase
      by_cases heq : st2.low n = st2.idx n
      · rw [if_pos heq, hT, popUntil_append n T st.stack hnT]
        show (if 1 < (T ++ [n]).length then
            some { st2 with
                     stack := st.stack,
                     out := st2.out ++ [T ++ [n]],
                     cyc := true }
          else some { st2 with stack := st.stack }).isSome = true
        by_cases hlen : 1 < (T ++ [n]).length
        · rw [if_pos hlen]; rfl
        · rw [if_neg hlen]; rfl
      · rw [if_neg heq]; rfl

theorem unvisCount_le (nodes : List Name) (st : TState) :
    unvisCount nodes st ≤ nodes.length :=
  List.length_filter_le _ _

theorem mainLoop_spec (adj : Name → List Name) (nodes : List Name)
    (hclosed : ClosedAdj nodes adj) :
    ∀ rest st, QInv adj st → (∀ m ∈ rest, m ∈ nodes) →
      ∃ st', mainLoop adj (nodes.length + 1) st rest = some st' ∧ QInv adj st' ∧
        (∀ m ∈ rest, st'.idx m ≠ -1) ∧ (∀ m, st.idx m ≠ -1 → st'.idx m ≠ -1) := by
  intro rest
  induction rest with
  | nil =>
    intro st hq _
    exact ⟨st, rfl, hq, by simp, fun m hm => hm⟩
  | cons n rest ih =>
    intro st hq hsub
    obtain ⟨hinv, hstack, hcl⟩ := hq
    have hcnt0 : 0 ≤ st.cnt := hinv.cntPos
    by_cases hvis : st.idx n = -1
    · -- first visit of n as a root
      have hcount : unvisCount nodes st < nodes.length + 1 := by
        have := unvisCount_le nodes st
        omega
      have hsome := tarjanF_total adj nodes hclosed (nodes.length + 1) st n hinv hvis
        (hsub n (by simp)) hcount
      cases hr : tarjanF adj (nodes.length + 1) st n with
      | none => rw [hr] at hsome; simp at hsome
      | some st2 =>
        have P := tarjanF_spec adj (nodes.length + 1) st n st2 hinv hvis hr
        have hge : st.cnt ≤ st2.low n :=
          P.low_ge st.cnt (le_refl _) (by rw [hstack]; intro m hm; simp at hm)
        have hle : st2.low n ≤ st2.idx n := P.low_le
        have heq : st2.low n = st2.idx n := by
          rw [P.idx_n]
          rw [P.idx_n] at hle
          omega
        have hstack2 : st2.stack = [] := by
          rw [P.pop_eq heq, hstack]
        have hnvis2 : ∀ m, st.idx m ≠ -1 → st2.idx m ≠ -1 := by
          intro m hm hc
          exact hm (P.vis_mono m hc)
        have hq2 : QInv adj st2 := by
          refine ⟨P.inv, hstack2, ?_⟩
          intro m hm c hc
          by_cases hmold : st.idx m ≠ -1
          · exact hnvis2 c (hcl m hmold c hc)
          · push_neg at hmold
            exact P.closed_new m hmold hm c hc
        obtain ⟨st', hrun, hq', hvisrest, hmono⟩ := ih st2 hq2
          (fun m hm => hsub m (by simp [hm]))
        refine ⟨st', ?_, hq', ?_, ?_⟩
        · simp only [mainLoop]
          rw [hr]
          exact hrun
        · intro m hm
          rcases List.mem_cons.mp hm with h1 | h1
          · subst h1
            exact hmono m (by rw [P.idx_n]; omega)
          · exact hvisrest m h1
        · intro m hm
          exact hmono m (hnvis2 m hm)
    · -- repeated root call on a visited node
      have hrev := tarjan_revisit adj nodes.length st n hvis hstack hcnt0
        (fun c hc => hcl n hvis c hc)
      have hq2 : QInv adj { st with
          idx := updF st.idx n st.cnt,
          low := updF st.low n st.cnt,
          cnt := st.cnt + 1,
          stack := st.stack } := by
        refine ⟨⟨?_, ?_, ?_, ?_, ?_, ?_⟩, hstack, ?_⟩
        · intro m hm
          rw [hstack] at hm
          simp at hm
        · intro m
          show updF st.idx n st.cnt m < st.cnt + 1
          by_cases hmn : m = n
          · rw [hmn, updF_self]; omega
          · rw [updF_ne _ _ _ _ hmn]
            have := hinv.idxLt m
            omega
        · show 0 ≤ st.cnt + 1
          omega
        · intro m
          show -1 ≤ updF st.idx n st.cnt m
          by_cases hmn : m = n
          · rw [hmn, updF_self]; omega
          · rw [updF_ne _ _ _ _ hmn]
            exact hinv.idxGe m
        · intro u v hu huv
          show u = v
          have huv' : updF st.idx n st.cnt u = updF st.idx n st.cnt v := huv
          have hu' : updF st.idx n st.cnt u ≠ -1 := hu
          by_cases h1 : u = n
          · by_cases h2 : v = n
            · rw [h1, h2]
            · exfalso
              have hul : updF st.idx n st.cnt u = st.cnt := by rw [h1, updF_self]
              have hvl : updF st.idx n st.cnt v = st.idx v := updF_ne _ _ _ _ h2
              rw [hul, hvl] at huv'
              have := hinv.idxLt v
              omega
          · by_cases h2 : v = n
            · exfalso
              have hul : updF st.idx n st.cnt u = st.idx u := updF_ne _ _ _ _ h1
              have hvl : updF st.idx n st.cnt v = st.cnt := by rw [h2, updF_self]
              rw [hul, hvl] at huv'
              have := hinv.idxLt u
              omega
            · have hul : updF st.idx n st.cnt u = st.idx u := updF_ne _ _ _ _ h1
              have hvl : updF st.idx n st.cnt v = st.idx v := updF_ne _ _ _ _ h2
              rw [hul, hvl] at huv'
              rw [hul] at hu'
              exact hinv.inj u v hu' huv'
        · show List.Pairwise _ st.stack
          rw [hstack]
          exact List.Pairwise.nil
        · intro m hm c hc
          show updF st.idx n st.cnt c ≠ -1
          by_cases hcn : c = n
          · rw [hcn, updF_self]; omega
          · rw [updF_ne _ _ _ _ hcn]
            by_cases hmn : m = n
            · exact hcl n hvis c (by rw [← hmn]; exact hc)
            · have hm' : st.idx m ≠ -1 := by
                show ¬ _
                intro hz
                apply hm
                show updF st.idx n st.cnt m = -1
                rw [updF_ne _ _ _ _ hmn]
                exact hz
              exact hcl m hm' c hc
      obtain ⟨st', hrun, hq', hvisrest, hmono⟩ := ih _ hq2
        (fun m hm => hsub m (by simp [hm]))
      refine ⟨st', ?_, hq', ?_, ?_⟩
      · simp only [mainLoop]
        rw [show nodes.length + 1 = nodes.length + 1 from rfl, hrev]
        exact hrun
      · intro m hm
        rcases List.mem_cons.mp hm with h1 | h1
        · refine hmono m ?_
          show updF st.idx n st.cnt m ≠ -1
          rw [h1, updF_self]
          omega
        · exact hvisrest m h1
      · intro m hm
        refine hmono m ?_
        show updF st.idx n st.cnt m ≠ -1
        by_cases hmn : m = n
        · rw [hmn, updF_self]; omega
        · rw [updF_ne _ _ _ _ hmn]; exact hm

theorem qinv_init (adj : Name → List Name) : QInv adj initTS := by
  refine ⟨⟨?_, ?_, ?_, ?_, ?_, ?_⟩, rfl, ?_⟩
  · intro m hm; simp [initTS] at hm
  · intro m; show (-1 : Int) < 0; omega
  · show (0 : Int) ≤ 0; omega
  · intro m; show (-1 : Int) ≤ -1; omega
  · intro u v hu _; exact absurd rfl hu
  · show List.Pairwise _ ([] : List Name); exact List.Pairwise.nil
  · intro m hm; exact absurd rfl hm

/-- C10 (confirmed): (1) a full run over any graph ends with an empty
traversal stack, every top-level call returning to an empty stack; (2) at
call boundaries every node on the stack has an assigned index, an invariant
each `tarjan` call preserves; (3) a top-level `tarjan` call on an
already-visited node (stack empty, its children visited) pushes and pops
only that node and reports no cycle. -/
theorem c10 (nodes : List Name) (adj : Name → List Name) (hclosed : ClosedAdj nodes adj) :
    (∃ st, runTarjan nodes adj = some st ∧ st.stack = [] ∧
      ∀ m ∈ st.stack, st.idx m ≠ -1) ∧
    (∀ fuel st n st', SInv st → st.stack = [] → st.idx n = -1 →
      tarjanF adj fuel st n = some st' → st'.stack = []) ∧
    (∀ fuel st n st', SInv st → st.idx n = -1 → tarjanF adj fuel st n = some st' →
      ∀ m ∈ st'.stack, st'.idx m ≠ -1) ∧
    (∀ fuel st n, st.idx n ≠ -1 → st.stack = [] → 0 ≤ st.cnt →
      (∀ c ∈ adj n, st.idx c ≠ -1) →
      ∃ st', tarjanF adj (fuel + 1) st n = some st' ∧ st'.stack = [] ∧
        st'.out = st.out ∧ st'.cyc = st.cyc) := by
  refine ⟨?_, ?_, ?_, ?_⟩
  · obtain ⟨st', hrun, hq', _, _⟩ :=
      mainLoop_spec adj nodes hclosed nodes initTS (qinv_init adj) (fun m hm => hm)
    exact ⟨st', hrun, hq'.2.1, hq'.1.stackVis⟩
  · intro fuel st n st' hinv hstack hfresh hr
    have P := tarjanF_spec adj fuel st n st' hinv hfresh hr
    have hge : st.cnt ≤ st'.low n :=
      P.low_ge st.cnt (le_refl _) (by rw [hstack]; intro m hm; simp at hm)
    have hle : st'.low n ≤ st'.idx n := P.low_le
    have heq : st'.low n = st'.idx n := by
      rw [P.idx_n]
      rw [P.idx_n] at hle
      omega
    rw [P.pop_eq heq, hstack]
  · intro fuel st n st' hinv hfresh hr
    exact (tarjanF_spec adj fuel st n st' hinv hfresh hr).inv.stackVis
  · intro fuel st n hvis hstack hcnt hch
    refine ⟨_, tarjan_revisit adj fuel st n hvis hstack hcnt hch, ?_, rfl, rfl⟩
    exact hstack

/-- Witness for C10 on a one-node edgeless graph. -/
theorem c10_witness :
    (∃ st, runTarjan [s2n "a.h"] (fun _ => []) = some st ∧ st.stack = [] ∧
      ∀ m ∈ st.stack, st.idx m ≠ -1) ∧
    (∀ fuel st n st', SInv st → st.stack = [] → st.idx n = -1 →
      tarjanF (fun _ => []) fuel st n = some st' → st'.stack = []) ∧
    (∀ fuel st n st', SInv st → st.idx n = -1 →
      tarjanF (fun _ => []) fuel st n = some st' →
      ∀ m ∈ st'.stack, st'.idx m ≠ -1) ∧
    (∀ fuel st n, st.idx n ≠ -1 → st.stack = [] → 0 ≤ st.cnt →
      (∀ c ∈ (fun _ => ([] : List Name)) n, st.idx c ≠ -1) →
      ∃ st', tarjanF (fun _ => []) (fuel + 1) st n = some st' ∧ st'.stack = [] ∧
        st'.out = st.out ∧ st'.cyc = st.cyc) :=
  c10 [s2n "a.h"] (fun _ => []) (by intro n _ c hc; simp at hc)

/-- C5 (amended): the main loop calls `tarjan` on every node of the graph,
so after the run every node has an assigned index; repeated top-level calls
on already-visited nodes are made (rather than skipped) but are harmless. -/
theorem c5_amended (nodes : List Name) (adj : Name → List Name)
    (hclosed : ClosedAdj nodes adj) :
    ∃ st, runTarjan nodes adj = some st ∧ ∀ n ∈ nodes, st.idx n ≠ -1 := by
  obtain ⟨st', hrun, _, hvis, _⟩ :=
    mainLoop_spec adj nodes hclosed nodes initTS (qinv_init adj) (fun m hm => hm)
  exact ⟨st', hrun, hvis⟩

/-- Witness for C5 (amended) on the two-node graph of `regAB`. -/
theorem c5_amended_witness :
    ∃ st, runTarjan (nodesOf regAB) (linksOf regAB) = some st ∧
      ∀ n ∈ nodesOf regAB, st.idx n ≠ -1 :=
  c5_amended (nodesOf regAB) (linksOf regAB) (by
    intro n hn c hc
    fin_cases hn <;> simp [linksOf, regAB, nodesOf, List.find?, s2n] at hc ⊢ <;> simp [hc])

theorem childLoop_acyclic (adj : Name → List Name) (hacyc : Acyclic adj)
    (rec : TState → Name → Option TState)
    (hspec : ∀ st c st2, SInv st → st.idx c = -1 → rec st c = some st2 →
      TPost adj st st2 c)
    (hacl : ∀ st c st2, SInv st → st.idx c = -1 →
      (∀ u ∈ st.stack, Reaches adj u c) → rec st c = some st2 →
      st2.stack = st.stack ∧ st2.out = st.out ∧ st2.cyc = st.cyc ∧
        st2.low c = st.cnt)
    (n : Name) :
    ∀ cs st st', SInv st → st.idx n ≠ -1 → st.low n = st.idx n →
      (∀ u ∈ st.stack, Reaches adj u n) → (∀ c ∈ cs, Edge adj n c) →
      childLoop rec n st cs = some st' →
      st'.stack = st.stack ∧ st'.out = st.out ∧ st'.cyc = st.cyc ∧
        st'.low n = st.low n := by
  intro cs
  induction cs with
  | nil =>
    intro st st' _ _ _ _ _ h
    simp only [childLoop] at h
    injection h with h
    subst h
    exact ⟨rfl, rfl, rfl, rfl⟩
  | cons c cs ih =>
    intro st st' hinv hn hlown hreach hedge h
    simp only [childLoop] at h
    by_cases hc : st.idx c = -1
    · rw [if_pos hc] at h
      cases hr : rec st c with
      | none => rw [hr] at h; exact absurd h (by simp)
      | some st2 =>
        rw [hr] at h
        have P := hspec st c st2 hinv hc hr
        have hreach_c : ∀ u ∈ st.stack, Reaches adj u c := by
          intro u hu
          exact Relation.ReflTransGen.tail (hreach u hu) (hedge c (by simp))
        obtain ⟨hs2, ho2, hy2, hl2⟩ := hacl st c st2 hinv hc hreach_c hr
        have hn2 : st2.idx n = st.idx n := P.frozen_idx n hn
        have hln2 : st2.low n = st.low n := P.frozen_low n hn
        have hmin : min (st2.low n) (st2.low c) = st.low n := by
          rw [hln2, hl2, hlown]
          have := hinv.idxLt n
          omega
        have hinv_m : SInv { st2 with
            low := updF st2.low n (min (st2.low n) (st2.low c)) } :=
          sinv_low st2 _ P.inv
        have hn_m : ({ st2 with
            low := updF st2.low n (min (st2.low n) (st2.low c)) } : TState).idx n ≠ -1 := by
          show st2.idx n ≠ -1
          rw [hn2]; exact hn
        have hlow_m : ({ st2 with
            low := updF st2.low n (min (st2.low n) (st2.low c)) } : TState).low n =
            ({ st2 with
            low := updF st2.low n (min (st2.low n) (st2.low c)) } : TState).idx n := by
          show updF st2.low n (min (st2.low n) (st2.low c)) n = st2.idx n
          rw [updF_self, hmin, hn2, hlown]
        have hreach_m : ∀ u ∈ ({ st2 with
            low := updF st2.low n (min (st2.low n) (st2.low c)) } : TState).stack,
            Reaches adj u n := by
          intro u hu
          apply hreach
          have hu' : u ∈ st2.stack := hu
          rw [hs2] at hu'
          exact hu'
        have hedge' : ∀ x ∈ cs, Edge adj n x := fun x hx => hedge x (by simp [hx])
        obtain ⟨hs', ho', hy', hl'⟩ := ih _ st' hinv_m hn_m hlow_m hreach_m hedge' h
        refine ⟨?_, ?_, ?_, ?_⟩
        · rw [hs']
          show st2.stack = st.stack
          exact hs2
        · rw [ho']
          show st2.out = st.out
          exact ho2
        · rw [hy']
          show st2.cyc = st.cyc
          exact hy2
        · rw [hl']
          show updF st2.low n (min (st2.low n) (st2.low c)) n = st.low n
          rw [updF_self, hmin]
    · rw [if_neg hc] at h
      by_cases hcs : c ∈ st.stack
      · exact absurd (Relation.TransGen.head' (hedge c (by simp)) (hreach c hcs)) (hacyc n)
      · rw [if_neg hcs] at h
        exact ih st st' hinv hn hlown hreach (fun x hx => hedge x (by simp [hx])) h

theorem tarjan_acyclic (adj : Name → List Name) (hacyc : Acyclic adj) :
    ∀ fuel st n st', SInv st → st.idx n = -1 →
      (∀ u ∈ st.stack, Reaches adj u n) →
      tarjanF adj fuel st n = some st' →
      st'.stack = st.stack ∧ st'.out = st.out ∧ st'.cyc = st.cyc ∧
        st'.low n = st.cnt := by
  intro fuel
  induction fuel with
  | zero => intro st n st' _ _ _ h; simp [tarjanF] at h
  | succ fuel ih =>
    intro st n st' hinv hfresh hreach h
    simp only [tarjanF] at h
    cases hcl : childLoop (tarjanF adj fuel) n (visit st n) (adj n) with
    | none => rw [hcl] at h; exact absurd h (by simp)
    | some st2 =>
      rw [hcl] at h
      change popPhase st2 n = some st' at h
      have hcnt0 : 0 ≤ st.cnt := hinv.cntPos
      have hinv1 : SInv (visit st n) := sinv_visit st n hinv hfresh
      have hn1 : (visit st n).idx n ≠ -1 := by
        show updF st.idx n st.cnt n ≠ -1
        rw [updF_self]; omega
      have hlow1 : (visit st n).low n = (visit st n).idx n := by
        show updF st.low n st.cnt n = updF st.idx n st.cnt n
        rw [updF_self, updF_self]
      have hreach1 : ∀ u ∈ (visit st n).stack, Reaches adj u n := by
        intro u hu
        have hu' : u ∈ n :: st.stack := hu
        rcases List.mem_cons.mp hu' with h1 | h1
        · rw [h1]
          exact Relation.ReflTransGen.refl
        · exact hreach u h1
      obtain ⟨hs2, ho2, hy2, hl2⟩ := childLoop_acyclic adj hacyc (tarjanF adj fuel)
        (fun a b c hx hy hz => tarjanF_spec adj fuel a b c hx hy hz)
        (fun a b c hx hy hz hw => ih a b c hx hy hz hw)
        n (adj n) (visit st n) st2 hinv1 hn1 hlow1 hreach1 (fun c hc => hc) hcl
      have CP := childLoop_spec adj (tarjanF adj fuel)
        (fun a b c hx hy hz => tarjanF_spec adj fuel a b c hx hy hz)
        n (adj n) (visit st n) st2 hinv1 hn1 hcl
      have hidx2 : st2.idx n = st.cnt := by
        have hfz := CP.frozen_idx n hn1
        rw [hfz]
        show updF st.idx n st.cnt n = st.cnt
        rw [updF_self]
      have hlow2 : st2.low n = st.cnt := by
        rw [hl2]
        show updF st.low n st.cnt n = st.cnt
        rw [updF_self]
      have hcond : st2.low n = st2.idx n := by rw [hlow2, hidx2]
      unfold popPhase at h
      rw [if_pos hcond] at h
      have hpop : popUntil st2.stack n = some ([n], st.stack) := by
        rw [hs2]
        show popUntil (n :: st.stack) n = some ([n], st.stack)
        simp [popUntil]
      rw [hpop] at h
      have hlen : ¬ (1 < ([n] : List Name).length) := by simp
      change (if 1 < ([n] : List Name).length then
          some { st2 with stack := st.stack, out := st2.out ++ [[n]], cyc := true }
        else some { st2 with stack := st.stack }) = some st' at h
      rw [if_neg hlen] at h
      injection h with h
      subst h
      exact ⟨rfl, ho2, hy2, hlow2⟩

theorem mainLoop_acyclic (adj : Name → List Name) (nodes : List Name)
    (hacyc : Acyclic adj) (hclosed : ClosedAdj nodes adj) :
    ∀ rest st, QInv adj st → (∀ m ∈ rest, m ∈ nodes) →
      ∃ st', mainLoop adj (nodes.length + 1) st rest = some st' ∧
        st'.out = st.out ∧ st'.cyc = st.cyc := by
  intro rest
  induction rest with
  | nil =>
    intro st _ _
    exact ⟨st, rfl, rfl, rfl⟩
  | cons n rest ih =>
    intro st hq hsub
    obtain ⟨hinv, hstack, hcl⟩ := hq
    obtain ⟨stm, hr1, hqm, _, _⟩ := mainLoop_spec adj nodes hclosed [n] st ⟨hinv, hstack, hcl⟩
      (fun m hm => by simp at hm; rw [hm]; exact hsub n (by simp))
    have hr2 : tarjanF adj (nodes.length + 1) st n = some stm := by
      simp only [mainLoop] at hr1
      cases hr : tarjanF adj (nodes.length + 1) st n with
      | none => rw [hr] at hr1; exact absurd hr1 (by simp)
      | some stx =>
        rw [hr] at hr1
        simp only [mainLoop] at hr1
        injection hr1 with hr1
        rw [hr1]
    have hout : stm.out = st.out ∧ stm.cyc = st.cyc := by
      by_cases hvis : st.idx n = -1
      · obtain ⟨_, ho, hy, _⟩ := tarjan_acyclic adj hacyc (nodes.length + 1) st n stm hinv hvis
          (by rw [hstack]; intro u hu; simp at hu) hr2
        exact ⟨ho, hy⟩
      · have hrev := tarjan_revisit adj nodes.length st n hvis hstack hinv.cntPos
          (fun c hc => hcl n hvis c hc)
        rw [hrev] at hr2
        injection hr2 with hr2
        constructor
        · rw [← hr2]
        · rw [← hr2]
    obtain ⟨st', hrun, ho', hy'⟩ := ih stm hqm (fun m hm => hsub m (by simp [hm]))
    refine ⟨st', ?_, ?_, ?_⟩
    · simp only [mainLoop]
      rw [hr2]
      exact hrun
    · rw [ho', hout.1]
    · rw [hy', hout.2]

/-- C3 (confirmed): for every acyclic dependency graph (no directed cycle,
including no self-loop), the analysis over all nodes reports zero cycles,
`cyclesDetected` stays false, and the summary line "No cyclic dependencies
detected." is printed. -/
theorem c3 (nodes : List Name) (adj : Name → List Name)
    (hacyc : Acyclic adj) (hclosed : ClosedAdj nodes adj) :
    ∃ st, runTarjan nodes adj = some st ∧ st.out = [] ∧ st.cyc = false ∧
      summaryPrinted st = true := by
  obtain ⟨st', hrun, ho, hy⟩ := mainLoop_acyclic adj nodes hacyc hclosed nodes initTS
    (qinv_init adj) (fun m hm => hm)
  refine ⟨st', hrun, ?_, ?_, ?_⟩
  · rw [ho]
    rfl
  · rw [hy]
    rfl
  · simp [summaryPrinted]
    rw [hy]
    rfl

/-- Witness for C3 on a two-node edgeless graph. -/
theorem c3_witness :
    ∃ st, runTarjan [s2n "a.h", s2n "b.h"] (fun _ => []) = some st ∧
      st.out = [] ∧ st.cyc = false ∧ summaryPrinted st = true :=
  c3 [s2n "a.h", s2n "b.h"] (fun _ => [])
    (by
      intro n h
      cases h with
      | single h1 => simp [Edge] at h1
      | tail _ h1 => simp [Edge] at h1)
    (by intro n _ c hc; simp at hc)

theorem iterate_mem (C : List Name) (f : Name → Name) (hf : ∀ m ∈ C, f m ∈ C) :
    ∀ j m, m ∈ C → f^[j] m ∈ C := by
  intro j
  induction j with
  | zero => intro m hm; exact hm
  | succ j ih =>
    intro m hm
    rw [Function.iterate_succ_apply]
    exact ih (f m) (hf m hm)

theorem reach_iterate (adj : Name → List Name) (C : List Name) (f : Name → Name)
    (hf : ∀ m ∈ C, f m ∈ C) (hE : ∀ m ∈ C, Edge adj m (f m)) :
    ∀ j m, m ∈ C → Reaches adj m (f^[j] m) := by
  intro j
  induction j with
  | zero => intro m _; exact Relation.ReflTransGen.refl
  | succ j ih =>
    intro m hm
    rw [Function.iterate_succ_apply']
    exact Relation.ReflTransGen.tail (ih m hm) (hE _ (iterate_mem C f hf j m hm))

theorem childLoopPost (adj : Name → List Name) (C : List Name)
    (honly : ∀ u, ReachesPlus adj u u → u ∈ C)
    (rec : TState → Name → Option TState)
    (hpost : ∀ st c st2, SInv st → st.idx c = -1 →
      (∀ u ∈ st.stack, Reaches adj u c) → DoneC C st → rec st c = some st2 →
      st2.stack = st.stack ∧ st2.out = st.out ∧ st2.cyc = st.cyc ∧
        st2.low c = st.cnt ∧ DoneC C st2)
    (hspec : ∀ st c st2, SInv st → st.idx c = -1 → rec st c = some st2 →
      TPost adj st st2 c)
    (n : Name) (hnC : n ∉ C) :
    ∀ cs st st', SInv st → st.idx n ≠ -1 → st.low n = st.idx n →
      (∀ u ∈ st.stack, Reaches adj u n) → (∀ c ∈ cs, Edge adj n c) → DoneC C st →
      childLoop rec n st cs = some st' →
      st'.stack = st.stack ∧ st'.out = st.out ∧ st'.cyc = st.cyc ∧
        st'.low n = st.low n ∧ DoneC C st' := by
  intro cs
  induction cs with
  | nil =>
    intro st st' _ _ _ _ _ hD h
    simp only [childLoop] at h
    injection h with h
    subst h
    exact ⟨rfl, rfl, rfl, rfl, hD⟩
  | cons c cs ih =>
    intro st st' hinv hn hlown hreach hedge hD h
    simp only [childLoop] at h
    by_cases hc : st.idx c = -1
    · rw [if_pos hc] at h
      cases hr : rec st c with
      | none => rw [hr] at h; exact absurd h (by simp)
      | some st2 =>
        rw [hr] at h
        have P := hspec st c st2 hinv hc hr
        have hreach_c : ∀ u ∈ st.stack, Reaches adj u c := by
          intro u hu
          exact Relation.ReflTransGen.tail (hreach u hu) (hedge c (by simp))
        obtain ⟨hs2, ho2, hy2, hl2, hD2⟩ := hpost st c st2 hinv hc hreach_c hD hr
        have hn2 : st2.idx n = st.idx n := P.frozen_idx n hn
        have hln2 : st2.low n = st.low n := P.frozen_low n hn
        have hmin : min (st2.low n) (st2.low c) = st.low n := by
          rw [hln2, hl2, hlown]
          have := hinv.idxLt n
          omega
        have hinv_m : SInv { st2 with
            low := updF st2.low n (min (st2.low n) (st2.low c)) } :=
          sinv_low st2 _ P.inv
        have hn_m : ({ st2 with
            low := updF st2.low n (min (st2.low n) (st2.low c)) } : TState).idx n ≠ -1 := by
          show st2.idx n ≠ -1
          rw [hn2]; exact hn
        have hlow_m : ({ st2 with
            low := updF st2.low n (min (st2.low n) (st2.low c)) } : TState).low n =
            ({ st2 with
            low := updF st2.low n (min (st2.low n) (st2.low c)) } : TState).idx n := by
          show updF st2.low n (min (st2.low n) (st2.low c)) n = st2.idx n
          rw [updF_self, hmin, hn2, hlown]
        have hreach_m : ∀ u ∈ ({ st2 with
            low := updF st2.low n (min (st2.low n) (st2.low c)) } : TState).stack,
            Reaches adj u n := by
          intro u hu
          apply hreach
          have hu' : u ∈ st2.stack := hu
          rw [hs2] at hu'
          exact hu'
        have hD_m : DoneC C { st2 with
            low := updF st2.low n (min (st2.low n) (st2.low c)) } := by
          intro m hm
          exact hD2 m hm
        obtain ⟨hs', ho', hy', hl', hD'⟩ := ih _ st' hinv_m hn_m hlow_m hreach_m
          (fun x hx => hedge x (by simp [hx])) hD_m h
        refine ⟨?_, ?_, ?_, ?_, hD'⟩
        · rw [hs']
          show st2.stack = st.stack
          exact hs2
        · rw [ho']
          show st2.out = st.out
          exact ho2
        · rw [hy']
          show st2.cyc = st.cyc
          exact hy2
        · rw [hl']
          show updF st2.low n (min (st2.low n) (st2.low c)) n = st.low n
          rw [updF_self, hmin]
    · rw [if_neg hc] at h
      by_cases hcs : c ∈ st.stack
      · refine absurd (honly n (Relation.TransGen.head' (hedge c (by simp))
          (hreach c hcs))) hnC
      · rw [if_neg hcs] at h
        exact ih st st' hinv hn hlown hreach (fun x hx => hedge x (by simp [hx])) hD h

theorem tarjanPost (adj : Name → List Name) (C : List Name)
    (honly : ∀ u, ReachesPlus adj u u → u ∈ C) :
    ∀ fuel st n st', SInv st → st.idx n = -1 →
      (∀ u ∈ st.stack, Reaches adj u n) → DoneC C st →
      tarjanF adj fuel st n = some st' →
      st'.stack = st.stack ∧ st'.out = st.out ∧ st'.cyc = st.cyc ∧
        st'.low n = st.cnt ∧ DoneC C st' := by
  intro fuel
  induction fuel with
  | zero => intro st n st' _ _ _ _ h; simp [tarjanF] at h
  | succ fuel ih =>
    intro st n st' hinv hfresh hreach hD h
    have hnC : n ∉ C := fun hc => (hD n hc).1 hfresh
    simp only [tarjanF] at h
    cases hcl : childLoop (tarjanF adj fuel) n (visit st n) (adj n) with
    | none => rw [hcl] at h; exact absurd h (by simp)
    | some st2 =>
      rw [hcl] at h
      change popPhase st2 n = some st' at h
      have hcnt0 : 0 ≤ st.cnt := hinv.cntPos
      have hinv1 : SInv (visit st n) := sinv_visit st n hinv hfresh
      have hn1 : (visit st n).idx n ≠ -1 := by
        show updF st.idx n st.cnt n ≠ -1
        rw [updF_self]; omega
      have hlow1 : (visit st n).low n = (visit st n).idx n := by
        show updF st.low n st.cnt n = updF st.idx n st.cnt n
        rw [updF_self, updF_self]
      have hreach1 : ∀ u ∈ (visit st n).stack, Reaches adj u n := by
        intro u hu
        have hu' : u ∈ n :: st.stack := hu
        rcases List.mem_cons.mp hu' with h1 | h1
        · rw [h1]
          exact Relation.ReflTransGen.refl
        · exact hreach u h1
      have hD1 : DoneC C (visit st n) := by
        intro m hm
        have hmn : m ≠ n := fun he => hnC (he ▸ hm)
        constructor
        · show updF st.idx n st.cnt m ≠ -1
          rw [updF_ne _ _ _ _ hmn]
          exact (hD m hm).1
        · show m ∉ n :: st.stack
          intro hmem
          rcases List.mem_cons.mp hmem with h1 | h1
          · exact hmn h1
          · exact (hD m hm).2 h1
      obtain ⟨hs2, ho2, hy2, hl2, hD2⟩ := childLoopPost adj C honly (tarjanF adj fuel)
        (fun a b c hx hy hz hw hv => ih a b c hx hy hz hw hv)
        (fun a b c hx hy hz => tarjanF_spec adj fuel a b c hx hy hz)
        n hnC (adj n) (visit st n) st2 hinv1 hn1 hlow1 hreach1 (fun c hc => hc) hD1 hcl
      have CP := childLoop_spec adj (tarjanF adj fuel)
        (fun a b c hx hy hz => tarjanF_spec adj fuel a b c hx hy hz)
        n (adj n) (visit st n) st2 hinv1 hn1 hcl
      have hidx2 : st2.idx n = st.cnt := by
        have hfz := CP.frozen_idx n hn1
        rw [hfz]
        show updF st.idx n st.cnt n = st.cnt
        rw [updF_self]
      have hlow2 : st2.low n = st.cnt := by
        rw [hl2]
        show updF st.low n st.cnt n = st.cnt
        rw [updF_self]
      have hcond : st2.low n = st2.idx n := by rw [hlow2, hidx2]
      unfold popPhase at h
      rw [if_pos hcond] at h
      have hpop : popUntil st2.stack n = some ([n], st.stack) := by
        rw [hs2]
        show popUntil (n :: st.stack) n = some ([n], st.stack)
        simp [popUntil]
      rw [hpop] at h
      have hlen : ¬ (1 < ([n] : List Name).length) := by simp
      change (if 1 < ([n] : List Name).length then
          some { st2 with stack := st.stack, out := st2.out ++ [[n]], cyc := true }
        else some { st2 with stack := st.stack }) = some st' at h
      rw [if_neg hlen] at h
      injection h with h
      subst h
      refine ⟨rfl, ho2, hy2, hlow2, ?_⟩
      intro m hm
      refine ⟨hD2 m hm |>.1, ?_⟩
      show m ∉ st.stack
      exact (hD m hm).2

theorem childLoopCyc (adj : Name → List Name) (C : List Name) (fsucc : Name → Name)
    (r : Name)
    (honly : ∀ u, ReachesPlus adj u u → u ∈ C)
    (hCr : ∀ m ∈ C, Reaches adj m r)
    (rec : TState → Name → Option TState)
    (hspec : ∀ st c st2, SInv st → st.idx c = -1 → rec st c = some st2 →
      TPost adj st st2 c)
    (hrec : ∀ st c st2, SInv st → st.idx c = -1 →
      (∀ u ∈ st.stack, Reaches adj u c) → Reaches adj r c → st.idx r ≠ -1 →
      (∀ m ∈ C, st.idx m ≠ -1 → m ∈ st.stack) →
      (∀ m ∈ C, st.idx m ≠ -1 → st.idx r ≤ st.idx m) →
      rec st c = some st2 → MPost C fsucc r st st2 c)
    (n : Name) :
    ∀ cs st st', SInv st → st.idx n ≠ -1 → n ∈ st.stack →
      (∀ c ∈ cs, Edge adj n c) →
      (∀ u ∈ st.stack, Reaches adj u n) → Reaches adj r n → st.idx r ≠ -1 →
      (∀ m ∈ C, st.idx m ≠ -1 → m ∈ st.stack) →
      (∀ m ∈ C, st.idx m ≠ -1 → st.idx r ≤ st.idx m) →
      st.idx r ≤ st.low n → st.low n ≤ st.idx n →
      childLoop rec n st cs = some st' → CMPost C fsucc r st st' n := by
  intro cs
  induction cs with
  | nil =>
    intro st st' _ _ _ _ _ _ _ hCvis _ hlowr _ h
    simp only [childLoop] at h
    injection h with h
    subst h
    exact { out_eq := rfl, cyc_eq := rfl, vis_mono := fun _ hm => hm,
            cvis_stack := hCvis, nonc_stack := fun _ _ hm => hm,
            succ_vis := fun _ _ h1 h2 => absurd h1 h2,
            low_ge_r := hlowr,
            notC := fun _ => ⟨rfl, rfl, fun m _ hm => hm⟩ }
  | cons c cs ih =>
    intro st st' hinv hn hnst hedge hreach hrn hrv hCvis hrmin hlowr hlowle h
    simp only [childLoop] at h
    by_cases hc : st.idx c = -1
    · rw [if_pos hc] at h
      cases hr : rec st c with
      | none => rw [hr] at h; exact absurd h (by simp)
      | some st2 =>
        rw [hr] at h
        have P := hspec st c st2 hinv hc hr
        have hreach_c : ∀ u ∈ st.stack, Reaches adj u c := by
          intro u hu
          exact Relation.ReflTransGen.tail (hreach u hu) (hedge c (by simp))
        have hrc : Reaches adj r c :=
          Relation.ReflTransGen.tail hrn (hedge c (by simp))
        have M := hrec st c st2 hinv hc hreach_c hrc hrv hCvis hrmin hr
        have hn2 : st2.idx n = st.idx n := P.frozen_idx n hn
        have hln2 : st2.low n = st.low n := P.frozen_low n hn
        have hr2 : st2.idx r = st.idx r := P.frozen_idx r hrv
        have hinv_m : SInv { st2 with
            low := updF st2.low n (min (st2.low n) (st2.low c)) } :=
          sinv_low st2 _ P.inv
        have hn_m : ({ st2 with
            low := updF st2.low n (min (st2.low n) (st2.low c)) } : TState).idx n ≠ -1 := by
          show st2.idx n ≠ -1
          rw [hn2]; exact hn
        have hnst_m : n ∈ ({ st2 with
            low := updF st2.low n (min (st2.low n) (st2.low c)) } : TState).stack := by
          show n ∈ st2.stack
          obtain ⟨T, hT, _⟩ := P.stack_shape
          rw [hT]
          exact List.mem_append_right T hnst
        have hreach_m : ∀ u ∈ ({ st2 with
            low := updF st2.low n (min (st2.low n) (st2.low c)) } : TState).stack,
            Reaches adj u n := by
          intro u hu
          have hu' : u ∈ st2.stack := hu
          by_cases huC : u ∈ C
          · exact Relation.ReflTransGen.trans (hCr u huC) hrn
          · exact hreach u (M.nonc_stack u huC hu')
        have hrv_m : ({ st2 with
            low := updF st2.low n (min (st2.low n) (st2.low c)) } : TState).idx r ≠ -1 := by
          show st2.idx r ≠ -1
          rw [hr2]; exact hrv
        have hCvis_m : ∀ m ∈ C, st2.idx m ≠ -1 → m ∈ st2.stack := M.cvis_stack
        have hrmin_m : ∀ m ∈ C, st2.idx m ≠ -1 → st2.idx r ≤ st2.idx m := by
          intro m hm hvm
          rw [hr2]
          by_cases hmf : st.idx m = -1
          · have h1 := P.fresh_ge m hmf hvm
            have h2 := hinv.idxLt r
            omega
          · rw [P.frozen_idx m hmf]
            exact hrmin m hm hmf
        have hlowr_m : ({ st2 with
            low := updF st2.low n (min (st2.low n) (st2.low c)) } : TState).idx r ≤
            ({ st2 with
            low := updF st2.low n (min (st2.low n) (st2.low c)) } : TState).low n := by
          show st2.idx r ≤ updF st2.low n (min (st2.low n) (st2.low c)) n
          rw [updF_self, hr2]
          refine le_min ?_ M.low_ge_r
          rw [hln2]; exact hlowr
        have hlowle_m : ({ st2 with
            low := updF st2.low n (min (st2.low n) (st2.low c)) } : TState).low n ≤
            ({ st2 with
            low := updF st2.low n (min (st2.low n) (st2.low c)) } : TState).idx n := by
          show updF st2.low n (min (st2.low n) (st2.low c)) n ≤ st2.idx n
          rw [updF_self, hn2]
          calc min (st2.low n) (st2.low c) ≤ st2.low n := min_le_left _ _
            _ = st.low n := hln2
            _ ≤ st.idx n := hlowle
        have K := ih _ st' hinv_m hn_m hnst_m (fun x hx => hedge x (by simp [hx]))
          hreach_m hrn hrv_m hCvis_m hrmin_m hlowr_m hlowle_m h
        refine { out_eq := ?_, cyc_eq := ?_, vis_mono := ?_, cvis_stack := K.cvis_stack,
                 nonc_stack := ?_, succ_vis := ?_, low_ge_r := ?_, notC := ?_ }
        · rw [K.out_eq]
          show st2.out = st.out
          exact M.out_eq
        · rw [K.cyc_eq]
          show st2.cyc = st.cyc
          exact M.cyc_eq
        · intro m hm
          exact M.vis_mono m (K.vis_mono m hm)
        · intro m hm hmem
          exact M.nonc_stack m hm (K.nonc_stack m hm hmem)
        · intro m hmC hf hv
          by_cases h2 : st2.idx m = -1
          · exact K.succ_vis m hmC h2 hv
          · intro hcontra
            exact (M.succ_vis m hmC hf h2) (K.vis_mono _ hcontra)
        · have hk := K.low_ge_r
          have hk' : st2.idx r ≤ st'.low n := hk
          rw [hr2] at hk'
          exact hk'
        · intro hnC
          have hcC : c ∉ C := by
            intro hcc
            exact hnC (honly n (Relation.TransGen.head' (hedge c (by simp))
              (Relation.ReflTransGen.trans (hCr c hcc) hrn)))
          obtain ⟨hs2, hl2, hnoc2⟩ := M.notC hcC
          obtain ⟨hs', hl', hnoc'⟩ := K.notC hnC
          refine ⟨?_, ?_, ?_⟩
          · rw [hs']
            show st2.stack = st.stack
            exact hs2
          · rw [hl']
            show updF st2.low n (min (st2.low n) (st2.low c)) n = st.low n
            rw [updF_self, hln2, hl2]
            have h1 : st.low n ≤ st.cnt := le_trans hlowle (le_of_lt (hinv.idxLt n))
            exact min_eq_left h1
          · intro m hmC hmf
            exact hnoc' m hmC (hnoc2 m hmC hmf)
    · rw [if_neg hc] at h
      by_cases hcs : c ∈ st.stack
      · rw [if_pos hcs] at h
        have hnC' : n ∈ C := honly n (Relation.TransGen.head' (hedge c (by simp))
          (hreach c hcs))
        have hcC' : c ∈ C := honly c (Relation.TransGen.tail' (hreach c hcs)
          (hedge c (by simp)))
        have hinv_b : SInv { st with low := updF st.low n (min (st.low n) (st.idx c)) } :=
          sinv_low st _ hinv
        have hlowr_b : ({ st with
            low := updF st.low n (min (st.low n) (st.idx c)) } : TState).idx r ≤
            ({ st with
            low := updF st.low n (min (st.low n) (st.idx c)) } : TState).low n := by
          show st.idx r ≤ updF st.low n (min (st.low n) (st.idx c)) n
          rw [updF_self]
          exact le_min hlowr (hrmin c hcC' hc)
        have hlowle_b : ({ st with
            low := updF st.low n (min (st.low n) (st.idx c)) } : TState).low n ≤
            ({ st with
            low := updF st.low n (min (st.low n) (st.idx c)) } : TState).idx n := by
          show updF st.low n (min (st.low n) (st.idx c)) n ≤ st.idx n
          rw [updF_self]
          exact le_trans (min_le_left _ _) hlowle
        have K := ih _ st' hinv_b hn hnst (fun x hx => hedge x (by simp [hx]))
          hreach hrn hrv hCvis hrmin hlowr_b hlowle_b h
        refine { out_eq := K.out_eq, cyc_eq := K.cyc_eq, vis_mono := K.vis_mono,
                 cvis_stack := K.cvis_stack, nonc_stack := K.nonc_stack,
                 succ_vis := K.succ_vis, low_ge_r := K.low_ge_r,
                 notC := fun hnc => absurd hnC' hnc }
      · rw [if_neg hcs] at h
        exact ih st st' hinv hn hnst (fun x hx => hedge x (by simp [hx]))
          hreach hrn hrv hCvis hrmin hlowr hlowle h

theorem cyc_walk (adj : Name → List Name) (C : List Name) (fsucc : Name → Name)
    (r n : Name) (st st2 : TState)
    (hfC : ∀ m ∈ C, fsucc m ∈ C) (hfE : ∀ m ∈ C, fsucc m ∈ adj m)
    (hinv : SInv st) (hfresh : st.idx n = -1) (hrv : st.idx r ≠ -1)
    (CP : CPost adj (visit st n) st2 n (adj n))
    (CM : CMPost C fsucc r (visit st n) st2 n) :
    ∀ j m, m ∈ C → fsucc^[j] m = r →
      (m = n ∨ ((visit st n).idx m = -1 ∧ st2.idx m ≠ -1)) →
      st2.low n < st.cnt := by
  intro j
  induction j with
  | zero =>
    intro m _ hjr hdis
    simp only [Function.iterate_zero, id] at hjr
    rcases hdis with h1 | ⟨h1, _⟩
    · apply absurd hfresh
      rw [← h1, hjr]
      exact hrv
    · exfalso
      apply hrv
      have h2 : (visit st n).idx r = -1 := hjr ▸ h1
      have h3 : updF st.idx n st.cnt r = -1 := h2
      by_cases hrn : r = n
      · rw [hrn, updF_self] at h3
        have := hinv.cntPos
        omega
      · rw [updF_ne _ _ _ _ hrn] at h3
        exact h3
  | succ j ih =>
    intro m hm hjr hdis
    rw [Function.iterate_succ_apply] at hjr
    have hsC : fsucc m ∈ C := hfC m hm
    by_cases hvs : (visit st n).idx (fsucc m) = -1
    · have hvis2 : st2.idx (fsucc m) ≠ -1 := by
        rcases hdis with h1 | ⟨h1, h2⟩
        · rw [h1] at hm ⊢
          exact CP.children_vis (fsucc n) (hfE n hm)
        · exact CM.succ_vis m hm h1 h2
      exact ih (fsucc m) hsC hjr (Or.inr ⟨hvs, hvis2⟩)
    · by_cases hsn : fsucc m = n
      · rw [hsn] at hjr hsC
        exact ih n hsC hjr (Or.inl rfl)
      · have hsvis : st.idx (fsucc m) ≠ -1 := by
          have hx : (visit st n).idx (fsucc m) = st.idx (fsucc m) := by
            show updF st.idx n st.cnt (fsucc m) = st.idx (fsucc m)
            rw [updF_ne _ _ _ _ hsn]
          rw [hx] at hvs
          exact hvs
        have hfrozen : st2.idx (fsucc m) = st.idx (fsucc m) := by
          rw [CP.frozen_idx (fsucc m) hvs]
          show updF st.idx n st.cnt (fsucc m) = st.idx (fsucc m)
          rw [updF_ne _ _ _ _ hsn]
        have hstacked : fsucc m ∈ st2.stack := by
          apply CM.cvis_stack (fsucc m) hsC
          rw [hfrozen]
          exact hsvis
        have hlt : st2.idx (fsucc m) < (visit st n).cnt := by
          rw [hfrozen]
          have := hinv.idxLt (fsucc m)
          show st.idx (fsucc m) < st.cnt + 1
          omega
        have hle : st2.low n ≤ st2.idx (fsucc m) := by
          rcases hdis with h1 | ⟨h1, h2⟩
          · rw [h1] at hm
            have := CP.low_edge (fsucc m) ?_ hstacked hlt
            · exact this
            · rw [← h1] at hm ⊢
              exact hfE m hm
          · exact CP.low_edge_fresh m h1 h2 (fsucc m) (hfE m hm) hstacked hlt
        rw [hfrozen] at hle
        have := hinv.idxLt (fsucc m)
        omega

theorem tarjanCyc (adj : Name → List Name) (C : List Name) (fsucc : Name → Name)
    (r : Name)
    (honly : ∀ u, ReachesPlus adj u u → u ∈ C)
    (hfC : ∀ m ∈ C, fsucc m ∈ C)
    (hfE : ∀ m ∈ C, fsucc m ∈ adj m)
    (hCr : ∀ m ∈ C, Reaches adj m r)
    (hwalk : ∀ m ∈ C, ∃ j, fsucc^[j] m = r) :
    ∀ fuel st n st', SInv st → st.idx n = -1 →
      (∀ u ∈ st.stack, Reaches adj u n) → Reaches adj r n → st.idx r ≠ -1 →
      (∀ m ∈ C, st.idx m ≠ -1 → m ∈ st.stack) →
      (∀ m ∈ C, st.idx m ≠ -1 → st.idx r ≤ st.idx m) →
      tarjanF adj fuel st n = some st' → MPost C fsucc r st st' n := by
  intro fuel
  induction fuel with
  | zero => intro st n st' _ _ _ _ _ _ _ h; simp [tarjanF] at h
  | succ fuel ih =>
    intro st n st' hinv hfresh hreach hrn hrv hCvis hrmin h
    simp only [tarjanF] at h
    cases hcl : childLoop (tarjanF adj fuel) n (visit st n) (adj n) with
    | none => rw [hcl] at h; exact absurd h (by simp)
    | some st2 =>
      rw [hcl] at h
      change popPhase st2 n = some st' at h
      have hcnt0 : 0 ≤ st.cnt := hinv.cntPos
      have hrneq : r ≠ n := by intro he; rw [he] at hrv; exact hrv hfresh
      have hinv1 : SInv (visit st n) := sinv_visit st n hinv hfresh
      have hn1 : (visit st n).idx n ≠ -1 := by
        show updF st.idx n st.cnt n ≠ -1
        rw [updF_self]; omega
      have hrv1 : (visit st n).idx r ≠ -1 := by
        show updF st.idx n st.cnt r ≠ -1
        rw [updF_ne _ _ _ _ hrneq]; exact hrv
      have hidxr1 : (visit st n).idx r = st.idx r := by
        show updF st.idx n st.cnt r = st.idx r
        rw [updF_ne _ _ _ _ hrneq]
      have hreach1 : ∀ u ∈ (visit st n).stack, Reaches adj u n := by
        intro u hu
        have hu' : u ∈ n :: st.stack := hu
        rcases List.mem_cons.mp hu' with h1 | h1
        · rw [h1]
          exact Relation.ReflTransGen.refl
        · exact hreach u h1
      have hCvis1 : ∀ m ∈ C, (visit st n).idx m ≠ -1 → m ∈ (visit st n).stack := by
        intro m hm hvm
        by_cases hmn : m = n
        · rw [hmn]
          exact List.mem_cons_self _ _
        · have hsm : st.idx m ≠ -1 := by
            have hx : (visit st n).idx m = st.idx m := by
              show updF st.idx n st.cnt m = st.idx m
              rw [updF_ne _ _ _ _ hmn]
            rw [hx] at hvm
            exact hvm
          show m ∈ n :: st.stack
          exact List.mem_cons_of_mem _ (hCvis m hm hsm)
      have hrmin1 : ∀ m ∈ C, (visit st n).idx m ≠ -1 →
          (visit st n).idx r ≤ (visit st n).idx m := by
        intro m hm hvm
        rw [hidxr1]
        by_cases hmn : m = n
        · rw [hmn]
          show st.idx r ≤ updF st.idx n st.cnt n
          rw [updF_self]
          have := hinv.idxLt r
          omega
        · have hx : (visit st n).idx m = st.idx m := by
            show updF st.idx n st.cnt m = st.idx m
            rw [updF_ne _ _ _ _ hmn]
          rw [hx] at hvm ⊢
          exact hrmin m hm hvm
      have hlowr1 : (visit st n).idx r ≤ (visit st n).low n := by
        rw [hidxr1]
        show st.idx r ≤ updF st.low n st.cnt n
        rw [updF_self]
        have := hinv.idxLt r
        omega
      have hlowle1 : (visit st n).low n ≤ (visit st n).idx n := by
        show updF st.low n st.cnt n ≤ updF st.idx n st.cnt n
        rw [updF_self, updF_self]
      have hnst1 : n ∈ (visit st n).stack := List.mem_cons_self _ _
      have CM := childLoopCyc adj C fsucc r honly hCr (tarjanF adj fuel)
        (fun a b c hx hy hz => tarjanF_spec adj fuel a b c hx hy hz)
        (fun a b c h1 h2 h3 h4 h5 h6 h7 h8 => ih a b c h1 h2 h3 h4 h5 h6 h7 h8)
        n (adj n) (visit st n) st2 hinv1 hn1 hnst1 (fun c hc => hc)
        hreach1 hrn hrv1 hCvis1 hrmin1 hlowr1 hlowle1 hcl
      have CP := childLoop_spec adj (tarjanF adj fuel)
        (fun a b c hx hy hz => tarjanF_spec adj fuel a b c hx hy hz)
        n (adj n) (visit st n) st2 hinv1 hn1 hcl
      have hidx2n : st2.idx n = st.cnt := by
        rw [CP.frozen_idx n hn1]
        show updF st.idx n st.cnt n = st.cnt
        rw [updF_self]
      by_cases hnC : n ∈ C
      · obtain ⟨j, hj⟩ := hwalk n hnC
        have hlow_lt : st2.low n < st.cnt :=
          cyc_walk adj C fsucc r n st st2 hfC hfE hinv hfresh hrv CP CM j n hnC hj
            (Or.inl rfl)
        have hcond : ¬ (st2.low n = st2.idx n) := by
          rw [hidx2n]
          omega
        unfold popPhase at h
        rw [if_neg hcond] at h
        injection h with h
        subst h
        refine { out_eq := ?_, cyc_eq := ?_, vis_mono := ?_, cvis_stack := CM.cvis_stack,
                 nonc_stack := ?_, succ_vis := ?_, low_ge_r := ?_,
                 notC := fun hx => absurd hnC hx }
        · rw [CM.out_eq]
          rfl
        · rw [CM.cyc_eq]
          rfl
        · intro m hm
          have h2 := CM.vis_mono m hm
          by_cases hmn : m = n
          · exfalso
            rw [hmn] at h2
            have h3 : updF st.idx n st.cnt n = -1 := h2
            rw [updF_self] at h3
            omega
          · have hx : updF st.idx n st.cnt m = st.idx m := updF_ne _ _ _ _ hmn
            rw [← hx]
            exact h2
        · intro m hm hmem
          have h1 := CM.nonc_stack m hm hmem
          have h2 : m ∈ n :: st.stack := h1
          rcases List.mem_cons.mp h2 with h3 | h3
          · exact absurd (h3 ▸ hnC) hm
          · exact h3
        · intro m hmC hf hv
          by_cases hmn : m = n
          · rw [hmn]
            exact CP.children_vis (fsucc n) (hfE n hnC)
          · apply CM.succ_vis m hmC ?_ hv
            show updF st.idx n st.cnt m = -1
            rw [updF_ne _ _ _ _ hmn]
            exact hf
        · have hk := CM.low_ge_r
          rw [hidxr1] at hk
          exact hk
      · obtain ⟨hs2, hl2, hnoc2⟩ := CM.notC hnC
        have hl2' : st2.low n = st.cnt := by
          rw [hl2]
          show updF st.low n st.cnt n = st.cnt
          rw [updF_self]
        have hcond : st2.low n = st2.idx n := by rw [hl2', hidx2n]
        unfold popPhase at h
        rw [if_pos hcond] at h
        have hpop : popUntil st2.stack n = some ([n], st.stack) := by
          rw [hs2]
          show popUntil (n :: st.stack) n = some ([n], st.stack)
          simp [popUntil]
        rw [hpop] at h
        have hlen : ¬ (1 < ([n] : List Name).length) := by simp
        change (if 1 < ([n] : List Name).length then
            some { st2 with stack := st.stack, out := st2.out ++ [[n]], cyc := true }
          else some { st2 with stack := st.stack }) = some st' at h
        rw [if_neg hlen] at h
        injection h with h
        subst h
        refine { out_eq := ?_, cyc_eq := ?_, vis_mono := ?_, cvis_stack := ?_,
                 nonc_stack := ?_, succ_vis := ?_, low_ge_r := ?_, notC := ?_ }
        · show st2.out = st.out
          rw [CM.out_eq]
          rfl
        · show st2.cyc = st.cyc
          rw [CM.cyc_eq]
          rfl
        · intro m hm
          have h1 : st2.idx m = -1 := hm
          have h2 := CM.vis_mono m h1
          by_cases hmn : m = n
          · exfalso
            rw [hmn] at h2
            have h3 : updF st.idx n st.cnt n = -1 := h2
            rw [updF_self] at h3
            omega
          · have hx : updF st.idx n st.cnt m = st.idx m := updF_ne _ _ _ _ hmn
            rw [← hx]
            exact h2
        · intro m hmC hvm
          have h1 : st2.idx m ≠ -1 := hvm
          have h2 := CM.cvis_stack m hmC h1
          rw [hs2] at h2
          have h3 : m ∈ n :: st.stack := h2
          rcases List.mem_cons.mp h3 with h4 | h4
          · exact absurd (h4 ▸ hmC) hnC
          · exact h4
        · intro m hm hmem
          exact hmem
        · intro m hmC hf hv
          have hmn : m ≠ n := fun he => hnC (he ▸ hmC)
          have hfv : (visit st n).idx m = -1 := by
            show updF st.idx n st.cnt m = -1
            rw [updF_ne _ _ _ _ hmn]
            exact hf
          exact absurd (hnoc2 m hmC hfv) hv
        · show st.idx r ≤ st2.low n
          rw [hl2']
          have := hinv.idxLt r
          omega
        · intro _
          refine ⟨rfl, ?_, ?_⟩
          · show st2.low n = st.cnt
            exact hl2'
          · intro m hmC hmf
            have hmn : m ≠ n := fun he => hnC (he ▸ hmC)
            have hfv : (visit st n).idx m = -1 := by
              show updF st.idx n st.cnt m = -1
              rw [updF_ne _ _ _ _ hmn]
              exact hmf
            exact hnoc2 m hmC hfv

theorem childLoopPre (adj : Name → List Name) (C : List Name)
    (honly : ∀ u, ReachesPlus adj u u → u ∈ C) (hCne : C ≠ [])
    (rec : TState → Name → Option TState)
    (hspec : ∀ st c st2, SInv st → st.idx c = -1 → rec st c = some st2 →
      TPost adj st st2 c)
    (hpre : ∀ st c st2, SInv st → st.idx c = -1 →
      (∀ u ∈ st.stack, Reaches adj u c) → NoC C st → rec st c = some st2 →
      st2.stack = st.stack ∧ st2.low c = st.cnt ∧
        ((NoC C st2 ∧ st2.out = st.out ∧ st2.cyc = st.cyc) ∨
         (DoneC C st2 ∧ ∃ g, st2.out = st.out ++ [g] ∧ st2.cyc = true ∧ g.Nodup ∧
           ∀ u, u ∈ g ↔ u ∈ C)))
    (hpost : ∀ st c st2, SInv st → st.idx c = -1 →
      (∀ u ∈ st.stack, Reaches adj u c) → DoneC C st → rec st c = some st2 →
      st2.stack = st.stack ∧ st2.out = st.out ∧ st2.cyc = st.cyc ∧
        st2.low c = st.cnt ∧ DoneC C st2)
    (n : Name) (hnC : n ∉ C) :
    ∀ cs st st', SInv st → st.idx n ≠ -1 → st.low n = st.idx n →
      (∀ u ∈ st.stack, Reaches adj u n) → (∀ c ∈ cs, Edge adj n c) →
      (NoC C st ∨ DoneC C st) →
      childLoop rec n st cs = some st' →
      st'.stack = st.stack ∧ st'.low n = st.low n ∧
        (DoneC C st → DoneC C st' ∧ st'.out = st.out ∧ st'.cyc = st.cyc) ∧
        (NoC C st →
          (NoC C st' ∧ st'.out = st.out ∧ st'.cyc = st.cyc) ∨
          (DoneC C st' ∧ ∃ g, st'.out = st.out ++ [g] ∧ st'.cyc = true ∧ g.Nodup ∧
            ∀ u, u ∈ g ↔ u ∈ C)) := by
  intro cs
  induction cs with
  | nil =>
    intro st st' _ _ _ _ _ _ h
    simp only [childLoop] at h
    injection h with h
    subst h
    exact ⟨rfl, rfl, fun hD => ⟨hD, rfl, rfl⟩, fun hN => Or.inl ⟨hN, rfl, rfl⟩⟩
  | cons c cs ih =>
    intro st st' hinv hn hlown hreach hedge hst h
    simp only [childLoop] at h
    obtain ⟨m0, hm0⟩ := List.exists_mem_of_ne_nil C hCne
    by_cases hc : st.idx c = -1
    · rw [if_pos hc] at h
      cases hr : rec st c with
      | none => rw [hr] at h; exact absurd h (by simp)
      | some st2 =>
        rw [hr] at h
        have P := hspec st c st2 hinv hc hr
        have hreach_c : ∀ u ∈ st.stack, Reaches adj u c := by
          intro u hu
          exact Relation.ReflTransGen.tail (hreach u hu) (hedge c (by simp))
        have hn2 : st2.idx n = st.idx n := P.frozen_idx n hn
        have hln2 : st2.low n = st.low n := P.frozen_low n hn
        have hinv_m : SInv { st2 with
            low := updF st2.low n (min (st2.low n) (st2.low c)) } :=
          sinv_low st2 _ P.inv
        have hn_m : ({ st2 with
            low := updF st2.low n (min (st2.low n) (st2.low c)) } : TState).idx n ≠ -1 := by
          show st2.idx n ≠ -1
          rw [hn2]; exact hn
        rcases hst with hN | hD
        · obtain ⟨hs2, hl2, hstat2⟩ := hpre st c st2 hinv hc hreach_c hN hr
          have hmin : min (st2.low n) (st2.low c) = st.low n := by
            rw [hln2, hl2, hlown]
            have := hinv.idxLt n
            omega
          have hlow_m : ({ st2 with
              low := updF st2.low n (min (st2.low n) (st2.low c)) } : TState).low n =
              ({ st2 with
              low := updF st2.low n (min (st2.low n) (st2.low c)) } : TState).idx n := by
            show updF st2.low n (min (st2.low n) (st2.low c)) n = st2.idx n
            rw [updF_self, hmin, hn2, hlown]
          have hreach_m : ∀ u ∈ ({ st2 with
              low := updF st2.low n (min (st2.low n) (st2.low c)) } : TState).stack,
              Reaches adj u n := by
            intro u hu
            apply hreach
            have hu' : u ∈ st2.stack := hu
            rw [hs2] at hu'
            exact hu'
          rcases hstat2 with ⟨hN2, ho2, hy2⟩ | ⟨hD2, g, hg, hgc, hgn, hgm⟩
          · -- child kept the run cycle-free
            have hN_m : NoC C { st2 with
                low := updF st2.low n (min (st2.low n) (st2.low c)) } := by
              intro m hm
              exact hN2 m hm
            obtain ⟨hs', hl', _, hNk'⟩ := ih _ st' hinv_m hn_m hlow_m hreach_m
              (fun x hx => hedge x (by simp [hx])) (Or.inl hN_m) h
            refine ⟨?_, ?_, ?_, ?_⟩
            · rw [hs']
              show st2.stack = st.stack
              exact hs2
            · rw [hl']
              show updF st2.low n (min (st2.low n) (st2.low c)) n = st.low n
              rw [updF_self, hmin]
            · intro hD
              exact absurd (hN m0 hm0) (hD m0 hm0).1
            · intro _
              rcases hNk' hN_m with ⟨hN', ho', hy'⟩ | ⟨hD', g', hg', hgc', hgn', hgm'⟩
              · refine Or.inl ⟨hN', ?_, ?_⟩
                · rw [ho']
                  show st2.out = st.out
                  exact ho2
                · rw [hy']
                  show st2.cyc = st.cyc
                  exact hy2
              · refine Or.inr ⟨hD', g', ?_, hgc', hgn', hgm'⟩
                rw [hg']
                show st2.out ++ [g'] = st.out ++ [g']
                rw [ho2]
          · -- the child call reported the cycle
            have hD_m : DoneC C { st2 with
                low := updF st2.low n (min (st2.low n) (st2.low c)) } := by
              intro m hm
              exact hD2 m hm
            obtain ⟨hs', hl', hDk', _⟩ := ih _ st' hinv_m hn_m hlow_m hreach_m
              (fun x hx => hedge x (by simp [hx])) (Or.inr hD_m) h
            obtain ⟨hD', ho', hy'⟩ := hDk' hD_m
            refine ⟨?_, ?_, ?_, ?_⟩
            · rw [hs']
              show st2.stack = st.stack
              exact hs2
            · rw [hl']
              show updF st2.low n (min (st2.low n) (st2.low c)) n = st.low n
              rw [updF_self, hmin]
            · intro hD
              exact absurd (hN m0 hm0) (hD m0 hm0).1
            · intro _
              refine Or.inr ⟨hD', g, ?_, ?_, hgn, hgm⟩
              · rw [ho']
                show st2.out = st.out ++ [g]
                exact hg
              · rw [hy']
                show st2.cyc = true
                exact hgc
        · obtain ⟨hs2, ho2, hy2, hl2, hD2⟩ := hpost st c st2 hinv hc hreach_c hD hr
          have hmin : min (st2.low n) (st2.low c) = st.low n := by
            rw [hln2, hl2, hlown]
            have := hinv.idxLt n
            omega
          have hlow_m : ({ st2 with
              low := updF st2.low n (min (st2.low n) (st2.low c)) } : TState).low n =
              ({ st2 with
              low := updF st2.low n (min (st2.low n) (st2.low c)) } : TState).idx n := by
            show updF st2.low n (min (st2.low n) (st2.low c)) n = st2.idx n
            rw [updF_self, hmin, hn2, hlown]
          have hreach_m : ∀ u ∈ ({ st2 with
              low := updF st2.low n (min (st2.low n) (st2.low c)) } : TState).stack,
              Reaches adj u n := by
            intro u hu
            apply hreach
            have hu' : u ∈ st2.stack := hu
            rw [hs2] at hu'
            exact hu'
          have hD_m : DoneC C { st2 with
              low := updF st2.low n (min (st2.low n) (st2.low c)) } := by
            intro m hm
            exact hD2 m hm
          obtain ⟨hs', hl', hDk', _⟩ := ih _ st' hinv_m hn_m hlow_m hreach_m
            (fun x hx => hedge x (by simp [hx])) (Or.inr hD_m) h
          obtain ⟨hD', ho', hy'⟩ := hDk' hD_m
          refine ⟨?_, ?_, ?_, ?_⟩
          · rw [hs']
            show st2.stack = st.stack
            exact hs2
          · rw [hl']
            show updF st2.low n (min (st2.low n) (st2.low c)) n = st.low n
            rw [updF_self, hmin]
          · intro _
            refine ⟨hD', ?_, ?_⟩
            · rw [ho']
              show st2.out = st.out
              exact ho2
            · rw [hy']
              show st2.cyc = st.cyc
              exact hy2
          · intro hN
            exact absurd (hN m0 hm0) (hD m0 hm0).1
    · rw [if_neg hc] at h
      by_cases hcs : c ∈ st.stack
      · refine absurd (honly n (Relation.TransGen.head' (hedge c (by simp))
          (hreach c hcs))) hnC
      · rw [if_neg hcs] at h
        exact ih st st' hinv hn hlown hreach (fun x hx => hedge x (by simp [hx])) hst h

theorem tarjanPre (adj : Name → List Name) (C : List Name) (fsucc : Name → Name)
    (honly : ∀ u, ReachesPlus adj u u → u ∈ C) (hCne : C ≠ [])
    (hfC : ∀ m ∈ C, fsucc m ∈ C)
    (hfE : ∀ m ∈ C, fsucc m ∈ adj m)
    (horb : ∀ m1 ∈ C, ∀ m2 ∈ C, ∃ j, fsucc^[j] m1 = m2)
    (hk2 : 2 ≤ C.length) (hnd : C.Nodup) :
    ∀ fuel st n st', SInv st → st.idx n = -1 →
      (∀ u ∈ st.stack, Reaches adj u n) → NoC C st →
      tarjanF adj fuel st n = some st' →
      st'.stack = st.stack ∧ st'.low n = st.cnt ∧
        ((NoC C st' ∧ st'.out = st.out ∧ st'.cyc = st.cyc) ∨
         (DoneC C st' ∧ ∃ g, st'.out = st.out ++ [g] ∧ st'.cyc = true ∧ g.Nodup ∧
           ∀ u, u ∈ g ↔ u ∈ C)) := by
  intro fuel
  induction fuel with
  | zero => intro st n st' _ _ _ _ h; simp [tarjanF] at h
  | succ fuel ih =>
    intro st n st' hinv hfresh hreach hN h
    simp only [tarjanF] at h
    cases hcl : childLoop (tarjanF adj fuel) n (visit st n) (adj n) with
    | none => rw [hcl] at h; exact absurd h (by simp)
    | some st2 =>
      rw [hcl] at h
      change popPhase st2 n = some st' at h
      have hcnt0 : 0 ≤ st.cnt := hinv.cntPos
      have hinv1 : SInv (visit st n) := sinv_visit st n hinv hfresh
      have hn1 : (visit st n).idx n ≠ -1 := by
        show updF st.idx n st.cnt n ≠ -1
        rw [updF_self]; omega
      have hlow1 : (visit st n).low n = (visit st n).idx n := by
        show updF st.low n st.cnt n = updF st.idx n st.cnt n
        rw [updF_self, updF_self]
      have hreach1 : ∀ u ∈ (visit st n).stack, Reaches adj u n := by
        intro u hu
        have hu' : u ∈ n :: st.stack := hu
        rcases List.mem_cons.mp hu' with h1 | h1
        · rw [h1]
          exact Relation.ReflTransGen.refl
        · exact hreach u h1
      have CP := childLoop_spec adj (tarjanF adj fuel)
        (fun a b c hx hy hz => tarjanF_spec adj fuel a b c hx hy hz)
        n (adj n) (visit st n) st2 hinv1 hn1 hcl
      have hidx2n : st2.idx n = st.cnt := by
        rw [CP.frozen_idx n hn1]
        show updF st.idx n st.cnt n = st.cnt
        rw [updF_self]
      by_cases hnC : n ∈ C
      · -- the pivotal call: n is the first-visited member of the cycle
        have hCr : ∀ m ∈ C, Reaches adj m n := by
          intro m hm
          obtain ⟨j, hj⟩ := horb m hm n hnC
          have hrr := reach_iterate adj C fsucc hfC hfE j m hm
          rw [hj] at hrr
          exact hrr
        have hwalkn : ∀ m ∈ C, ∃ j, fsucc^[j] m = n := fun m hm => horb m hm n hnC
        have hCvis1 : ∀ m ∈ C, (visit st n).idx m ≠ -1 → m ∈ (visit st n).stack := by
          intro m hm hvm
          by_cases hmn : m = n
          · rw [hmn]
            exact List.mem_cons_self _ _
          · exfalso
            apply hvm
            show updF st.idx n st.cnt m = -1
            rw [updF_ne _ _ _ _ hmn]
            exact hN m hm
        have hrmin1 : ∀ m ∈ C, (visit st n).idx m ≠ -1 →
            (visit st n).idx n ≤ (visit st n).idx m := by
          intro m hm hvm
          by_cases hmn : m = n
          · rw [hmn]
          · exfalso
            apply hvm
            show updF st.idx n st.cnt m = -1
            rw [updF_ne _ _ _ _ hmn]
            exact hN m hm
        have hlowr1 : (visit st n).idx n ≤ (visit st n).low n := by
          show updF st.idx n st.cnt n ≤ updF st.low n st.cnt n
          rw [updF_self, updF_self]
        have hlowle1 : (visit st n).low n ≤ (visit st n).idx n := by
          rw [hlow1]
        have hnst1 : n ∈ (visit st n).stack := List.mem_cons_self _ _
        have CM := childLoopCyc adj C fsucc n honly hCr (tarjanF adj fuel)
          (fun a b c hx hy hz => tarjanF_spec adj fuel a b c hx hy hz)
          (fun a b c h1 h2 h3 h4 h5 h6 h7 h8 =>
            tarjanCyc adj C fsucc n honly hfC hfE hCr hwalkn fuel a b c h1 h2 h3 h4 h5 h6 h7 h8)
          n (adj n) (visit st n) st2 hinv1 hn1 hnst1 (fun c hc => hc)
          hreach1 Relation.ReflTransGen.refl hn1 hCvis1 hrmin1 hlowr1 hlowle1 hcl
        have hlow2n : st2.low n = st.cnt := by
          have h1 : st2.low n ≤ (visit st n).low n := CP.low_decr
          have h2 : (visit st n).low n = st.cnt := by
            show updF st.low n st.cnt n = st.cnt
            rw [updF_self]
          have h3 := CM.low_ge_r
          have h4 : (visit st n).idx n = st.cnt := by
            show updF st.idx n st.cnt n = st.cnt
            rw [updF_self]
          rw [h4] at h3
          rw [h2] at h1
          omega
        have hallC : ∀ m ∈ C, st2.idx m ≠ -1 := by
          intro m hm
          obtain ⟨j, hj⟩ := horb n hnC m hm
          have haux : ∀ i, st2.idx (fsucc^[i] n) ≠ -1 := by
            intro i
            induction i with
            | zero =>
              simp only [Function.iterate_zero, id]
              rw [hidx2n]
              omega
            | succ i ihi =>
              rw [Function.iterate_succ_apply']
              have hyC : fsucc^[i] n ∈ C := iterate_mem C fsucc hfC i n hnC
              by_cases hyn : fsucc^[i] n = n
              · rw [hyn]
                exact CP.children_vis (fsucc n) (hfE n hnC)
              · apply CM.succ_vis (fsucc^[i] n) hyC ?_ ihi
                show updF st.idx n st.cnt (fsucc^[i] n) = -1
                rw [updF_ne _ _ _ _ hyn]
                exact hN _ hyC
          rw [← hj]
          exact haux j
        have hcond : st2.low n = st2.idx n := by rw [hlow2n, hidx2n]
        unfold popPhase at h
        rw [if_pos hcond] at h
        obtain ⟨T, hT, hTm⟩ := CP.stack_shape
        have hTstack : st2.stack = T ++ n :: st.stack := hT
        have hnT : n ∉ T := by
          intro hmem
          exact absurd (hTm n hmem).1 (by intro hx; exact hn1 hx)
        have hpop : popUntil st2.stack n = some (T ++ [n], st.stack) := by
          rw [hTstack]
          exact popUntil_append n T st.stack hnT
        rw [hpop] at h
        have hsecond : ∃ m1 ∈ C, m1 ≠ n := by
          cases C with
          | nil => simp at hk2
          | cons c0 C1 =>
            cases C1 with
            | nil => simp at hk2
            | cons c1 C2 =>
              by_cases h01 : c0 = n
              · refine ⟨c1, by simp, ?_⟩
                intro he
                have : c0 ≠ c1 := by
                  have := hnd
                  simp [List.nodup_cons] at this
                  intro hx
                  exact this.1.1 hx
                exact this (by rw [h01, ← he])
              · exact ⟨c0, by simp, h01⟩
        have hTne : T ≠ [] := by
          obtain ⟨m1, hm1C, hm1n⟩ := hsecond
          intro hTnil
          have hv1 : st2.idx m1 ≠ -1 := hallC m1 hm1C
          have hst1 := CM.cvis_stack m1 hm1C hv1
          rw [hTstack, hTnil] at hst1
          simp at hst1
          rcases hst1 with h1 | h1
          · exact hm1n h1
          · exact (hinv.stackVis m1 h1) (hN m1 hm1C)
        have hlen : 1 < (T ++ [n]).length := by
          cases T with
          | nil => exact absurd rfl hTne
          | cons t T' => simp
        change (if 1 < (T ++ [n]).length then
            some { st2 with stack := st.stack, out := st2.out ++ [T ++ [n]], cyc := true }
          else some { st2 with stack := st.stack }) = some st' at h
        rw [if_pos hlen] at h
        injection h with h
        subst h
        refine ⟨rfl, hlow2n, Or.inr ⟨?_, T ++ [n], ?_, rfl, ?_, ?_⟩⟩
        · intro m hm
          constructor
          · exact hallC m hm
          · show m ∉ st.stack
            intro hmem
            exact (hinv.stackVis m hmem) (hN m hm)
        · show st2.out ++ [T ++ [n]] = st.out ++ [T ++ [n]]
          rw [CM.out_eq]
          rfl
        · have hnodup2 : st2.stack.Nodup := sorted_nodup st2 CP.inv
          have hsub : (T ++ [n]).Sublist st2.stack := by
            rw [hTstack]
            have : T ++ n :: st.stack = (T ++ [n]) ++ st.stack := by simp
            rw [this]
            exact List.sublist_append_left _ _
          exact hnodup2.sublist hsub
        · intro u
          constructor
          · intro hu
            rcases List.mem_append.mp hu with h1 | h1
            · by_contra huC
              have hu2 : u ∈ st2.stack := by
                rw [hTstack]
                exact List.mem_append_left _ h1
              have := CM.nonc_stack u huC hu2
              have hu3 : u ∈ n :: st.stack := this
              rcases List.mem_cons.mp hu3 with h2 | h2
              · rw [h2] at h1
                exact hnT h1
              · have hv := (hTm u h1).1
                have hv' : updF st.idx n st.cnt u = -1 := hv
                have hun : u ≠ n := by
                  intro he
                  rw [he] at h1
                  exact hnT h1
                rw [updF_ne _ _ _ _ hun] at hv'
                exact (hinv.stackVis u h2) hv'
            · have : u = n := by simpa using h1
              rw [this]
              exact hnC
          · intro hu
            have hv : st2.idx u ≠ -1 := hallC u hu
            have hst := CM.cvis_stack u hu hv
            rw [hTstack] at hst
            rcases List.mem_append.mp hst with h1 | h1
            · exact List.mem_append_left _ h1
            · rcases List.mem_cons.mp h1 with h2 | h2
              · rw [h2]
                exact List.mem_append_right _ (by simp)
              · exact absurd (hN u hu) (hinv.stackVis u h2)
      · -- n outside the cycle: the call is cycle-free unless a child pivots
        have hN1 : NoC C (visit st n) := by
          intro m hm
          show updF st.idx n st.cnt m = -1
          have hmn : m ≠ n := fun he => hnC (he ▸ hm)
          rw [updF_ne _ _ _ _ hmn]
          exact hN m hm
        obtain ⟨hs2, hl2, hDk, hNk⟩ := childLoopPre adj C honly hCne (tarjanF adj fuel)
          (fun a b c hx hy hz => tarjanF_spec adj fuel a b c hx hy hz)
          (fun a b c h1 h2 h3 h4 h5 => ih a b c h1 h2 h3 h4 h5)
          (fun a b c h1 h2 h3 h4 h5 => tarjanPost adj C honly fuel a b c h1 h2 h3 h4 h5)
          n hnC (adj n) (visit st n) st2 hinv1 hn1 hlow1 hreach1 (fun c hc => hc)
          (Or.inl hN1) hcl
        have hl2' : st2.low n = st.cnt := by
          rw [hl2]
          show updF st.low n st.cnt n = st.cnt
          rw [updF_self]
        have hcond : st2.low n = st2.idx n := by rw [hl2', hidx2n]
        unfold popPhase at h
        rw [if_pos hcond] at h
        have hpop : popUntil st2.stack n = some ([n], st.stack) := by
          rw [hs2]
          show popUntil (n :: st.stack) n = some ([n], st.stack)
          simp [popUntil]
        rw [hpop] at h
        have hlen : ¬ (1 < ([n] : List Name).length) := by simp
        change (if 1 < ([n] : List Name).length then
            some { st2 with stack := st.stack, out := st2.out ++ [[n]], cyc := true }
          else some { st2 with stack := st.stack }) = some st' at h
        rw [if_neg hlen] at h
        injection h with h
        subst h
        refine ⟨rfl, hl2', ?_⟩
        rcases hNk hN1 with ⟨hN2, ho2, hy2⟩ | ⟨hD2, g, hg, hgc, hgn, hgm⟩
        · refine Or.inl ⟨?_, ?_, ?_⟩
          · intro m hm
            exact hN2 m hm
          · show st2.out = st.out
            exact ho2
          · show st2.cyc = st.cyc
            exact hy2
        · refine Or.inr ⟨?_, g, ?_, ?_, hgn, hgm⟩
          · intro m hm
            refine ⟨(hD2 m hm).1, ?_⟩
            show m ∉ st.stack
            intro hmem
            apply (hD2 m hm).2
            rw [hs2]
            exact List.mem_cons_of_mem _ hmem
          · show st2.out = st.out ++ [g]
            exact hg
          · show st2.cyc = true
            exact hgc

theorem mainLoopCyc (adj : Name → List Name) (nodes : List Name) (C : List Name)
    (fsucc : Name → Name) (hclosed : ClosedAdj nodes adj)
    (honly : ∀ u, ReachesPlus adj u u → u ∈ C) (hCne : C ≠ [])
    (hfC : ∀ m ∈ C, fsucc m ∈ C) (hfE : ∀ m ∈ C, fsucc m ∈ adj m)
    (horb : ∀ m1 ∈ C, ∀ m2 ∈ C, ∃ j, fsucc^[j] m1 = m2)
    (hk2 : 2 ≤ C.length) (hnd : C.Nodup) :
    ∀ rest st, QInv adj st → (∀ m ∈ rest, m ∈ nodes) → (NoC C st ∨ DoneC C st) →
      ∃ st', mainLoop adj (nodes.length + 1) st rest = some st' ∧
        (DoneC C st → DoneC C st' ∧ st'.out = st.out ∧ st'.cyc = st.cyc) ∧
        (NoC C st →
          (NoC C st' ∧ st'.out = st.out ∧ st'.cyc = st.cyc) ∨
          (DoneC C st' ∧ ∃ g, st'.out = st.out ++ [g] ∧ st'.cyc = true ∧ g.Nodup ∧
            ∀ u, u ∈ g ↔ u ∈ C)) := by
  intro rest
  induction rest with
  | nil =>
    intro st _ _ _
    exact ⟨st, rfl, fun hD => ⟨hD, rfl, rfl⟩, fun hN => Or.inl ⟨hN, rfl, rfl⟩⟩
  | cons n rest ih =>
    intro st hq hsub hst
    obtain ⟨hinv, hstack, hcl⟩ := hq
    obtain ⟨stm, hr1, hqm, _, _⟩ := mainLoop_spec adj nodes hclosed [n] st ⟨hinv, hstack, hcl⟩
      (fun m hm => by simp at hm; rw [hm]; exact hsub n (by simp))
    have hr2 : tarjanF adj (nodes.length + 1) st n = some stm := by
      simp only [mainLoop] at hr1
      cases hr : tarjanF adj (nodes.length + 1) st n with
      | none => rw [hr] at hr1; exact absurd hr1 (by simp)
      | some stx =>
        rw [hr] at hr1
        simp only [mainLoop] at hr1
        injection hr1 with hr1
        rw [hr1]
    have hstep : (DoneC C st → DoneC C stm ∧ stm.out = st.out ∧ stm.cyc = st.cyc) ∧
        (NoC C st →
          (NoC C stm ∧ stm.out = st.out ∧ stm.cyc = st.cyc) ∨
          (DoneC C stm ∧ ∃ g, stm.out = st.out ++ [g] ∧ stm.cyc = true ∧ g.Nodup ∧
            ∀ u, u ∈ g ↔ u ∈ C)) := by
      by_cases hvis : st.idx n = -1
      · constructor
        · intro hD
          obtain ⟨hs, ho, hy, hl, hD'⟩ := tarjanPost adj C honly (nodes.length + 1) st n stm
            hinv hvis (by rw [hstack]; intro u hu; simp at hu) hD hr2
          exact ⟨hD', ho, hy⟩
        · intro hN
          obtain ⟨hs, hl, hstat⟩ := tarjanPre adj C fsucc honly hCne hfC hfE horb hk2 hnd
            (nodes.length + 1) st n stm hinv hvis
            (by rw [hstack]; intro u hu; simp at hu) hN hr2
          exact hstat
      · have hrev := tarjan_revisit adj nodes.length st n hvis hstack hinv.cntPos
          (fun c hc => hcl n hvis c hc)
        have hr2' := hr2
        rw [hrev] at hr2'
        injection hr2' with hr2'
        constructor
        · intro hD
          refine ⟨?_, by rw [← hr2'], by rw [← hr2']⟩
          intro m hm
          rw [← hr2']
          constructor
          · show updF st.idx n st.cnt m ≠ -1
            by_cases hmn : m = n
            · rw [hmn, updF_self]
              have := hinv.cntPos
              omega
            · rw [updF_ne _ _ _ _ hmn]
              exact (hD m hm).1
          · show m ∉ st.stack
            exact (hD m hm).2
        · intro hN
          refine Or.inl ⟨?_, by rw [← hr2'], by rw [← hr2']⟩
          intro m hm
          rw [← hr2']
          show updF st.idx n st.cnt m = -1
          have hmn : m ≠ n := fun he => hvis (he ▸ hN m hm)
          rw [updF_ne _ _ _ _ hmn]
          exact hN m hm
    have hstm : NoC C stm ∨ DoneC C stm := by
      rcases hst with hN | hD
      · rcases hstep.2 hN with ⟨hN', _, _⟩ | ⟨hD', _⟩
        · exact Or.inl hN'
        · exact Or.inr hD'
      · exact Or.inr (hstep.1 hD).1
    obtain ⟨st', hrun, hDk', hNk'⟩ := ih stm hqm (fun m hm => hsub m (by simp [hm])) hstm
    refine ⟨st', ?_, ?_, ?_⟩
    · simp only [mainLoop]
      rw [hr2]
      exact hrun
    · intro hD
      obtain ⟨hDm, ho1, hy1⟩ := hstep.1 hD
      obtain ⟨hD', ho2, hy2⟩ := hDk' hDm
      exact ⟨hD', by rw [ho2, ho1], by rw [hy2, hy1]⟩
    · intro hN
      rcases hstep.2 hN with ⟨hNm, ho1, hy1⟩ | ⟨hDm, g, hg1, hy1, hgn, hgm⟩
      · rcases hNk' hNm with ⟨hN', ho2, hy2⟩ | ⟨hD', g', hg2, hy2', hgn', hgm'⟩
        · exact Or.inl ⟨hN', by rw [ho2, ho1], by rw [hy2, hy1]⟩
        · exact Or.inr ⟨hD', g', by rw [hg2, ho1], hy2', hgn', hgm'⟩
      · obtain ⟨hD', ho2, hy2⟩ := hDk' hDm
        exact Or.inr ⟨hD', g, by rw [ho2, hg1], by rw [hy2, hy1], hgn, hgm⟩

theorem get_congr_idx (C : List Name) (a b : Nat) (ha : a < C.length) (hb : b < C.length)
    (h : a = b) : C.get ⟨a, ha⟩ = C.get ⟨b, hb⟩ := by
  subst h
  rfl

theorem idxOfD_get : ∀ (C : List Name), C.Nodup →
    ∀ i (hi : i < C.length), idxOfD C (C.get ⟨i, hi⟩) = i := by
  intro C
  induction C with
  | nil => intro _ i hi; simp at hi
  | cons x rest ih =>
    intro hnd i hi
    cases i with
    | zero => simp [idxOfD]
    | succ j =>
      have hj : j < rest.length := by
        simp at hi
        omega
      have hget : (x :: rest).get ⟨j + 1, hi⟩ = rest.get ⟨j, hj⟩ := rfl
      rw [hget]
      unfold idxOfD
      have hne : rest.get ⟨j, hj⟩ ≠ x := by
        intro he
        have hx : x ∈ rest := he ▸ List.get_mem rest j hj
        exact (List.nodup_cons.mp hnd).1 hx
      rw [if_neg hne, ih (List.nodup_cons.mp hnd).2 j hj]

theorem cycSucc_get (C : List Name) (hnd : C.Nodup) (i : Nat) (hi : i < C.length) :
    cycSucc C (C.get ⟨i, hi⟩) =
      C.get ⟨(i + 1) % C.length, Nat.mod_lt _ (by omega)⟩ := by
  unfold cycSucc
  rw [idxOfD_get C hnd i hi]
  have hpos : 0 < C.length := by omega
  exact List.getD_eq_get C [] (Nat.mod_lt _ hpos)

theorem cycSucc_iter (C : List Name) (hnd : C.Nodup) :
    ∀ t i (hi : i < C.length), (cycSucc C)^[t] (C.get ⟨i, hi⟩) =
      C.get ⟨(i + t) % C.length, Nat.mod_lt _ (by omega)⟩ := by
  intro t
  induction t with
  | zero =>
    intro i hi
    simp only [Function.iterate_zero, id]
    exact get_congr_idx C i ((i + 0) % C.length) hi _ (by rw [Nat.add_zero, Nat.mod_eq_of_lt hi])
  | succ t iht =>
    intro i hi
    rw [Function.iterate_succ_apply', iht i hi]
    rw [cycSucc_get C hnd _ (Nat.mod_lt _ (by omega))]
    apply get_congr_idx
    rw [Nat.mod_add_mod]
    have h2 : i + t + 1 = i + (t + 1) := by omega
    rw [h2]

theorem cycSucc_mem (C : List Name) (hnd : C.Nodup) : ∀ m ∈ C, cycSucc C m ∈ C := by
  intro m hm
  obtain ⟨i, hi, he⟩ := List.mem_iff_getElem.mp hm
  have hg : C.get ⟨i, hi⟩ = m := he
  rw [← hg, cycSucc_get C hnd i hi]
  exact List.get_mem _ _ _

theorem cycSucc_orbit (C : List Name) (hnd : C.Nodup) :
    ∀ m1 ∈ C, ∀ m2 ∈ C, ∃ j, (cycSucc C)^[j] m1 = m2 := by
  intro m1 h1 m2 h2
  obtain ⟨i1, hi1, he1⟩ := List.mem_iff_getElem.mp h1
  obtain ⟨i2, hi2, he2⟩ := List.mem_iff_getElem.mp h2
  refine ⟨(C.length - i1) + i2, ?_⟩
  have hg1 : C.get ⟨i1, hi1⟩ = m1 := he1
  have hg2 : C.get ⟨i2, hi2⟩ = m2 := he2
  rw [← hg1, cycSucc_iter C hnd _ i1 hi1, ← hg2]
  apply get_congr_idx
  have h3 : i1 + (C.length - i1 + i2) = C.length + i2 := by omega
  rw [h3, Nat.add_mod_left, Nat.mod_eq_of_lt hi2]

theorem cycSucc_edge (adj : Name → List Name) (C : List Name) (hnd : C.Nodup)
    (hchain : C.Chain' (Edge adj))
    (hwrap : ∀ h : C ≠ [], Edge adj (C.getLast h) (C.head h)) :
    ∀ m ∈ C, cycSucc C m ∈ adj m := by
  intro m hm
  obtain ⟨i, hi, he⟩ := List.mem_iff_getElem.mp hm
  have hg : C.get ⟨i, hi⟩ = m := he
  rw [← hg, cycSucc_get C hnd i hi]
  by_cases hlast : i + 1 < C.length
  · have hcg := List.chain'_iff_get.mp hchain i (by omega)
    have hx : C.get ⟨(i + 1) % C.length, Nat.mod_lt _ (by omega)⟩ =
        C.get ⟨i + 1, hlast⟩ :=
      get_congr_idx C _ _ _ _ (Nat.mod_eq_of_lt hlast)
    rw [hx]
    exact hcg
  · have hne : C ≠ [] := by
      intro h0
      rw [h0] at hi
      simp at hi
    have hieq : i + 1 = C.length := by omega
    have hW := hwrap hne
    have hL : C.getLast hne = C.get ⟨i, hi⟩ := by
      rw [List.getLast_eq_get]
      exact get_congr_idx C _ _ _ _ (by omega)
    have hH : C.head hne = C.get ⟨(i + 1) % C.length, Nat.mod_lt _ (by omega)⟩ := by
      rw [List.head_eq_getElem]
      have hz : (i + 1) % C.length = 0 := by
        rw [hieq, Nat.mod_self]
      exact (get_congr_idx C _ 0 _ (by omega) hz).symm
    rw [hL, hH] at hW
    exact hW

theorem transGen_first {r : Name → Name → Prop} {a b : Name}
    (h : Relation.TransGen r a b) : ∃ c, r a c := by
  induction h with
  | single h1 => exact ⟨_, h1⟩
  | tail _ _ ih => exact ih

/-- C4 (confirmed): on a graph whose only cycle is the k-node cycle `C`
(k ≥ 2, no node outside `C` lies on any directed cycle), the run reports
exactly one component: the output is a single group `g` that contains each
of the k cycle nodes exactly once (`g` is duplicate-free, has the same
members as `C`, and has length k), `cyclesDetected` is set, and the
no-cycles summary line is not printed. -/
theorem c4 (nodes : List Name) (adj : Name → List Name) (C : List Name)
    (hclosed : ClosedAdj nodes adj) (hsub : ∀ m ∈ C, m ∈ nodes)
    (hk2 : 2 ≤ C.length) (hnd : C.Nodup)
    (hchain : C.Chain' (Edge adj))
    (hwrap : ∀ h : C ≠ [], Edge adj (C.getLast h) (C.head h))
    (honly : ∀ u, ReachesPlus adj u u → u ∈ C) :
    ∃ st g, runTarjan nodes adj = some st ∧ st.out = [g] ∧ st.cyc = true ∧
      summaryPrinted st = false ∧ g.Nodup ∧ (∀ u, u ∈ g ↔ u ∈ C) ∧
      g.length = C.length := by
  have hCne : C ≠ [] := by
    intro h0
    rw [h0] at hk2
    simp at hk2
  have hfC := cycSucc_mem C hnd
  have hfE := cycSucc_edge adj C hnd hchain hwrap
  have horb := cycSucc_orbit C hnd
  obtain ⟨st', hrun, hDk, hNk⟩ := mainLoopCyc adj nodes C (cycSucc C) hclosed honly hCne
    hfC hfE horb hk2 hnd nodes initTS (qinv_init adj) (fun m hm => hm)
    (Or.inl (fun m _ => rfl))
  rcases hNk (fun m _ => rfl) with ⟨hN', _, _⟩ | ⟨hD', g, hg, hy, hgn, hgm⟩
  · exfalso
    obtain ⟨st'', hrun2, _, hvis, _⟩ := mainLoop_spec adj nodes hclosed nodes initTS
      (qinv_init adj) (fun m hm => hm)
    rw [hrun] at hrun2
    injection hrun2 with heq
    obtain ⟨m0, hm0⟩ := List.exists_mem_of_ne_nil C hCne
    have hv0 := hvis m0 (hsub m0 hm0)
    rw [← heq] at hv0
    exact hv0 (hN' m0 hm0)
  · refine ⟨st', g, hrun, ?_, hy, ?_, hgn, hgm, ?_⟩
    · rw [hg]
      rfl
    · show (!st'.cyc) = false
      rw [hy]
      rfl
    · have h1 : g.toFinset = C.toFinset := by
        ext u
        simp only [List.mem_toFinset]
        exact hgm u
      have h2 := List.toFinset_card_of_nodup hgn
      have h3 := List.toFinset_card_of_nodup hnd
      rw [← h2, ← h3, h1]

/-- Witness for C4: the two-header cycle a.h -> b.h -> a.h. -/
theorem c4_witness :
    ∃ st g, runTarjan [s2n "a.h", s2n "b.h"]
        (fun n => if n = s2n "a.h" then [s2n "b.h"]
          else if n = s2n "b.h" then [s2n "a.h"] else []) = some st ∧
      st.out = [g] ∧ st.cyc = true ∧ summaryPrinted st = false ∧ g.Nodup ∧
      (∀ u, u ∈ g ↔ u ∈ [s2n "a.h", s2n "b.h"]) ∧
      g.length = ([s2n "a.h", s2n "b.h"] : List Name).length :=
  c4 [s2n "a.h", s2n "b.h"]
    (fun n => if n = s2n "a.h" then [s2n "b.h"]
      else if n = s2n "b.h" then [s2n "a.h"] else [])
    [s2n "a.h", s2n "b.h"]
    (by
      intro n hn c hc
      rcases List.mem_cons.mp hn with h1 | h1
      · rw [h1] at hc
        simp only [if_pos rfl] at hc
        simp at hc
        simp [hc]
      · have h2 : n = s2n "b.h" := by simpa using h1
        rw [h2] at hc
        have hne : s2n "b.h" ≠ s2n "a.h" := by decide
        have hc2 : c ∈ (if (s2n "b.h" : Name) = s2n "a.h" then [s2n "b.h"]
            else if (s2n "b.h" : Name) = s2n "b.h" then [s2n "a.h"] else []) := hc
        rw [if_neg hne, if_pos rfl] at hc2
        simp at hc2
        simp [hc2])
    (fun m hm => hm)
    (by decide)
    (by decide)
    (by
      rw [List.chain'_cons]
      refine ⟨?_, List.chain'_singleton _⟩
      show (s2n "b.h") ∈ (fun n => if n = s2n "a.h" then [s2n "b.h"]
        else if n = s2n "b.h" then [s2n "a.h"] else ([] : List Name)) (s2n "a.h")
      decide)
    (by
      intro h
      show (s2n "a.h") ∈ (fun n => if n = s2n "a.h" then [s2n "b.h"]
        else if n = s2n "b.h" then [s2n "a.h"] else ([] : List Name)) (s2n "b.h")
      decide)
    (by
      intro u h
      obtain ⟨c, hc⟩ := transGen_first h
      by_cases h1 : u = s2n "a.h"
      · simp [h1]
      · by_cases h2 : u = s2n "b.h"
        · simp [h2]
        · exfalso
          have hc' : c ∈ (if u = s2n "a.h" then [s2n "b.h"]
            else if u = s2n "b.h" then [s2n "a.h"] else ([] : List Name)) := hc
          rw [if_neg h1, if_neg h2] at hc'
          simp at hc')
